import Mathlib

/-
Verification of the dense Merkle Patricia Trie engine (core/trie/trie.go).

The trie orchestration code (descent, insertion, deletion, dirty tracking,
lazy commitment) is embedded directly from the source.  The external
collaborators that the source file references but that are outside the
excerpted core (bit-keys, node hashing, the key-value storage) are modelled
from their contracts in the specification; each such definition carries a
doc comment saying so.

Field elements are modelled as natural numbers (the hash function is an
explicit parameter of the trie, so no field arithmetic beyond comparison
with the maximal key is needed).  Keys are bit strings, most significant
bit first.  Storage is an association list together with a root-key slot,
a fault-injection list (to model storage errors other than key-not-found)
and a ghost trace of write events used to state the "no storage writes"
claims.
-/

namespace JunoTrie

/-- Field elements, modelled as natural numbers. -/
abbrev Felt := Nat

/-- Modelled from the spec: a trie key is an immutable bit string of bounded
length; we represent it as a list of bits, most significant bit first.
The distinguished NIL key is the empty list. -/
abbrev Key := List Bool

/-- Modelled from the spec (Key contract): MSB-relative indexed bit access
is exposed in the source as LSB-indexed `IsBitSet`; bit `pos` counts from
the least-significant end. -/
def isBitSet (k : Key) (pos : Nat) : Bool :=
  k.getD (k.length - 1 - pos) false

/-- Modelled from the spec (Key contract): `Truncate n` keeps the `n`
least-significant bits of the key (the bits below the chopped prefix). -/
def truncateKey (k : Key) (n : Nat) : Key :=
  k.drop (k.length - n)

/-- Modelled from the spec: `isSubset(descendant, ancestor)` is true iff
`ancestor` is a prefix of `descendant`. -/
def isSubset (descendant ancestor : Key) : Bool :=
  decide (ancestor <+: descendant)

/-- Longest common prefix of two bit strings. -/
def lcpKey : Key → Key → Key
  | a :: as, b :: bs => if a = b then a :: lcpKey as bs else []
  | _, _ => []

/-- Modelled from the spec: `findCommonKey(a, b)` yields the longest shared
prefix of two keys plus a bit indicating divergence direction. -/
def findCommonKey (a b : Key) : Key × Bool :=
  let c := lcpKey a b
  (c, isBitSet a (a.length - c.length - 1))

/-- The relative path from `parentKey` to `key` (trie.go `path`): drop the
parent key and one more most-significant bit, since the left/right relation
already encodes that bit.  With no parent the key itself is returned. -/
def pathOf (key : Key) (parentKey : Option Key) : Key :=
  match parentKey with
  | none => key
  | some p => truncateKey key (key.length - p.length - 1)

/-- Interpret a bit string as a field element (most significant bit first). -/
def feltOfKey (k : Key) : Felt :=
  k.foldl (fun a b => 2 * a + (if b then 1 else 0)) 0

/-- Modelled from the spec (Key contract): `FeltToKey height f` takes the
`height` low bits of the field element as a key of length `height`. -/
def feltToKey (height : Nat) (f : Felt) : Key :=
  (List.range height).map (fun i => f.testBit (height - 1 - i))

/-- The in-memory record for a trie position (trie.go / Node contract).
A NIL child pointer is represented by the empty key. -/
structure Node where
  Value : Felt
  Left : Key := []
  Right : Key := []
  LeftHash : Option Felt := none
  RightHash : Option Felt := none
deriving DecidableEq, Repr

/-- Hash function type: the trie is parameterised by a two-argument hash. -/
abbrev HashFn := Felt → Felt → Felt

/-- Modelled from the spec (node hash contract, section 4.2): a node's
contribution to its parent is its own commitment when the relative path is
empty, and otherwise the bound hash applied to the commitment and the path
bits read as a field element. -/
def nodeHash (hash : HashFn) (n : Node) (p : Key) : Felt :=
  if p.length = 0 then n.Value else hash n.Value (feltOfKey p)

/-- On-disk pairing of a storage key and its node (trie.go StorageNode). -/
structure SNode where
  key : Key
  node : Node
deriving DecidableEq, Repr

instance : Inhabited Node := ⟨{ Value := 0 }⟩

instance : Inhabited SNode := ⟨⟨[], default⟩⟩

/-- Errors surfaced by the trie: storage key-not-found, an injected storage
fault (any other storage error), exhaustion of the recursion fuel, and the
key-out-of-range failure of Put. -/
inductive TErr where
  | keyNotFound
  | fault (code : Nat)
  | outOfFuel
  | keyOutOfRange
deriving DecidableEq, Repr

deriving instance DecidableEq for Except

/-- Ghost write events recorded by the storage: node put, node delete,
root-key put, root-key delete.  Reads are not recorded. -/
inductive Ev where
  | put (k : Key) (n : Node)
  | del (k : Key)
  | putRoot (k : Key)
  | delRoot
deriving DecidableEq, Repr

/-- Association-list lookup for stored nodes. -/
def findAssoc : List (Key × Node) → Key → Option Node
  | [], _ => none
  | (k, n) :: rest, j => if k = j then some n else findAssoc rest j

/-- Association-list update (replace or append). -/
def putAssoc : List (Key × Node) → Key → Node → List (Key × Node)
  | [], j, m => [(j, m)]
  | (k, n) :: rest, j, m =>
    if k = j then (j, m) :: rest else (k, n) :: putAssoc rest j m

/-- Association-list removal. -/
def delAssoc : List (Key × Node) → Key → List (Key × Node)
  | [], _ => []
  | (k, n) :: rest, j => if k = j then delAssoc rest j else (k, n) :: delAssoc rest j

/-- Modelled from the spec (storage contract): a mapping from keys to nodes
plus a root-key slot.  `faults` injects storage errors other than
key-not-found; `trace` is the ghost write log. -/
structure Storage where
  nodes : List (Key × Node)
  rootKeySlot : Option Key
  faults : List (Key × Nat)
  trace : List Ev
deriving DecidableEq, Repr

/-- Lookup of an injected fault code for a key. -/
def findFault : List (Key × Nat) → Key → Option Nat
  | [], _ => none
  | (k, c) :: rest, j => if k = j then some c else findFault rest j

/-- Apply one write event to the storage, recording it in the trace. -/
def applyEv (s : Storage) : Ev → Storage
  | .put k n =>
    { s with nodes := putAssoc s.nodes k n, trace := s.trace ++ [.put k n] }
  | .del k =>
    { s with nodes := delAssoc s.nodes k, trace := s.trace ++ [.del k] }
  | .putRoot k =>
    { s with rootKeySlot := some k, trace := s.trace ++ [.putRoot k] }
  | .delRoot =>
    { s with rootKeySlot := none, trace := s.trace ++ [.delRoot] }

/-- Replay a list of write events. -/
def applyEvs (s : Storage) (evs : List Ev) : Storage :=
  evs.foldl applyEv s

/-- Modelled from the spec (storage contract): point get; an injected fault
takes priority, otherwise a missing key reports key-not-found. -/
def sget (s : Storage) (k : Key) : Except TErr Node :=
  match findFault s.faults k with
  | some c => .error (.fault c)
  | none =>
    match findAssoc s.nodes k with
    | some n => .ok n
    | none => .error .keyNotFound

/-- Modelled from the spec (storage contract): point put. -/
def sput (s : Storage) (k : Key) (n : Node) : Storage :=
  applyEv s (.put k n)

/-- Modelled from the spec (storage contract): point delete. -/
def sdel (s : Storage) (k : Key) : Storage :=
  applyEv s (.del k)

/-- Modelled from the spec (storage contract): write the root-key slot. -/
def sputRootKey (s : Storage) (k : Key) : Storage :=
  applyEv s (.putRoot k)

/-- Modelled from the spec (storage contract): clear the root-key slot. -/
def sdelRootKey (s : Storage) : Storage :=
  applyEv s .delRoot

/-- Modelled from the spec (storage contract): the synced view admits the
commitment pass's internal parallel writes; its sequential semantics is
that of the underlying storage. -/
def syncedStorage (s : Storage) : Storage := s

/-- The trie state (trie.go Trie). -/
structure Trie where
  height : Nat
  rootKey : Option Key
  maxKey : Felt
  storage : Storage
  hash : HashFn
  dirtyNodes : List Key
  rootKeyIsDirty : Bool

/-- trie.go FeltToKey: convert a field element to this trie's key space. -/
def Trie.FeltToKey (t : Trie) (k : Felt) : Key :=
  feltToKey t.height k

/-- trie.go setRootKey. -/
def Trie.setRootKey (t : Trie) (newRootKey : Option Key) : Trie :=
  { t with rootKey := newRootKey, rootKeyIsDirty := true }

/-- trie.go nodesFromRoot, inner loop with explicit fuel: enumerate the
nodes traversed from the root towards `key`, descending right when the
key's bit below the current node is set. -/
def nodesFromRootAux (s : Storage) (key : Key) :
    Nat → Option Key → List SNode → Except TErr (List SNode)
  | 0, _, _ => .error .outOfFuel
  | _ + 1, none, nodes => .ok nodes
  | fuel + 1, some cur, nodes =>
    if nodes.length > 0 ∧ cur.length = 0 then
      .ok nodes
    else
      match sget s cur with
      | .error e => .error e
      | .ok node =>
        let nodes := nodes ++ [⟨cur, node⟩]
        if cur.length ≥ key.length ∨ ¬ isSubset key cur then
          .ok nodes
        else
          let next := if isBitSet key (key.length - cur.length - 1)
                      then node.Right else node.Left
          nodesFromRootAux s key fuel (some next) nodes

/-- trie.go nodesFromRoot.  The fuel `key.length + 2` is enough for every
storage whose child links strictly extend their parent keys. -/
def Trie.nodesFromRoot (t : Trie) (key : Key) : Except TErr (List SNode) :=
  nodesFromRootAux t.storage key (key.length + 2) t.rootKey []

/-- trie.go Get: read the leaf record at the full-depth storage key;
key-not-found is recovered as zero, other errors propagate. -/
def Trie.Get (t : Trie) (key : Felt) : Except TErr Felt :=
  let storageKey := t.FeltToKey key
  match sget t.storage storageKey with
  | .error .keyNotFound => .ok 0
  | .error e => .error e
  | .ok value => .ok value.Value

/-- trie.go updateLeaf: fast-path update of an existing leaf for a nonzero
value; records the old value, writes the leaf and marks it dirty. -/
def Trie.updateLeaf (t : Trie) (nodeKey : Key) (node : Node) (value : Felt) :
    Except TErr (Option Felt) × Trie :=
  if value ≠ 0 then
    match sget t.storage nodeKey with
    | .ok existingLeaf =>
      let old := existingLeaf.Value
      (.ok (some old),
        { t with storage := sput t.storage nodeKey node,
                 dirtyNodes := t.dirtyNodes ++ [nodeKey] })
    | .error .keyNotFound => (.ok none, t)
    | .error e => (.error e, t)
  else (.ok none, t)

/-- trie.go handleEmptyTrie: inserting into an empty trie stores the leaf
and makes it the root; storing zero is a no-op. -/
def Trie.handleEmptyTrie (t : Trie) (old : Felt) (nodeKey : Key) (node : Node)
    (value : Felt) : Except TErr (Option Felt) × Trie :=
  if value = 0 then
    (.ok none, t)
  else
    (.ok (some old),
      ({ t with storage := sput t.storage nodeKey node }).setRootKey (some nodeKey))

/-- trie.go deleteLast: delete the last node of a descent; if it was the
sole root clear the root key, otherwise delete its parent as well and
promote the sibling (as new root, or relinked into the grandparent). -/
def Trie.deleteLast (t : Trie) (nodes : List SNode) : Except TErr Unit × Trie :=
  match nodes.getLast? with
  | none => (.ok (), t)
  | some last =>
    let t := { t with storage := sdel t.storage last.key }
    if nodes.length = 1 then
      (.ok (), t.setRootKey none)
    else
      let parent := nodes[nodes.length - 2]!
      let t := { t with storage := sdel t.storage parent.key }
      let siblingKey := if parent.node.Left = last.key
                        then parent.node.Right else parent.node.Left
      if nodes.length = 2 then
        (.ok (), t.setRootKey (some siblingKey))
      else
        let grandParent := nodes[nodes.length - 3]!
        let gpNode := if grandParent.node.Left = parent.key
                      then { grandParent.node with Left := siblingKey }
                      else { grandParent.node with Right := siblingKey }
        (.ok (),
          { t with storage := sput t.storage grandParent.key gpNode,
                   dirtyNodes := t.dirtyNodes ++ [siblingKey] })

/-- trie.go deleteExistingKey: if the descent ended exactly at the key,
delete it and report its old value. -/
def Trie.deleteExistingKey (t : Trie) (sibling : SNode) (nodeKey : Key)
    (nodes : List SNode) : Except TErr (Option Felt) × Trie :=
  if nodeKey = sibling.key then
    let old := sibling.node.Value
    match t.deleteLast nodes with
    | (.ok _, t) => (.ok (some old), t)
    | (.error e, t) => (.error e, t)
  else (.ok none, t)

/-- trie.go replaceLinkWithNewParent: swap the grandparent's child pointer
that pointed at the sibling for the new parent's key. -/
def replaceLinkWithNewParent (key : Key) (commonKey : Key) (siblingParent : SNode) :
    Node :=
  if siblingParent.node.Left = key
  then { siblingParent.node with Left := commonKey }
  else { siblingParent.node with Right := commonKey }

/-- trie.go insertOrUpdateValue: place a new leaf, creating a branching
node at the common prefix with the sibling (or, in the proof case,
rewriting the existing proof parent's child pointer and child hash). -/
def Trie.insertOrUpdateValue (t : Trie) (nodeKey : Key) (node : Node)
    (nodes : List SNode) (sibling : SNode) (siblingIsParentProof : Bool) :
    Except TErr Unit × Trie :=
  let commonKey := (findCommonKey nodeKey sibling.key).1
  if siblingIsParentProof then
    match sget t.storage commonKey with
    | .error e => (.error e, t)
    | .ok newParent0 =>
      let childHash := nodeHash t.hash node nodeKey
      let newParent :=
        if isBitSet nodeKey (nodeKey.length - commonKey.length - 1)
        then { newParent0 with Right := nodeKey, RightHash := some childHash }
        else { newParent0 with Left := nodeKey, LeftHash := some childHash }
      let t := { t with storage := sput t.storage commonKey newParent,
                        dirtyNodes := t.dirtyNodes ++ [commonKey] }
      (.ok (), { t with storage := sput t.storage nodeKey node })
  else
    let bit := isBitSet nodeKey (nodeKey.length - commonKey.length - 1)
    let leftKey := if bit then sibling.key else nodeKey
    let rightKey := if bit then nodeKey else sibling.key
    let leftChild := if bit then sibling.node else node
    let rightChild := if bit then node else sibling.node
    let leftPath := pathOf leftKey (some commonKey)
    let rightPath := pathOf rightKey (some commonKey)
    let newParent : Node :=
      { Value := t.hash (nodeHash t.hash leftChild leftPath)
                        (nodeHash t.hash rightChild rightPath),
        Left := leftKey, Right := rightKey }
    let t := { t with storage := sput t.storage commonKey newParent }
    let t :=
      if nodes.length > 1 then
        let siblingParent := nodes[nodes.length - 2]!
        let spNode := replaceLinkWithNewParent sibling.key commonKey siblingParent
        { t with storage := sput t.storage siblingParent.key spNode,
                 dirtyNodes := t.dirtyNodes ++ [commonKey] }
      else
        t.setRootKey (some commonKey)
    (.ok (), { t with storage := sput t.storage nodeKey node })

/-- trie.go Put: bounds check, fast-path leaf update, descent, and then the
empty-trie / deletion / insertion cases. -/
def Trie.Put (t : Trie) (key value : Felt) : Except TErr (Option Felt) × Trie :=
  if t.maxKey < key then
    (.error .keyOutOfRange, t)
  else
    let old : Felt := 0
    let nodeKey := t.FeltToKey key
    let node : Node := { Value := value }
    match t.updateLeaf nodeKey node value with
    | (.error e, t) => (.error e, t)
    | (.ok (some oldValue), t) => (.ok (some oldValue), t)
    | (.ok none, t) =>
      match t.nodesFromRoot nodeKey with
      | .error e => (.error e, t)
      | .ok nodes =>
        if h : nodes.length = 0 then
          t.handleEmptyTrie old nodeKey node value
        else
          let sibling := nodes.getLast (by
            intro hnil; exact h (by simp [hnil]))
          match t.deleteExistingKey sibling nodeKey nodes with
          | (.error e, t) => (.error e, t)
          | (.ok (some oldValue), t) => (.ok (some oldValue), t)
          | (.ok none, t) =>
            if value = 0 then
              (.ok none, t)
            else
              match t.insertOrUpdateValue nodeKey node nodes sibling false with
              | (.error e, t) => (.error e, t)
              | (.ok _, t) => (.ok (some old), t)

/-- trie.go PutWithProof: as Put, but the sibling role may be replaced by a
matching caller-provided proof node, in which case the proof node becomes
the new parent. -/
def Trie.PutWithProof (t : Trie) (key value : Felt) (proof : List SNode) :
    Except TErr (Option Felt) × Trie :=
  if t.maxKey < key then
    (.error .keyOutOfRange, t)
  else
    let old : Felt := 0
    let nodeKey := t.FeltToKey key
    let node : Node := { Value := value }
    match t.updateLeaf nodeKey node value with
    | (.error e, t) => (.error e, t)
    | (.ok (some oldValue), t) => (.ok (some oldValue), t)
    | (.ok none, t) =>
      match t.nodesFromRoot nodeKey with
      | .error e => (.error e, t)
      | .ok nodes =>
        if h : nodes.length = 0 then
          t.handleEmptyTrie old nodeKey node value
        else
          let sibling := nodes.getLast (by
            intro hnil; exact h (by simp [hnil]))
          match t.deleteExistingKey sibling nodeKey nodes with
          | (.error e, t) => (.error e, t)
          | (.ok (some oldValue), t) => (.ok (some oldValue), t)
          | (.ok none, t) =>
            if value = 0 then
              (.ok none, t)
            else
              let found := proof.find? (fun proofNode => proofNode.key = sibling.key)
              let sibling' := match found with
                              | some proofNode => proofNode
                              | none => sibling
              let parentIsProof := found.isSome
              match t.insertOrUpdateValue nodeKey node nodes sibling' parentIsProof with
              | (.error e, t) => (.error e, t)
              | (.ok _, t) => (.ok (some old), t)

/-- trie.go PutInner: raw node placement. -/
def Trie.PutInner (t : Trie) (key : Key) (node : Node) : Except TErr Unit × Trie :=
  (.ok (), { t with storage := sput t.storage key node })

/-- A recursive child update: given a storage, update the subtree at a key
and return the refreshed node together with the evolved storage. -/
abbrev ChildUpd := Storage → Key → Except TErr Node × Storage

/-- trie.go updateChildTriesSerially: recurse into the non-proof children
one after the other, threading the storage. -/
def updateChildTriesSerially (upd : ChildUpd) (s : Storage) (root : Node)
    (leftIsProof rightIsProof : Bool) :
    Except TErr (Option Node × Option Node) × Storage :=
  if ¬ leftIsProof then
    match upd s root.Left with
    | (.error e, s) => (.error e, s)
    | (.ok leftChild, s) =>
      if ¬ rightIsProof then
        match upd s root.Right with
        | (.error e, s) => (.error e, s)
        | (.ok rightChild, s) => (.ok (some leftChild, some rightChild), s)
      else (.ok (some leftChild, none), s)
  else if ¬ rightIsProof then
    match upd s root.Right with
    | (.error e, s) => (.error e, s)
    | (.ok rightChild, s) => (.ok (none, some rightChild), s)
  else (.ok (none, none), s)

/-- trie.go updateChildTriesConcurrently: both children are updated against
the same initial storage (the left branch on its own task), and the writes
of both branches land in the shared synced storage; the model replays the
right branch's write events on top of the left branch's result.  Both
branches are awaited; a left-branch error is reported first. -/
def updateChildTriesConcurrently (upd : ChildUpd) (s : Storage) (root : Node)
    (leftIsProof rightIsProof : Bool) :
    Except TErr (Option Node × Option Node) × Storage :=
  let leftRun := if ¬ leftIsProof then some (upd s root.Left) else none
  let rightRun := if ¬ rightIsProof then some (upd s root.Right) else none
  let sLeft := match leftRun with
               | some (_, sL) => sL
               | none => s
  let sBoth := match rightRun with
               | some (_, sR) => applyEvs sLeft (sR.trace.drop s.trace.length)
               | none => sLeft
  match leftRun, rightRun with
  | some (.error e, _), _ => (.error e, sBoth)
  | _, some (.error e, _) => (.error e, sBoth)
  | some (.ok leftChild, _), some (.ok rightChild, _) =>
    (.ok (some leftChild, some rightChild), sBoth)
  | some (.ok leftChild, _), none => (.ok (some leftChild, none), sBoth)
  | none, some (.ok rightChild, _) => (.ok (none, some rightChild), sBoth)
  | none, none => (.ok (none, none), sBoth)

/-- trie.go: depth threshold below which the commitment pass recurses into
the two children concurrently. -/
def concurrencyMaxDepth : Nat := 8

/-- trie.go updateValueIfDirty: recompute a node's value when a dirty key
lies strictly below it (forced for inner proof nodes with exactly one NIL
child, suppressed for proof stubs with two NIL children), recursing into
the children — concurrently near the root, serially deeper down.  The
recursion is bounded by explicit fuel. -/
def updateValueIfDirty (t : Trie) : Nat → Storage → Key → Except TErr Node × Storage
  | 0, s, _ => (.error .outOfFuel, s)
  | fuel + 1, s, key =>
    match sget s key with
    | .error e => (.error e, s)
    | .ok node =>
      if key.length = t.height then
        (.ok node, s)
      else
        let shouldUpdate0 :=
          t.dirtyNodes.any (fun dirtyNode =>
            decide (key.length < dirtyNode.length) && isSubset dirtyNode key)
        let shouldUpdate :=
          if node.Left = [] ∧ node.Right = [] then false
          else if node.Left = [] ∨ node.Right = [] then true
          else shouldUpdate0
        if ¬ shouldUpdate then
          (.ok node, s)
        else
          let leftIsProof := node.Left = []
          let rightIsProof := node.Right = []
          let children :=
            if key.length ≤ concurrencyMaxDepth then
              updateChildTriesConcurrently (updateValueIfDirty t fuel) s node
                leftIsProof rightIsProof
            else
              updateChildTriesSerially (updateValueIfDirty t fuel) s node
                leftIsProof rightIsProof
          match children with
          | (.error e, s) => (.error e, s)
          | (.ok (leftChild, rightChild), s) =>
            let leftHash :=
              if leftIsProof then node.LeftHash.getD 0
              else nodeHash t.hash ((leftChild.getD default))
                     (pathOf node.Left (some key))
            let rightHash :=
              if rightIsProof then node.RightHash.getD 0
              else nodeHash t.hash ((rightChild.getD default))
                     (pathOf node.Right (some key))
            let node := { node with Value := t.hash leftHash rightHash }
            (.ok node, sput s key node)

/-- trie.go Root: settle the root-key slot if it is dirty, return zero for
an empty trie, otherwise recompute the dirty paths through the synced
storage view, clear the dirty list and hash the root node against its
root-relative path. -/
def Trie.Root (t : Trie) : Except TErr Felt × Trie :=
  let t :=
    if t.rootKeyIsDirty then
      match t.rootKey with
      | none =>
        { t with storage := sdelRootKey t.storage, rootKeyIsDirty := false }
      | some rk =>
        { t with storage := sputRootKey t.storage rk, rootKeyIsDirty := false }
    else t
  match t.rootKey with
  | none => (.ok 0, t)
  | some rootKey =>
    let synced := syncedStorage t.storage
    match updateValueIfDirty t (t.height + 1) synced rootKey with
    | (.error e, s) => (.error e, { t with storage := s })
    | (.ok root, s) =>
      let t := { t with storage := s, dirtyNodes := [] }
      (.ok (nodeHash t.hash root (pathOf rootKey none)), t)

/-- trie.go Commit: force root calculation. -/
def Trie.Commit (t : Trie) : Except TErr Unit × Trie :=
  match t.Root with
  | (.error e, t) => (.error e, t)
  | (.ok _, t) => (.ok (), t)

/-- trie.go RootKey accessor. -/
def Trie.RootKeyOf (t : Trie) : Option Key :=
  t.rootKey

/-- trie.go newTrie: construction reads the root-key slot, recovering
key-not-found as an absent root, and computes the maximal key. -/
def newTrie (storage : Storage) (height : Nat) (hash : HashFn) :
    Except TErr Trie :=
  if height > 252 then
    .error .keyOutOfRange
  else
    .ok { height := height
          rootKey := storage.rootKeySlot
          maxKey := 2 ^ height - 1
          storage := storage
          hash := hash
          dirtyNodes := []
          rootKeyIsDirty := false }

/-- A fully serial variant of the commitment recursion: identical to
trie.go updateValueIfDirty except that the children are always updated
serially, at every depth.  It is the sequential reference against which
the mixed (parallel above depth 8) recursion is compared. -/
def updateValueIfDirtySerial (t : Trie) :
    Nat → Storage → Key → Except TErr Node × Storage
  | 0, s, _ => (.error .outOfFuel, s)
  | fuel + 1, s, key =>
    match sget s key with
    | .error e => (.error e, s)
    | .ok node =>
      if key.length = t.height then
        (.ok node, s)
      else
        let shouldUpdate0 :=
          t.dirtyNodes.any (fun dirtyNode =>
            decide (key.length < dirtyNode.length) && isSubset dirtyNode key)
        let shouldUpdate :=
          if node.Left = [] ∧ node.Right = [] then false
          else if node.Left = [] ∨ node.Right = [] then true
          else shouldUpdate0
        if ¬ shouldUpdate then
          (.ok node, s)
        else
          let leftIsProof := node.Left = []
          let rightIsProof := node.Right = []
          match updateChildTriesSerially (updateValueIfDirtySerial t fuel) s
              node leftIsProof rightIsProof with
          | (.error e, s) => (.error e, s)
          | (.ok (leftChild, rightChild), s) =>
            let leftHash :=
              if leftIsProof then node.LeftHash.getD 0
              else nodeHash t.hash ((leftChild.getD default))
                     (pathOf node.Left (some key))
            let rightHash :=
              if rightIsProof then node.RightHash.getD 0
              else nodeHash t.hash ((rightChild.getD default))
                     (pathOf node.Right (some key))
            let node := { node with Value := t.hash leftHash rightHash }
            (.ok node, sput s key node)

/-- The sequential reference for Root: identical to trie.go Root except
that the recomputation pass uses the fully serial recursion. -/
def Trie.RootSerial (t : Trie) : Except TErr Felt × Trie :=
  let t :=
    if t.rootKeyIsDirty then
      match t.rootKey with
      | none =>
        { t with storage := sdelRootKey t.storage, rootKeyIsDirty := false }
      | some rk =>
        { t with storage := sputRootKey t.storage rk, rootKeyIsDirty := false }
    else t
  match t.rootKey with
  | none => (.ok 0, t)
  | some rootKey =>
    let synced := syncedStorage t.storage
    match updateValueIfDirtySerial t (t.height + 1) synced rootKey with
    | (.error e, s) => (.error e, { t with storage := s })
    | (.ok root, s) =>
      let t := { t with storage := s, dirtyNodes := [] }
      (.ok (nodeHash t.hash root (pathOf rootKey none)), t)

/-! Basic association-list and storage lemmas. -/

theorem findAssoc_putAssoc_self (l : List (Key × Node)) (k : Key) (n : Node) :
    findAssoc (putAssoc l k n) k = some n := by
  induction l with
  | nil => simp [putAssoc, findAssoc]
  | cons p rest ih =>
    by_cases h : p.1 = k
    · simp [putAssoc, h, findAssoc]
    · simp [putAssoc, h, findAssoc, ih]

theorem findAssoc_putAssoc_ne (l : List (Key × Node)) (k j : Key) (n : Node)
    (h : k ≠ j) : findAssoc (putAssoc l k n) j = findAssoc l j := by
  induction l with
  | nil => simp [putAssoc, findAssoc, h]
  | cons p rest ih =>
    by_cases hp : p.1 = k
    · simp [putAssoc, hp, findAssoc, h]
    · by_cases hj : p.1 = j
      · simp [putAssoc, hp, findAssoc, hj, Ne.symm h]
      · simp [putAssoc, hp, findAssoc, hj, ih]

theorem findAssoc_delAssoc_self (l : List (Key × Node)) (k : Key) :
    findAssoc (delAssoc l k) k = none := by
  induction l with
  | nil => simp [delAssoc, findAssoc]
  | cons p rest ih =>
    by_cases h : p.1 = k
    · simp [delAssoc, h, ih]
    · simp [delAssoc, h, findAssoc, ih]

theorem findAssoc_delAssoc_ne (l : List (Key × Node)) (k j : Key)
    (h : k ≠ j) : findAssoc (delAssoc l k) j = findAssoc l j := by
  induction l with
  | nil => simp [delAssoc, findAssoc]
  | cons p rest ih =>
    by_cases hp : p.1 = k
    · simp [delAssoc, hp, findAssoc, h, ih]
    · by_cases hj : p.1 = j
      · simp [delAssoc, hp, findAssoc, hj, Ne.symm h]
      · simp [delAssoc, hp, findAssoc, hj, ih]

theorem getBang_mem {α : Type _} [Inhabited α] (l : List α) (i : Nat)
    (h : i < l.length) : l[i]! ∈ l := by
  rw [getElem!_pos l i h]
  exact List.mem_iff_getElem.mpr ⟨i, h, rfl⟩

theorem applyEv_faults (s : Storage) (ev : Ev) : (applyEv s ev).faults = s.faults := by
  cases ev <;> rfl

theorem applyEv_trace (s : Storage) (ev : Ev) :
    (applyEv s ev).trace = s.trace ++ [ev] := by
  cases ev <;> rfl

theorem applyEvs_faults (s : Storage) (evs : List Ev) :
    (applyEvs s evs).faults = s.faults := by
  induction evs generalizing s with
  | nil => rfl
  | cons ev rest ih => simp [applyEvs] at ih ⊢; rw [ih, applyEv_faults]

theorem applyEvs_trace (s : Storage) (evs : List Ev) :
    (applyEvs s evs).trace = s.trace ++ evs := by
  induction evs generalizing s with
  | nil => simp [applyEvs]
  | cons ev rest ih =>
    simp only [applyEvs, List.foldl_cons] at ih ⊢
    rw [ih, applyEv_trace, List.append_assoc, List.singleton_append]

theorem applyEvs_append (s : Storage) (w₁ w₂ : List Ev) :
    applyEvs s (w₁ ++ w₂) = applyEvs (applyEvs s w₁) w₂ := by
  simp [applyEvs, List.foldl_append]

theorem sget_ok_findAssoc {s : Storage} {k : Key} {n : Node}
    (h : sget s k = .ok n) :
    findFault s.faults k = none ∧ findAssoc s.nodes k = some n := by
  unfold sget at h
  cases hf : findFault s.faults k with
  | some c => rw [hf] at h; exact absurd h (by simp)
  | none =>
    rw [hf] at h
    cases hn : findAssoc s.nodes k with
    | some m => rw [hn] at h; simp at h; exact ⟨rfl, by rw [h]⟩
    | none => rw [hn] at h; exact absurd h (by simp)

theorem sget_of_find {s : Storage} {k : Key} {n : Node}
    (hf : findFault s.faults k = none) (hn : findAssoc s.nodes k = some n) :
    sget s k = .ok n := by
  unfold sget; rw [hf, hn]

/-! Properties of the descent nodesFromRoot. -/

theorem nodesFromRootAux_sget {s : Storage} {key : Key} :
    ∀ {fuel : Nat} {cur : Option Key} {acc res : List SNode},
      nodesFromRootAux s key fuel cur acc = .ok res →
      (∀ n ∈ acc, sget s n.key = .ok n.node) →
      ∀ n ∈ res, sget s n.key = .ok n.node := by
  intro fuel
  induction fuel with
  | zero => intro cur acc res h; exact absurd h (by simp [nodesFromRootAux])
  | succ fuel ih =>
    intro cur acc res h hacc
    match cur with
    | none =>
      simp only [nodesFromRootAux] at h
      cases h; exact hacc
    | some cur =>
      simp only [nodesFromRootAux] at h
      split at h
      · cases h; exact hacc
      · cases hg : sget s cur with
        | error e => rw [hg] at h; exact absurd h (by simp)
        | ok node =>
          rw [hg] at h
          simp only at h
          split at h
          · cases h
            intro n hn
            rcases List.mem_append.mp hn with h1 | h1
            · exact hacc n h1
            · rcases List.mem_singleton.mp h1 with rfl; exact hg
          · exact ih h (by
              intro n hn
              rcases List.mem_append.mp hn with h1 | h1
              · exact hacc n h1
              · rcases List.mem_singleton.mp h1 with rfl; exact hg)

theorem nodesFromRoot_sget {t : Trie} {key : Key} {res : List SNode}
    (h : t.nodesFromRoot key = .ok res) :
    ∀ n ∈ res, sget t.storage n.key = .ok n.node :=
  nodesFromRootAux_sget h (by intro n hn; exact absurd hn (by simp))

theorem nodesFromRootAux_len_lt {s : Storage} {key : Key} :
    ∀ {fuel : Nat} {cur : Option Key} {acc res : List SNode},
      nodesFromRootAux s key fuel cur acc = .ok res →
      (∀ n ∈ acc, n.key.length < key.length) →
      ∀ i, i + 1 < res.length → (res[i]!).key.length < key.length := by
  intro fuel
  induction fuel with
  | zero => intro cur acc res h; exact absurd h (by simp [nodesFromRootAux])
  | succ fuel ih =>
    intro cur acc res h hacc
    match cur with
    | none =>
      simp only [nodesFromRootAux] at h
      cases h
      intro i hi
      exact hacc _ (getBang_mem acc i (by omega))
    | some cur =>
      simp only [nodesFromRootAux] at h
      split at h
      · cases h
        intro i hi
        exact hacc _ (getBang_mem acc i (by omega))
      · cases hg : sget s cur with
        | error e => rw [hg] at h; exact absurd h (by simp)
        | ok node =>
          rw [hg] at h
          simp only at h
          split at h
          · cases h
            intro i hi
            have hlen : acc.length + 1 = (acc ++ [(⟨cur, node⟩ : SNode)]).length := by
              simp
            have hi' : i < acc.length := by
              simp at hi; omega
            have : (acc ++ [(⟨cur, node⟩ : SNode)])[i]! = acc[i]! := by
              rw [getElem!_pos (acc ++ [(⟨cur, node⟩ : SNode)]) i (by simp; omega),
                  getElem!_pos acc i hi']
              exact List.getElem_append_left hi'
            rw [this]
            exact hacc _ (getBang_mem acc i hi')
          · rename_i hcont
            push_neg at hcont
            exact ih h (by
              intro n hn
              rcases List.mem_append.mp hn with h1 | h1
              · exact hacc n h1
              · rcases List.mem_singleton.mp h1 with rfl
                exact hcont.1)

/-! Concrete instances used by the witnesses. -/

/-- A concrete, collision-friendly test hash. -/
def testHash : HashFn := fun a b => 7 * a + 3 * b + 1

/-- A fresh empty storage. -/
def emptyStorage : Storage :=
  { nodes := [], rootKeySlot := none, faults := [], trace := [] }

/-- A fresh height-4 trie over the empty storage. -/
def testTrie4 : Trie :=
  { height := 4, rootKey := none, maxKey := 15, storage := emptyStorage,
    hash := testHash, dirtyNodes := [], rootKeyIsDirty := false }

/-- An empty trie whose root-key slot is stale and marked dirty. -/
def dirtyEmptyTrie : Trie :=
  { testTrie4 with rootKeyIsDirty := true,
                   storage := { emptyStorage with rootKeySlot := some [true] } }

/-- A trie with one stored leaf and one injected storage fault. -/
def faultTrie : Trie :=
  { testTrie4 with
    storage := { emptyStorage with
                 faults := [(feltToKey 4 1, 9)],
                 nodes := [(feltToKey 4 2, { Value := 5 })] } }

/-- A trie whose root node read fails with an injected fault. -/
def rootFaultTrie : Trie :=
  { testTrie4 with
    rootKey := some [true, true, false, false],
    dirtyNodes := [[true]],
    storage := { emptyStorage with
                 faults := [([true, true, false, false], 3)] } }

/-- The trie state after the failing Root call on rootFaultTrie. -/
def rootFaultTrieAfter : Trie := (rootFaultTrie.Root).2

/-- A well-formed fault-free two-leaf trie (keys 0 and 1 at height 4). -/
def faultFreeTrie : Trie :=
  { testTrie4 with
    rootKey := some [false, false, false],
    storage := { emptyStorage with nodes :=
      [([false, false, false],
        { Value := 99, Left := [false, false, false, false],
          Right := [false, false, false, true] }),
       ([false, false, false, false], { Value := 7 }),
       ([false, false, false, true], { Value := 8 })] } }

/-! Canonical view of an insert-only trie: the Patricia structure
determined by a finite key-value assignment, used to show that the
commitment is independent of the insertion order. -/

/-- Longest common prefix of a list of keys (the n-ary closure of the
pairwise findCommonKey). -/
def lcpList : List Key → Key
  | [] => []
  | k :: ks => ks.foldl lcpKey k

/-- The entries of a key-value view lying in the cone of a prefix. -/
def pairsBelow (E : List (Key × Felt)) (p : Key) : List (Key × Felt) :=
  E.filter (fun e => isSubset e.1 p)

/-- The key of the canonical trie node governing the cone of a prefix:
the longest common prefix of the stored keys below it. -/
def coneKey (E : List (Key × Felt)) (p : Key) : Key :=
  lcpList ((pairsBelow E p).map Prod.fst)

/-- A prefix carries a canonical trie node iff its cone is inhabited and
it is exactly the meet of its cone. -/
def isNode (E : List (Key × Felt)) (p : Key) : Prop :=
  pairsBelow E p ≠ [] ∧ coneKey E p = p

/-- The canonical node of the key-value view at a prefix: a leaf when the
cone is a single entry, otherwise a branching node over the two sub-cones
carrying the committed subtree hash.  The fuel dominates the remaining
depth. -/
def cnode (hash : HashFn) (E : List (Key × Felt)) : Nat → Key → Node
  | 0, _ => default
  | fuel + 1, p =>
    match pairsBelow E p with
    | [] => default
    | [e] => { Value := e.2 }
    | _ :: _ :: _ =>
      let L := coneKey E (p ++ [false])
      let R := coneKey E (p ++ [true])
      { Value := hash
          (nodeHash hash (cnode hash E fuel L) (pathOf L (some p)))
          (nodeHash hash (cnode hash E fuel R) (pathOf R (some p))),
        Left := L, Right := R }

/-- The canonical node at a prefix, with the standard fuel schedule. -/
def canonNode (hash : HashFn) (H : Nat) (E : List (Key × Felt)) (j : Key) :
    Node :=
  cnode hash E (H + 1 - j.length) j

/-- The canonical commitment of a key-value view. -/
def rootVal (hash : HashFn) (H : Nat) (E : List (Key × Felt)) : Felt :=
  nodeHash hash (canonNode hash H E (coneKey E [])) (coneKey E [])

/-- The storage realises the canonical view: no faults, no duplicate
slots, the populated slots are exactly the canonical node keys, every
stored node carries the canonical child links, and its value is canonical
unless a dirty key lies strictly below it. -/
def SRel (hash : HashFn) (H : Nat) (E : List (Key × Felt)) (D : List Key)
    (s : Storage) : Prop :=
  s.faults = [] ∧
  (s.nodes.map Prod.fst).Nodup ∧
  (∀ j, (∃ n, findAssoc s.nodes j = some n) ↔ isNode E j) ∧
  (∀ q ∈ s.nodes,
    q.2.Left = (canonNode hash H E q.1).Left ∧
    q.2.Right = (canonNode hash H E q.1).Right ∧
    (q.2.Value = (canonNode hash H E q.1).Value ∨
      ∃ d ∈ D, q.1 <+: d ∧ q.1 ≠ d))

/-- The trie realises the canonical view. -/
def Rel (hash : HashFn) (H : Nat) (E : List (Key × Felt)) (t : Trie) : Prop :=
  t.height = H ∧ t.hash = hash ∧ t.maxKey = 2 ^ H - 1 ∧
  (∀ e ∈ E, e.1.length = H) ∧ (E.map Prod.fst).Nodup ∧
  t.rootKey = (if E = [] then none else some (coneKey E [])) ∧
  (∀ d ∈ t.dirtyNodes, d.length ≤ H) ∧
  SRel hash H E t.dirtyNodes t.storage

/-- A trie freshly constructed over empty storage. -/
def emptyTrie (H : Nat) (hash : HashFn) : Trie :=
  { height := H, rootKey := none, maxKey := 2 ^ H - 1,
    storage := emptyStorage, hash := hash, dirtyNodes := [],
    rootKeyIsDirty := false }

/-- Insert a list of key-value pairs by iterated Put. -/
def putList (t : Trie) (l : List (Felt × Felt)) : Trie :=
  l.foldl (fun t p => (t.Put p.1 p.2).2) t

/-- The canonical entries determined by a list of field-element pairs. -/
def entriesOf (H : Nat) (l : List (Felt × Felt)) : List (Key × Felt) :=
  l.map (fun p => (feltToKey H p.1, p.2))

/-! Claim theorems. -/

/-- C3: for every key above the maximal key, Put and PutWithProof fail with
the key-out-of-range error and leave the trie state — storage contents,
write trace, root key, dirty list — completely unchanged. -/
theorem put_out_of_range_rejected (t : Trie) (key value : Felt)
    (h : t.maxKey < key) :
    t.Put key value = (.error .keyOutOfRange, t) ∧
    ∀ proof : List SNode,
      t.PutWithProof key value proof = (.error .keyOutOfRange, t) := by
  refine ⟨?_, fun proof => ?_⟩
  · simp [Trie.Put, h]
  · simp [Trie.PutWithProof, h]

theorem put_out_of_range_rejected_witness :
    testTrie4.maxKey < 16 ∧
    testTrie4.Put 16 1 = (.error .keyOutOfRange, testTrie4) ∧
    testTrie4.PutWithProof 16 1 [] = (.error .keyOutOfRange, testTrie4) :=
  ⟨by decide,
   (put_out_of_range_rejected testTrie4 16 1 (by decide)).1,
   (put_out_of_range_rejected testTrie4 16 1 (by decide)).2 []⟩

/-- C6: whenever the trie's root key is absent, Root returns the zero field
element; if the root-key slot was dirty it is settled (cleared) first. -/
theorem root_zero_when_root_key_absent (t : Trie) (h : t.rootKey = none) :
    (t.Root).1 = .ok 0 ∧
    (t.rootKeyIsDirty = true → ((t.Root).2).storage.rootKeySlot = none) := by
  cases hd : t.rootKeyIsDirty <;>
    simp [Trie.Root, h, hd, sdelRootKey, applyEv]

theorem root_zero_when_root_key_absent_witness :
    dirtyEmptyTrie.rootKey = none ∧
    (dirtyEmptyTrie.Root).1 = .ok 0 ∧
    ((dirtyEmptyTrie.Root).2).storage.rootKeySlot = none := by
  refine ⟨rfl, (root_zero_when_root_key_absent dirtyEmptyTrie rfl).1,
    (root_zero_when_root_key_absent dirtyEmptyTrie rfl).2 rfl⟩

/-- C7: Get consults only the full-depth storage key: a stored node yields
its value, a missing node yields zero without error, an injected storage
fault is propagated; and any trie of the same height whose storage answers
the same at that single key produces the same Get result. -/
theorem get_reads_only_leaf_slot (t : Trie) (key : Felt) :
    (∀ c, findFault t.storage.faults (t.FeltToKey key) = some c →
       t.Get key = .error (.fault c)) ∧
    (findFault t.storage.faults (t.FeltToKey key) = none →
       findAssoc t.storage.nodes (t.FeltToKey key) = none →
       t.Get key = .ok 0) ∧
    (∀ n, findFault t.storage.faults (t.FeltToKey key) = none →
       findAssoc t.storage.nodes (t.FeltToKey key) = some n →
       t.Get key = .ok n.Value) ∧
    (∀ t' : Trie, t'.height = t.height →
       sget t'.storage (t.FeltToKey key) = sget t.storage (t.FeltToKey key) →
       t'.Get key = t.Get key) := by
  refine ⟨fun c hc => ?_, fun hf hn => ?_, fun n hf hn => ?_, fun t' hh hs => ?_⟩
  · simp [Trie.Get, sget, hc]
  · simp [Trie.Get, sget, hf, hn]
  · simp [Trie.Get, sget, hf, hn]
  · have hkey : t'.FeltToKey key = t.FeltToKey key := by
      simp [Trie.FeltToKey, hh]
    simp only [Trie.Get, hkey, hs]

theorem get_reads_only_leaf_slot_witness :
    faultTrie.Get 1 = .error (.fault 9) ∧
    faultTrie.Get 2 = .ok 5 ∧
    faultTrie.Get 3 = .ok 0 :=
  ⟨(get_reads_only_leaf_slot faultTrie 1).1 9 (by decide),
   (get_reads_only_leaf_slot faultTrie 2).2.2.1 { Value := 5 } (by decide)
     (by decide),
   (get_reads_only_leaf_slot faultTrie 3).2.1 (by decide) (by decide)⟩

/-- C10: when the recursive recomputation inside Root fails, Root returns
the error and leaves the dirty-node list exactly as it was; the dirty list
is reset to empty only when the recomputation (root key present) succeeds. -/
theorem root_error_keeps_dirty_list (t : Trie) :
    (∀ e t', t.Root = (.error e, t') → t'.dirtyNodes = t.dirtyNodes) ∧
    (∀ r t', t.Root = (.ok r, t') → t.rootKey ≠ none → t'.dirtyNodes = []) := by
  cases hrk : t.rootKey with
  | none =>
    refine ⟨fun e t' h => ?_, fun r t' h hne => absurd rfl hne⟩
    cases hd : t.rootKeyIsDirty <;> simp [Trie.Root, hd, hrk] at h
  | some rk =>
    cases hd : t.rootKeyIsDirty with
    | false =>
      rcases hupd : updateValueIfDirty t (t.height + 1)
          (syncedStorage t.storage) rk with ⟨res, s'⟩
      cases res with
      | error e0 =>
        have hr : t.Root = (.error e0, { t with storage := s' }) := by
          simp [Trie.Root, hd, hrk, hupd]
        refine ⟨fun e t' h => ?_, fun r t' h hne => ?_⟩ <;> rw [hr] at h
        · simp only [Prod.mk.injEq] at h
          rw [← h.2]
        · simp at h
      | ok root =>
        have hr : t.Root = (.ok (nodeHash t.hash root (pathOf rk none)),
            { t with storage := s', dirtyNodes := [] }) := by
          simp [Trie.Root, hd, hrk, hupd]
        refine ⟨fun e t' h => ?_, fun r t' h hne => ?_⟩ <;> rw [hr] at h
        · simp at h
        · simp only [Prod.mk.injEq] at h
          rw [← h.2]
    | true =>
      rcases hupd : updateValueIfDirty
          { t with rootKey := some rk,
                   storage := sputRootKey t.storage rk, rootKeyIsDirty := false }
          (t.height + 1)
          (syncedStorage (sputRootKey t.storage rk)) rk with ⟨res, s'⟩
      cases res with
      | error e0 =>
        have hr : t.Root = (.error e0,
            { t with storage := s', rootKeyIsDirty := false }) := by
          simp [Trie.Root, hd, hrk, hupd]
        refine ⟨fun e t' h => ?_, fun r t' h hne => ?_⟩ <;> rw [hr] at h
        · simp only [Prod.mk.injEq] at h
          rw [← h.2]
        · simp at h
      | ok root =>
        have hr : t.Root = (.ok (nodeHash t.hash root (pathOf rk none)),
            { t with storage := s', rootKeyIsDirty := false,
                     dirtyNodes := [] }) := by
          simp [Trie.Root, hd, hrk, hupd]
        refine ⟨fun e t' h => ?_, fun r t' h hne => ?_⟩ <;> rw [hr] at h
        · simp at h
        · simp only [Prod.mk.injEq] at h
          rw [← h.2]

theorem root_error_keeps_dirty_list_witness :
    rootFaultTrie.Root = (.error (.fault 3), rootFaultTrieAfter) ∧
    rootFaultTrieAfter.dirtyNodes = rootFaultTrie.dirtyNodes :=
  ⟨rfl, (root_error_keeps_dirty_list rootFaultTrie).1 (.fault 3)
    rootFaultTrieAfter rfl⟩

theorem sget_keyNotFound {s : Storage} {k : Key}
    (h : sget s k = .error .keyNotFound) :
    findFault s.faults k = none ∧ findAssoc s.nodes k = none := by
  unfold sget at h
  cases hf : findFault s.faults k with
  | some c => rw [hf] at h; simp at h
  | none =>
    rw [hf] at h
    cases hn : findAssoc s.nodes k with
    | some m => rw [hn] at h; simp at h
    | none => exact ⟨rfl, rfl⟩

/-- The non-proof insertion always succeeds, ends by writing the new leaf
at its full key, and preserves faults and the trie height. -/
theorem insertOrUpdateValue_spec (t : Trie) (nodeKey : Key) (node : Node)
    (nodes : List SNode) (sibling : SNode) :
    (t.insertOrUpdateValue nodeKey node nodes sibling false).1 = .ok () ∧
    ((t.insertOrUpdateValue nodeKey node nodes sibling false).2).storage.faults
      = t.storage.faults ∧
    findAssoc
      ((t.insertOrUpdateValue nodeKey node nodes sibling false).2).storage.nodes
      nodeKey = some node ∧
    ((t.insertOrUpdateValue nodeKey node nodes sibling false).2).height
      = t.height := by
  by_cases h : nodes.length > 1 <;>
    simp [Trie.insertOrUpdateValue, h, sput, applyEv, Trie.setRootKey,
      findAssoc_putAssoc_self]

/-- C1: after a successful Put of a nonzero value, Get on the same key
returns that value, for every prior trie state. -/
theorem put_makes_get_return_value (t : Trie) (key value : Felt)
    (o : Option Felt) (t' : Trie)
    (hv : value ≠ 0) (hok : t.Put key value = (.ok o, t')) :
    t'.Get key = .ok value := by
  by_cases hc : t.maxKey < key
  · simp [Trie.Put, hc] at hok
  · simp only [Trie.Put, if_neg hc, Trie.updateLeaf, if_pos hv] at hok
    rcases hg : sget t.storage (t.FeltToKey key) with e | existing
    · rw [hg] at hok
      cases e with
      | keyNotFound =>
        obtain ⟨hfn, -⟩ := sget_keyNotFound hg
        simp only at hok
        rcases hnr : t.nodesFromRoot (t.FeltToKey key) with e' | nodes
        · rw [hnr] at hok; simp at hok
        · rw [hnr] at hok
          simp only at hok
          by_cases hlen : nodes.length = 0
          · rw [dif_pos hlen] at hok
            simp only [Trie.handleEmptyTrie, if_neg hv] at hok
            obtain ⟨-, ht'⟩ := Prod.mk.injEq .. ▸ hok
            rw [← ht']
            simp [Trie.Get, Trie.FeltToKey, Trie.setRootKey, sget, sput,
              applyEv, findAssoc_putAssoc_self,
              show findFault t.storage.faults (feltToKey t.height key) = none
                from hfn]
          · rw [dif_neg hlen] at hok
            have hsmem := nodesFromRoot_sget hnr
            have hnil : nodes ≠ [] := by
              intro hnil; exact hlen (by simp [hnil])
            have hne : ¬ t.FeltToKey key = (nodes.getLast hnil).key := by
              intro heq
              have hmem := hsmem (nodes.getLast hnil) (List.getLast_mem hnil)
              rw [← heq, hg] at hmem
              simp at hmem
            simp only [Trie.deleteExistingKey, if_neg hne] at hok
            simp only [if_neg hv] at hok
            obtain ⟨hins1, hfaults, hfind, hheight⟩ :=
              insertOrUpdateValue_spec t (t.FeltToKey key) { Value := value }
                nodes (nodes.getLast (by intro hnil; exact hlen (by simp [hnil])))
            have hpair : t.insertOrUpdateValue (t.FeltToKey key)
                { Value := value } nodes
                (nodes.getLast (by intro hnil; exact hlen (by simp [hnil]))) false
                = (.ok (), (t.insertOrUpdateValue (t.FeltToKey key)
                    { Value := value } nodes
                    (nodes.getLast (by intro hnil; exact hlen (by simp [hnil])))
                    false).2) := by
              rw [← hins1]
            rw [hpair] at hok
            set t₂ := (t.insertOrUpdateValue (t.FeltToKey key)
                { Value := value } nodes
                (nodes.getLast (by intro hnil; exact hlen (by simp [hnil])))
                false).2 with ht₂
            simp only [Prod.mk.injEq] at hok
            obtain ⟨-, ht'⟩ := hok
            rw [← ht']
            have hkeq : t₂.FeltToKey key = t.FeltToKey key := by
              simp [Trie.FeltToKey, hheight]
            simp only [Trie.Get, hkeq]
            rw [sget_of_find (by rw [hfaults]; exact hfn) hfind]
      | fault c => simp at hok
      | outOfFuel => simp at hok
      | keyOutOfRange => simp at hok
    · rw [hg] at hok
      simp only [Prod.mk.injEq] at hok
      obtain ⟨-, ht'⟩ := hok
      rw [← ht']
      obtain ⟨hfn, -⟩ := sget_ok_findAssoc hg
      simp [Trie.Get, Trie.FeltToKey, sget, sput, applyEv,
        findAssoc_putAssoc_self,
        show findFault t.storage.faults (feltToKey t.height key) = none
          from hfn]

theorem put_makes_get_return_value_witness :
    testTrie4.Put 6 11 = (.ok (some 0), (testTrie4.Put 6 11).2) ∧
    ((testTrie4.Put 6 11).2).Get 6 = .ok 11 := by
  refine ⟨rfl, put_makes_get_return_value testTrie4 6 11 (some 0)
    (testTrie4.Put 6 11).2 (by decide) rfl⟩

/-! Storage well-formedness: child links carry the directing bit as their
next bit after the parent key, and non-NIL links resolve in storage.  These
are the invariants maintained by the write path (checked below), phrased
over the stored entries so that they are decidable on concrete states. -/

/-- A child link is either NIL or extends the parent key by the directing
bit. -/
def childLink (k c : Key) (b : Bool) : Prop :=
  c = [] ∨ (k ++ [b]) <+: c

instance (k c : Key) (b : Bool) : Decidable (childLink k c b) := by
  unfold childLink; infer_instance

/-- Every stored node's children extend its key by the directing bit. -/
def linksOk (s : Storage) : Prop :=
  ∀ p ∈ s.nodes, childLink p.1 p.2.Left false ∧ childLink p.1 p.2.Right true

instance (s : Storage) : Decidable (linksOk s) := by
  unfold linksOk; infer_instance

/-- Every stored node's non-NIL children are present in storage. -/
def linksClosed (s : Storage) : Prop :=
  ∀ p ∈ s.nodes,
    (p.2.Left ≠ [] → findAssoc s.nodes p.2.Left ≠ none) ∧
    (p.2.Right ≠ [] → findAssoc s.nodes p.2.Right ≠ none)

instance (s : Storage) : Decidable (linksClosed s) := by
  unfold linksClosed; infer_instance

theorem findAssoc_some_mem {l : List (Key × Node)} {k : Key} {n : Node}
    (h : findAssoc l k = some n) : (k, n) ∈ l := by
  induction l with
  | nil => simp [findAssoc] at h
  | cons p rest ih =>
    by_cases hp : p.1 = k
    · simp only [findAssoc, if_pos hp] at h
      cases h
      have hpe : p = (k, p.2) := by
        rw [← hp]
      rw [hpe]
      exact List.mem_cons_self _ _
    · simp only [findAssoc, if_neg hp] at h
      exact List.mem_cons_of_mem _ (ih h)

theorem linksOk_find {s : Storage} {k : Key} {n : Node} (h : linksOk s)
    (hf : findAssoc s.nodes k = some n) :
    (n.Left = [] ∨ ∃ ext, n.Left = k ++ false :: ext) ∧
    (n.Right = [] ∨ ∃ ext, n.Right = k ++ true :: ext) := by
  obtain ⟨hl, hr⟩ := h _ (findAssoc_some_mem hf)
  constructor
  · rcases hl with h0 | ⟨ext, hext⟩
    · exact Or.inl h0
    · exact Or.inr ⟨ext, by rw [← hext]; simp⟩
  · rcases hr with h0 | ⟨ext, hext⟩
    · exact Or.inl h0
    · exact Or.inr ⟨ext, by rw [← hext]; simp⟩

/-- One unfolding step of the descent loop. -/
theorem nodesFromRootAux_step (s : Storage) (key : Key) (f : Nat) (cur : Key)
    (acc : List SNode) :
    nodesFromRootAux s key (f + 1) (some cur) acc =
      if acc.length > 0 ∧ cur.length = 0 then .ok acc
      else
        match sget s cur with
        | .error e => .error e
        | .ok node =>
          if cur.length ≥ key.length ∨ ¬ isSubset key cur then
            .ok (acc ++ [⟨cur, node⟩])
          else
            nodesFromRootAux s key f
              (some (if isBitSet key (key.length - cur.length - 1)
                     then node.Right else node.Left))
              (acc ++ [⟨cur, node⟩]) := rfl

/-- On fault-free well-formed storage the descent always succeeds within
its fuel. -/
theorem nodesFromRootAux_ok {s : Storage} {key : Key}
    (hf : s.faults = []) (hlo : linksOk s) (hlc : linksClosed s) :
    ∀ fuel (cur : Key) (acc : List SNode),
      1 ≤ fuel →
      ((acc.length > 0 ∧ cur.length = 0) ∨
        (findAssoc s.nodes cur ≠ none ∧ key.length + 2 - cur.length ≤ fuel)) →
      ∃ ns, nodesFromRootAux s key fuel (some cur) acc = .ok ns := by
  intro fuel
  induction fuel with
  | zero => intro cur acc h1; omega
  | succ f ih =>
    intro cur acc h1 hcase
    by_cases hearly : acc.length > 0 ∧ cur.length = 0
    · exact ⟨acc, by rw [nodesFromRootAux_step, if_pos hearly]⟩
    · rcases hcase with hE | ⟨hpres, hfuel⟩
      · exact absurd hE hearly
      obtain ⟨n, hn⟩ := Option.ne_none_iff_exists'.mp hpres
      have hget : sget s cur = .ok n := sget_of_find (by rw [hf]; rfl) hn
      by_cases hstop : cur.length ≥ key.length ∨ ¬ isSubset key cur
      · refine ⟨acc ++ [⟨cur, n⟩], ?_⟩
        rw [nodesFromRootAux_step, if_neg hearly, hget]
        simp only [if_pos hstop]
      · have hcurlt : cur.length < key.length := by
          rcases not_or.mp hstop with ⟨h1, -⟩; omega
        have hmem := findAssoc_some_mem hn
        obtain ⟨hlL, hlR⟩ := hlo _ hmem
        obtain ⟨hcL, hcR⟩ := hlc _ hmem
        set next := if isBitSet key (key.length - cur.length - 1)
                    then n.Right else n.Left with hnext
        have hnn : next = [] ∨
            (next ≠ [] ∧ findAssoc s.nodes next ≠ none ∧
              cur.length < next.length) := by
          by_cases hb : isBitSet key (key.length - cur.length - 1)
          · rw [hnext, if_pos hb]
            rcases hlR with h0 | hpre
            · exact Or.inl h0
            · refine Or.inr ⟨?_, hcR ?_, ?_⟩
              · intro h0; rw [h0] at hpre
                simp [List.IsPrefix] at hpre
              · intro h0; rw [h0] at hpre
                simp [List.IsPrefix] at hpre
              · have := hpre.length_le
                simp at this; omega
          · rw [hnext, if_neg hb]
            rcases hlL with h0 | hpre
            · exact Or.inl h0
            · refine Or.inr ⟨?_, hcL ?_, ?_⟩
              · intro h0; rw [h0] at hpre
                simp [List.IsPrefix] at hpre
              · intro h0; rw [h0] at hpre
                simp [List.IsPrefix] at hpre
              · have := hpre.length_le
                simp at this; omega
        have hf1 : 1 ≤ f := by omega
        rcases hnn with hnil | ⟨-, hpres', hlen'⟩
        · obtain ⟨ns, hns⟩ := ih [] (acc ++ [⟨cur, n⟩]) hf1
            (Or.inl (by simp))
          refine ⟨ns, ?_⟩
          rw [nodesFromRootAux_step, if_neg hearly, hget]
          simp only [if_neg hstop]
          rw [← hnext, hnil]
          exact hns
        · obtain ⟨ns, hns⟩ := ih next (acc ++ [⟨cur, n⟩]) hf1
            (Or.inr ⟨hpres', by omega⟩)
          refine ⟨ns, ?_⟩
          rw [nodesFromRootAux_step, if_neg hearly, hget]
          simp only [if_neg hstop]
          rw [← hnext]
          exact hns

/-- On fault-free well-formed storage with a resolvable root key,
nodesFromRoot succeeds. -/
theorem nodesFromRoot_ok {t : Trie} {key : Key}
    (hf : t.storage.faults = []) (hlo : linksOk t.storage)
    (hlc : linksClosed t.storage)
    (hroot : ∀ rk, t.rootKey = some rk →
      findAssoc t.storage.nodes rk ≠ none) :
    ∃ ns, t.nodesFromRoot key = .ok ns := by
  unfold Trie.nodesFromRoot
  cases hrk : t.rootKey with
  | none => exact ⟨[], by simp [nodesFromRootAux]⟩
  | some rk =>
    exact nodesFromRootAux_ok hf hlo hlc (key.length + 2) rk []
      (by omega) (Or.inr ⟨hroot rk hrk, by omega⟩)

/-- C8: writing zero to an absent key is a complete no-op — nil result, no
error, and the whole trie state (storage contents, trace, root key, dirty
list) is returned unchanged, on fault-free well-formed storage. -/
theorem put_zero_absent_is_noop (t : Trie) (key : Felt)
    (hf : t.storage.faults = []) (hlo : linksOk t.storage)
    (hlc : linksClosed t.storage)
    (hroot : ∀ rk, t.rootKey = some rk →
      findAssoc t.storage.nodes rk ≠ none)
    (habs : findAssoc t.storage.nodes (t.FeltToKey key) = none)
    (hk : ¬ t.maxKey < key) :
    t.Put key 0 = (.ok none, t) := by
  obtain ⟨ns, hns⟩ := @nodesFromRoot_ok t (t.FeltToKey key) hf hlo hlc hroot
  simp only [Trie.Put, if_neg hk, Trie.updateLeaf, ne_eq,
    not_true_eq_false, if_neg, ite_false, reduceIte]
  rw [hns]
  simp only
  by_cases hlen : ns.length = 0
  · rw [dif_pos hlen]
    simp [Trie.handleEmptyTrie]
  · rw [dif_neg hlen]
    have hnil : ns ≠ [] := by intro h0; exact hlen (by simp [h0])
    have hne : ¬ t.FeltToKey key = (ns.getLast hnil).key := by
      intro heq
      have hmem := nodesFromRoot_sget hns (ns.getLast hnil)
        (List.getLast_mem hnil)
      obtain ⟨-, hfind⟩ := sget_ok_findAssoc hmem
      rw [← heq] at hfind
      rw [habs] at hfind
      simp at hfind
    simp only [Trie.deleteExistingKey, if_neg hne]

theorem put_zero_absent_is_noop_witness :
    faultFreeTrie.Put 5 0 = (.ok none, faultFreeTrie) :=
  put_zero_absent_is_noop faultFreeTrie 5 (by decide) (by decide) (by decide)
    (by intro rk h; cases h; decide) (by decide) (by decide)

/-- Under linksOk, the keys of the nodes returned by the descent have
strictly increasing lengths. -/
theorem nodesFromRootAux_chain {s : Storage} {key : Key} (hlo : linksOk s) :
    ∀ {fuel : Nat} {cur : Key} {acc res : List SNode},
      nodesFromRootAux s key fuel (some cur) acc = .ok res →
      List.Chain' (fun a b => a.key.length < b.key.length) acc →
      ((acc.length > 0 ∧ cur.length = 0) ∨
        (∀ a, acc.getLast? = some a → a.key.length < cur.length)) →
      List.Chain' (fun a b => a.key.length < b.key.length) res := by
  intro fuel
  induction fuel with
  | zero => intro cur acc res h; simp [nodesFromRootAux] at h
  | succ f ih =>
    intro cur acc res h hacc hcase
    rw [nodesFromRootAux_step] at h
    by_cases hearly : acc.length > 0 ∧ cur.length = 0
    · rw [if_pos hearly] at h; cases h; exact hacc
    · rw [if_neg hearly] at h
      have hlt : ∀ a, acc.getLast? = some a → a.key.length < cur.length := by
        rcases hcase with hE | hlt
        · exact absurd hE hearly
        · exact hlt
      cases hg : sget s cur with
      | error e => rw [hg] at h; simp at h
      | ok node =>
        rw [hg] at h
        simp only at h
        have hacc' : List.Chain' (fun a b => a.key.length < b.key.length)
            (acc ++ [⟨cur, node⟩]) := by
          refine List.Chain'.append hacc (List.chain'_singleton _) ?_
          intro x hx y hy
          simp only [List.head?_cons, Option.mem_def, Option.some.injEq] at hy
          rw [← hy]
          exact hlt x hx
        split at h
        · cases h; exact hacc'
        · obtain ⟨-, hfind⟩ := sget_ok_findAssoc hg
          obtain ⟨hlL, hlR⟩ := linksOk_find hlo hfind
          refine ih h hacc' ?_
          set next := if isBitSet key (key.length - cur.length - 1)
                      then node.Right else node.Left with hnext
          by_cases hnil : next = []
          · exact Or.inl ⟨by simp, by rw [hnil]; rfl⟩
          · refine Or.inr ?_
            intro a ha
            rw [List.getLast?_concat] at ha
            cases ha
            have : cur.length < next.length := by
              by_cases hb : isBitSet key (key.length - cur.length - 1)
              · rw [hnext, if_pos hb] at hnil ⊢
                rcases hlR with h0 | ⟨ext, hext⟩
                · exact absurd h0 hnil
                · rw [hext]; simp
              · rw [hnext, if_neg hb] at hnil ⊢
                rcases hlL with h0 | ⟨ext, hext⟩
                · exact absurd h0 hnil
                · rw [hext]; simp
            exact this

theorem nodesFromRoot_chain {t : Trie} {key : Key} {res : List SNode}
    (hlo : linksOk t.storage) (h : t.nodesFromRoot key = .ok res) :
    List.Chain' (fun a b => a.key.length < b.key.length) res := by
  unfold Trie.nodesFromRoot at h
  cases hrk : t.rootKey with
  | none =>
    rw [hrk] at h
    simp [nodesFromRootAux] at h
    rw [h]
    constructor
  | some rk =>
    rw [hrk] at h
    exact nodesFromRootAux_chain hlo h (List.chain'_nil)
      (Or.inr (by intro a ha; simp at ha))

theorem nodesFromRoot_len_lt {t : Trie} {key : Key} {res : List SNode}
    (h : t.nodesFromRoot key = .ok res) :
    ∀ i, i + 1 < res.length → (res[i]!).key.length < key.length := by
  unfold Trie.nodesFromRoot at h
  cases hrk : t.rootKey with
  | none =>
    rw [hrk] at h
    simp [nodesFromRootAux] at h
    rw [h]
    intro i hi
    simp at hi
  | some rk =>
    rw [hrk] at h
    exact nodesFromRootAux_len_lt h (by intro n hn; simp at hn)

theorem deleteLast_ok (t : Trie) (ns : List SNode) :
    (t.deleteLast ns).1 = .ok () := by
  unfold Trie.deleteLast
  cases ns.getLast? with
  | none => rfl
  | some last =>
    by_cases h1 : ns.length = 1 <;> by_cases h2 : ns.length = 2 <;>
      simp [h1, h2]

/-- The sibling key promoted by deleteLast: the parent child pointer that
does not point at the deleted leaf. -/
def promotedSibling (parent : SNode) (lastKey : Key) : Key :=
  if parent.node.Left = lastKey then parent.node.Right else parent.node.Left

/-- The grandparent node after deleteLast relinks the promoted sibling in
place of the removed parent. -/
def relinkGrandParent (gp : SNode) (parentKey siblingKey : Key) : Node :=
  if gp.node.Left = parentKey
  then { gp.node with Left := siblingKey }
  else { gp.node with Right := siblingKey }

/-- C4: deleting a present key returns its old value, afterwards Get is
zero and no node remains at the full-depth storage key; a sole root clears
the root key, a depth-two descent promotes the sibling to root, and a
deeper descent removes the parent and relinks the sibling into the
grandparent. -/
theorem put_zero_present_deletes (t : Trie) (key : Felt) (ns : List SNode)
    (hnil : ns ≠ []) (hlo : linksOk t.storage)
    (hns : t.nodesFromRoot (t.FeltToKey key) = .ok ns)
    (hlast : (ns.getLast hnil).key = t.FeltToKey key)
    (hk : ¬ t.maxKey < key) :
    (t.Put key 0).1 = .ok (some ((ns.getLast hnil).node.Value)) ∧
    findAssoc ((t.Put key 0).2).storage.nodes (t.FeltToKey key) = none ∧
    ((t.Put key 0).2).Get key = .ok 0 ∧
    (ns.length = 1 → ((t.Put key 0).2).rootKey = none) ∧
    (2 ≤ ns.length →
      findAssoc ((t.Put key 0).2).storage.nodes (ns[ns.length - 2]!).key
        = none ∧
      (ns.length = 2 → ((t.Put key 0).2).rootKey =
        some (promotedSibling (ns[ns.length - 2]!) (t.FeltToKey key))) ∧
      (3 ≤ ns.length →
        findAssoc ((t.Put key 0).2).storage.nodes (ns[ns.length - 3]!).key =
          some (relinkGrandParent (ns[ns.length - 3]!) (ns[ns.length - 2]!).key
            (promotedSibling (ns[ns.length - 2]!) (t.FeltToKey key))))) := by
  have hsib := nodesFromRoot_sget hns (ns.getLast hnil) (List.getLast_mem hnil)
  obtain ⟨hfaultn, hfindn⟩ := sget_ok_findAssoc hsib
  rw [hlast] at hfaultn hfindn
  have hlastq : ns.getLast? = some (ns.getLast hnil) :=
    List.getLast?_eq_getLast ns hnil
  have hput : t.Put key 0 =
      (.ok (some ((ns.getLast hnil).node.Value)), (t.deleteLast ns).2) := by
    have hdl : t.deleteLast ns = (.ok (), (t.deleteLast ns).2) := by
      have hok := deleteLast_ok t ns
      calc t.deleteLast ns = ((t.deleteLast ns).1, (t.deleteLast ns).2) :=
            Prod.mk.eta.symm
        _ = (.ok (), (t.deleteLast ns).2) := by rw [hok]
    simp only [Trie.Put, if_neg hk, Trie.updateLeaf, ne_eq,
      not_true_eq_false, if_neg, ite_false, reduceIte]
    rw [hns]
    simp only
    rw [dif_neg (show ¬ ns.length = 0 by simp [hnil])]
    simp only [Trie.deleteExistingKey]
    rw [if_pos hlast.symm, hdl]
  rcases Nat.lt_or_ge ns.length 2 with hsmall | h2
  · -- sole-root case: ns.length = 1
    have hlen1 : ns.length = 1 := by
      have hpos : 0 < ns.length := List.length_pos.mpr hnil
      omega
    have hdl2 : (t.deleteLast ns).2 =
        Trie.setRootKey
          { t with storage := sdel t.storage (ns.getLast hnil).key } none := by
      unfold Trie.deleteLast
      rw [hlastq]
      simp only [if_pos hlen1]
    rw [hput, hdl2, hlast]
    refine ⟨rfl, ?_, ?_, fun _ => rfl, fun hge => by omega⟩
    · simp [Trie.setRootKey, sdel, applyEv, findAssoc_delAssoc_self]
    · simp [Trie.Get, Trie.FeltToKey, Trie.setRootKey, sdel, applyEv, sget,
        findAssoc_delAssoc_self,
        show findFault t.storage.faults (feltToKey t.height key) = none
          from hfaultn]
  · -- a parent exists
    have hpar_ne : (ns[ns.length - 2]!).key ≠ t.FeltToKey key := by
      intro he
      have hlt := nodesFromRoot_len_lt hns (ns.length - 2) (by omega)
      rw [he] at hlt
      omega
    have hdel2keep :
        findAssoc (delAssoc (delAssoc t.storage.nodes (t.FeltToKey key))
          (ns[ns.length - 2]!).key) (t.FeltToKey key) = none := by
      rw [findAssoc_delAssoc_ne _ _ _ hpar_ne, findAssoc_delAssoc_self]
    rcases Nat.lt_or_ge ns.length 3 with hs3 | h3
    · have hlen2 : ns.length = 2 := by omega
      have hdl2 : (t.deleteLast ns).2 =
          Trie.setRootKey
            { t with storage := (sdel (sdel t.storage (ns.getLast hnil).key)
                (ns[ns.length - 2]!).key) }
            (some (promotedSibling (ns[ns.length - 2]!)
              (ns.getLast hnil).key)) := by
        unfold Trie.deleteLast
        rw [hlastq]
        simp only [if_neg (show ¬ ns.length = 1 by omega), if_pos hlen2]
        rfl
      rw [hput, hdl2, hlast]
      refine ⟨rfl, ?_, ?_, fun h1 => by omega, fun hge => ⟨?_, fun _ => rfl,
        fun h3' => by omega⟩⟩
      · simpa [Trie.setRootKey, sdel, applyEv] using hdel2keep
      · simp only [Trie.Get, Trie.FeltToKey, Trie.setRootKey]
        simp only [sdel, applyEv]
        simp [sget,
          show findFault t.storage.faults (feltToKey t.height key) = none
            from hfaultn,
          show findAssoc (delAssoc (delAssoc t.storage.nodes
              (feltToKey t.height key)) (ns[ns.length - 2]!).key)
              (feltToKey t.height key) = none from hdel2keep]
      · simp [Trie.setRootKey, sdel, applyEv, findAssoc_delAssoc_self]
    · -- grandparent relink case
      have hchain := nodesFromRoot_chain hlo hns
      have hgp_lt : (ns[ns.length - 3]!).key.length <
          (ns[ns.length - 2]!).key.length := by
        have hc := List.chain'_iff_get.mp hchain (ns.length - 3) (by omega)
        rw [getElem!_pos ns (ns.length - 3) (by omega),
            getElem!_pos ns (ns.length - 2) (by omega)]
        have hge : ns.get ⟨ns.length - 3 + 1, by omega⟩ =
            ns.get ⟨ns.length - 2, by omega⟩ := by
          congr 1
          apply Fin.ext
          simp only
          omega
        rw [hge] at hc
        simpa [List.get_eq_getElem] using hc
      have hgp_ne_par : (ns[ns.length - 3]!).key ≠ (ns[ns.length - 2]!).key :=
        fun he => by rw [he] at hgp_lt; omega
      have hgp_ne : (ns[ns.length - 3]!).key ≠ t.FeltToKey key := by
        intro he
        have hlt := nodesFromRoot_len_lt hns (ns.length - 3) (by omega)
        rw [he] at hlt
        omega
      have hdl2 : (t.deleteLast ns).2 =
          { t with
            storage := (sput (sdel (sdel t.storage (ns.getLast hnil).key)
                (ns[ns.length - 2]!).key) (ns[ns.length - 3]!).key
              (relinkGrandParent (ns[ns.length - 3]!) (ns[ns.length - 2]!).key
                (promotedSibling (ns[ns.length - 2]!) (ns.getLast hnil).key))),
            dirtyNodes := (t.dirtyNodes ++
              [promotedSibling (ns[ns.length - 2]!)
                (ns.getLast hnil).key]) } := by
        unfold Trie.deleteLast
        rw [hlastq]
        simp only [if_neg (show ¬ ns.length = 1 by omega),
          if_neg (show ¬ ns.length = 2 by omega)]
        rfl
      rw [hput, hdl2, hlast]
      refine ⟨rfl, ?_, ?_, fun h1 => by omega, fun hge => ⟨?_, fun h2' => by
        omega, fun _ => ?_⟩⟩
      · simp only [sput, sdel, applyEv]
        rw [findAssoc_putAssoc_ne _ _ _ _ hgp_ne]
        exact hdel2keep
      · have hgone : findAssoc (putAssoc (delAssoc (delAssoc t.storage.nodes
            (feltToKey t.height key)) (ns[ns.length - 2]!).key)
            (ns[ns.length - 3]!).key
            (relinkGrandParent (ns[ns.length - 3]!) (ns[ns.length - 2]!).key
              (promotedSibling (ns[ns.length - 2]!) (feltToKey t.height key))))
            (feltToKey t.height key) = none := by
          rw [findAssoc_putAssoc_ne _ _ _ _
            (show (ns[ns.length - 3]!).key ≠ feltToKey t.height key
              from hgp_ne)]
          exact hdel2keep
        simp only [Trie.Get, Trie.FeltToKey]
        simp only [sput, sdel, applyEv]
        simp [sget, hgone,
          show findFault t.storage.faults (feltToKey t.height key) = none
            from hfaultn]
      · simp only [sput, sdel, applyEv]
        rw [findAssoc_putAssoc_ne _ _ _ _ hgp_ne_par, findAssoc_delAssoc_self]
      · simp only [sput, sdel, applyEv]
        rw [findAssoc_putAssoc_self]

/-- The concrete descent list for deleting key 0 from faultFreeTrie. -/
def nsW : List SNode :=
  [⟨[false, false, false],
    { Value := 99, Left := [false, false, false, false],
      Right := [false, false, false, true] }⟩,
   ⟨[false, false, false, false], { Value := 7 }⟩]

theorem put_zero_present_deletes_witness :
    (faultFreeTrie.Put 0 0).1 = .ok (some 7) ∧
    findAssoc ((faultFreeTrie.Put 0 0).2).storage.nodes
      (faultFreeTrie.FeltToKey 0) = none ∧
    ((faultFreeTrie.Put 0 0).2).Get 0 = .ok 0 ∧
    ((faultFreeTrie.Put 0 0).2).rootKey = some [false, false, false, true] := by
  have h := put_zero_present_deletes faultFreeTrie 0 nsW (by decide)
    (by decide) (by decide) (by decide) (by decide)
  refine ⟨h.1.trans (by decide), h.2.1, h.2.2.1, ?_⟩
  exact ((h.2.2.2.2 (by decide)).2.1 (by decide)).trans (by decide)

/-! Toolkit for the commitment pass: canonical write-event descriptions. -/

theorem applyEvs_nil (s : Storage) : applyEvs s [] = s := rfl

theorem findAssoc_applyEv_congr {s₁ s₂ : Storage} (ev : Ev) {j : Key}
    (h : findAssoc s₁.nodes j = findAssoc s₂.nodes j) :
    findAssoc (applyEv s₁ ev).nodes j = findAssoc (applyEv s₂ ev).nodes j := by
  cases ev with
  | put k n =>
    by_cases hk : k = j
    · subst hk; simp [applyEv, findAssoc_putAssoc_self]
    · simp only [applyEv]
      rw [findAssoc_putAssoc_ne _ _ _ _ hk, findAssoc_putAssoc_ne _ _ _ _ hk]
      exact h
  | del k =>
    by_cases hk : k = j
    · subst hk; simp [applyEv, findAssoc_delAssoc_self]
    · simp only [applyEv]
      rw [findAssoc_delAssoc_ne _ _ _ hk, findAssoc_delAssoc_ne _ _ _ hk]
      exact h
  | putRoot k => simpa [applyEv] using h
  | delRoot => simpa [applyEv] using h

theorem findAssoc_applyEvs_congr {s₁ s₂ : Storage} (w : List Ev) {j : Key}
    (h : findAssoc s₁.nodes j = findAssoc s₂.nodes j) :
    findAssoc (applyEvs s₁ w).nodes j = findAssoc (applyEvs s₂ w).nodes j := by
  induction w generalizing s₁ s₂ with
  | nil => exact h
  | cons ev rest ih =>
    simp only [applyEvs, List.foldl_cons]
    exact ih (findAssoc_applyEv_congr ev h)

/-- Write lists consisting only of node puts at keys extending `k`. -/
def putsExt (k : Key) (w : List Ev) : Prop :=
  ∀ ev ∈ w, ∃ j n, ev = .put j n ∧ k <+: j

theorem findAssoc_applyEvs_offExt {s : Storage} {k : Key} {w : List Ev}
    (hw : putsExt k w) {j : Key} (hj : ¬ k <+: j) :
    findAssoc (applyEvs s w).nodes j = findAssoc s.nodes j := by
  induction w generalizing s with
  | nil => rfl
  | cons ev rest ih =>
    obtain ⟨j', n', hev, hpre⟩ := hw ev (by simp)
    subst hev
    simp only [applyEvs, List.foldl_cons]
    have hrest : putsExt k rest := fun e he => hw e (by simp [he])
    rw [show (List.foldl applyEv (applyEv s (.put j' n')) rest) =
        applyEvs (applyEv s (.put j' n')) rest from rfl]
    rw [ih hrest]
    have hne : j' ≠ j := fun he => hj (he ▸ hpre)
    simp only [applyEv]
    exact findAssoc_putAssoc_ne _ _ _ _ hne

/-- Write events of the commitment pass over base state `s` below anchor
`k`: puts at keys extending `k` that only refresh the value of the node the
base state stores there. -/
def passWrites (s : Storage) (k : Key) (w : List Ev) : Prop :=
  ∀ ev ∈ w, ∃ j n₀ v, ev = .put j { n₀ with Value := v } ∧ k <+: j ∧
    findAssoc s.nodes j = some n₀

theorem passWrites_putsExt {s : Storage} {k : Key} {w : List Ev}
    (h : passWrites s k w) : putsExt k w := by
  intro ev hev
  obtain ⟨j, n₀, v, hevq, hpre, -⟩ := h ev hev
  exact ⟨j, _, hevq, hpre⟩

theorem passWrites_mono {s : Storage} {k k' : Key} {w : List Ev}
    (h : passWrites s k' w) (hkk : k <+: k') : passWrites s k w := by
  intro ev hev
  obtain ⟨j, n₀, v, hevq, hpre, hfind⟩ := h ev hev
  exact ⟨j, n₀, v, hevq, hkk.trans hpre, hfind⟩

theorem passWrites_append {s : Storage} {k : Key} {w₁ w₂ : List Ev}
    (h₁ : passWrites s k w₁) (h₂ : passWrites s k w₂) :
    passWrites s k (w₁ ++ w₂) := by
  intro ev hev
  rcases List.mem_append.mp hev with h | h
  · exact h₁ ev h
  · exact h₂ ev h

theorem passWrites_nil (s : Storage) (k : Key) : passWrites s k [] := by
  intro ev hev
  simp at hev

/-- Writes of a sibling's pass translate back through disjoint writes. -/
theorem passWrites_shift {s : Storage} {kL kR : Key} {wL wR : List Ev}
    (hL : putsExt kL wL)
    (hdisj : ∀ j, kR <+: j → ¬ kL <+: j)
    (hR : passWrites (applyEvs s wL) kR wR) : passWrites s kR wR := by
  intro ev hev
  obtain ⟨j, n₀, v, hevq, hpre, hfind⟩ := hR ev hev
  refine ⟨j, n₀, v, hevq, hpre, ?_⟩
  rw [← findAssoc_applyEvs_offExt hL (hdisj j hpre)]
  exact hfind

/-- The two child subtrees of a well-linked node occupy disjoint key
spaces. -/
theorem bit_children_disjoint {key extL extR : Key} :
    ∀ j : Key, (key ++ true :: extR) <+: j → ¬ (key ++ false :: extL) <+: j := by
  intro j hR hL
  rcases List.prefix_or_prefix_of_prefix hR hL with h | h
  · have h1 : (key ++ [true]) <+: (key ++ false :: extL) :=
      List.IsPrefix.trans ⟨extR, by simp⟩ h
    rw [List.prefix_append_right_inj] at h1
    exact Bool.noConfusion (List.cons_prefix_cons.mp h1).1
  · have h1 : (key ++ [false]) <+: (key ++ true :: extR) :=
      List.IsPrefix.trans ⟨extL, by simp⟩ h
    rw [List.prefix_append_right_inj] at h1
    exact Bool.noConfusion (List.cons_prefix_cons.mp h1).1

theorem mem_putAssoc {l : List (Key × Node)} {k : Key} {n : Node}
    {p : Key × Node} (h : p ∈ putAssoc l k n) : p = (k, n) ∨ p ∈ l := by
  induction l with
  | nil =>
    simp only [putAssoc, List.mem_singleton] at h
    exact Or.inl h
  | cons q rest ih =>
    simp only [putAssoc] at h
    by_cases hq : q.1 = k
    · rw [if_pos hq] at h
      rcases List.mem_cons.mp h with h1 | h1
      · exact Or.inl h1
      · exact Or.inr (List.mem_cons_of_mem _ h1)
    · rw [if_neg hq] at h
      rcases List.mem_cons.mp h with h1 | h1
      · refine Or.inr ?_
        rw [h1, Prod.mk.eta]
        exact List.mem_cons_self _ _
      · rcases ih h1 with h2 | h2
        · exact Or.inl h2
        · exact Or.inr (List.mem_cons_of_mem _ h2)

/-- Value-refreshing writes referencing a link-sound base preserve link
soundness of any link-sound state. -/
theorem linksOk_applyEvs {s : Storage} {k : Key} {w : List Ev}
    (hbase : linksOk s) (hw : passWrites s k w) :
    ∀ s', linksOk s' → linksOk (applyEvs s' w) := by
  induction w with
  | nil => intro s' h; exact h
  | cons ev rest ih =>
    intro s' hs'
    obtain ⟨j, n₀, v, hevq, -, hfind⟩ := hw ev (by simp)
    subst hevq
    simp only [applyEvs, List.foldl_cons]
    have hrest : passWrites s k rest := fun e he => hw e (by simp [he])
    refine ih hrest (applyEv s' (.put j { n₀ with Value := v })) ?_
    intro p hp
    simp only [applyEv] at hp
    rcases mem_putAssoc hp with hpe | hpm
    · rw [hpe]
      have hmem := findAssoc_some_mem hfind
      have hbl := hbase (j, n₀) hmem
      exact ⟨hbl.1, hbl.2⟩
    · exact hs' p hpm

/-- No node has exactly one NIL child. -/
def noSingleNil (s : Storage) : Prop :=
  ∀ p ∈ s.nodes, ((p.2).Left = [] ↔ (p.2).Right = [])

instance (s : Storage) : Decidable (noSingleNil s) := by
  unfold noSingleNil; infer_instance

theorem noSingleNil_applyEvs {s : Storage} {k : Key} {w : List Ev}
    (hbase : noSingleNil s) (hw : passWrites s k w) :
    ∀ s', noSingleNil s' → noSingleNil (applyEvs s' w) := by
  induction w with
  | nil => intro s' h; exact h
  | cons ev rest ih =>
    intro s' hs'
    obtain ⟨j, n₀, v, hevq, -, hfind⟩ := hw ev (by simp)
    subst hevq
    simp only [applyEvs, List.foldl_cons]
    have hrest : passWrites s k rest := fun e he => hw e (by simp [he])
    refine ih hrest (applyEv s' (.put j { n₀ with Value := v })) ?_
    intro p hp
    simp only [applyEv] at hp
    rcases mem_putAssoc hp with hpe | hpm
    · rw [hpe]
      have hmem := findAssoc_some_mem hfind
      have hbl := hbase (j, n₀) hmem
      exact hbl
    · exact hs' p hpm

/-- The canonical description an induction step provides for one recursive
child update at a given fuel. -/
def UpdCanon (t : Trie) (fuel : Nat) : Prop :=
  ∀ (key : Key) (s₁ s₂ : Storage), linksOk s₁ →
    (∀ j, key <+: j → findAssoc s₁.nodes j = findAssoc s₂.nodes j) →
    (∀ j, key <+: j → findFault s₁.faults j = findFault s₂.faults j) →
    ∃ (r : Except TErr Node) (w : List Ev),
      updateValueIfDirty t fuel s₁ key = (r, applyEvs s₁ w) ∧
      updateValueIfDirty t fuel s₂ key = (r, applyEvs s₂ w) ∧
      passWrites s₁ key w ∧
      (∀ n, r = .ok n → findAssoc (applyEvs s₁ w).nodes key = some n)

/-- Serial child update on two storages agreeing below the node: same
results, same canonical write list. -/
theorem serial_pair (t : Trie) (fuel : Nat) (ih : UpdCanon t fuel)
    (key : Key) (node : Node) (s₁ s₂ : Storage) (lP rP : Bool)
    (hlo : linksOk s₁)
    (hna : ∀ j, key <+: j → findAssoc s₁.nodes j = findAssoc s₂.nodes j)
    (hfa : ∀ j, key <+: j → findFault s₁.faults j = findFault s₂.faults j)
    (hL : ¬ lP = true → ∃ ext, node.Left = key ++ false :: ext)
    (hR : ¬ rP = true → ∃ ext, node.Right = key ++ true :: ext) :
    ∃ (rc : Except TErr (Option Node × Option Node)) (w : List Ev),
      updateChildTriesSerially (updateValueIfDirty t fuel) s₁ node lP rP =
        (rc, applyEvs s₁ w) ∧
      updateChildTriesSerially (updateValueIfDirty t fuel) s₂ node lP rP =
        (rc, applyEvs s₂ w) ∧
      passWrites s₁ key w := by
  by_cases hlP : lP = true
  · by_cases hrP : rP = true
    · refine ⟨.ok (none, none), [], ?_, ?_, passWrites_nil _ _⟩ <;>
        simp [updateChildTriesSerially, hlP, hrP, applyEvs]
    · obtain ⟨extR, hextR⟩ := hR hrP
      have hpreR : key <+: node.Right := ⟨true :: extR, hextR.symm⟩
      obtain ⟨r_r, w_r, he₁, he₂, hpass, -⟩ := ih node.Right s₁ s₂ hlo
        (fun j hj => hna j (hpreR.trans hj)) (fun j hj => hfa j (hpreR.trans hj))
      have hred₁ : updateChildTriesSerially (updateValueIfDirty t fuel) s₁ node
          lP rP = match updateValueIfDirty t fuel s₁ node.Right with
          | (.error e, s) => (.error e, s)
          | (.ok rn, s) => (.ok (none, some rn), s) := by
        simp [updateChildTriesSerially, hlP, hrP]
      have hred₂ : updateChildTriesSerially (updateValueIfDirty t fuel) s₂ node
          lP rP = match updateValueIfDirty t fuel s₂ node.Right with
          | (.error e, s) => (.error e, s)
          | (.ok rn, s) => (.ok (none, some rn), s) := by
        simp [updateChildTriesSerially, hlP, hrP]
      cases r_r with
      | error e =>
        refine ⟨.error e, w_r, ?_, ?_, passWrites_mono hpass hpreR⟩
        · rw [hred₁, he₁]
        · rw [hred₂, he₂]
      | ok rn =>
        refine ⟨.ok (none, some rn), w_r, ?_, ?_, passWrites_mono hpass hpreR⟩
        · rw [hred₁, he₁]
        · rw [hred₂, he₂]
  · obtain ⟨extL, hextL⟩ := hL hlP
    have hpreL : key <+: node.Left := ⟨false :: extL, hextL.symm⟩
    obtain ⟨r_l, w_l, hl₁, hl₂, hpassL, -⟩ := ih node.Left s₁ s₂ hlo
      (fun j hj => hna j (hpreL.trans hj)) (fun j hj => hfa j (hpreL.trans hj))
    have hser₁ : updateChildTriesSerially (updateValueIfDirty t fuel) s₁ node
        lP rP = match updateValueIfDirty t fuel s₁ node.Left with
        | (.error e, s) => (.error e, s)
        | (.ok ln, s) =>
          if ¬ rP = true then
            match updateValueIfDirty t fuel s node.Right with
            | (.error e, s) => (.error e, s)
            | (.ok rn, s) => (.ok (some ln, some rn), s)
          else (.ok (some ln, none), s) := by
      simp [updateChildTriesSerially, hlP]
    have hser₂ : updateChildTriesSerially (updateValueIfDirty t fuel) s₂ node
        lP rP = match updateValueIfDirty t fuel s₂ node.Left with
        | (.error e, s) => (.error e, s)
        | (.ok ln, s) =>
          if ¬ rP = true then
            match updateValueIfDirty t fuel s node.Right with
            | (.error e, s) => (.error e, s)
            | (.ok rn, s) => (.ok (some ln, some rn), s)
          else (.ok (some ln, none), s) := by
      simp [updateChildTriesSerially, hlP]
    cases r_l with
    | error e =>
      refine ⟨.error e, w_l, ?_, ?_, passWrites_mono hpassL hpreL⟩
      · rw [hser₁]; simp only [hl₁]
      · rw [hser₂]; simp only [hl₂]
    | ok ln =>
      by_cases hrP : rP = true
      · refine ⟨.ok (some ln, none), w_l, ?_, ?_, passWrites_mono hpassL hpreL⟩
        · rw [hser₁]; simp only [hl₁]; simp [hrP]
        · rw [hser₂]; simp only [hl₂]; simp [hrP]
      · obtain ⟨extR, hextR⟩ := hR hrP
        have hpreR : key <+: node.Right := ⟨true :: extR, hextR.symm⟩
        have hlo' : linksOk (applyEvs s₁ w_l) :=
          linksOk_applyEvs hlo hpassL s₁ hlo
        have hna' : ∀ j, node.Right <+: j →
            findAssoc (applyEvs s₁ w_l).nodes j =
              findAssoc (applyEvs s₂ w_l).nodes j :=
          fun j hj => findAssoc_applyEvs_congr w_l (hna j (hpreR.trans hj))
        have hfa' : ∀ j, node.Right <+: j →
            findFault (applyEvs s₁ w_l).faults j =
              findFault (applyEvs s₂ w_l).faults j := by
          intro j hj
          rw [applyEvs_faults, applyEvs_faults]
          exact hfa j (hpreR.trans hj)
        obtain ⟨r_r, w_r, hr₁, hr₂, hpassR, -⟩ := ih node.Right
          (applyEvs s₁ w_l) (applyEvs s₂ w_l) hlo' hna' hfa'
        have hdisj : ∀ j, node.Right <+: j → ¬ node.Left <+: j := by
          intro j hj
          rw [hextR] at hj
          rw [hextL]
          exact bit_children_disjoint j hj
        have hpassR' : passWrites s₁ node.Right w_r :=
          passWrites_shift (passWrites_putsExt hpassL) hdisj hpassR
        refine ⟨match r_r with
                | .error e => .error e
                | .ok rn => .ok (some ln, some rn), w_l ++ w_r, ?_, ?_,
            passWrites_append (passWrites_mono hpassL hpreL)
              (passWrites_mono hpassR' hpreR)⟩
        · rw [hser₁]
          simp only [hl₁]
          simp only [hrP, not_false_eq_true, if_pos]
          simp only [hr₁]
          rw [applyEvs_append]
          cases r_r <;> rfl
        · rw [hser₂]
          simp only [hl₂]
          simp only [hrP, not_false_eq_true, if_pos]
          simp only [hr₂]
          rw [applyEvs_append]
          cases r_r <;> rfl

/-- Concurrent (snapshot-and-merge) child update on two storages agreeing
below the node: same results, same canonical write list as seen by either
storage. -/
theorem concurrent_pair (t : Trie) (fuel : Nat) (ih : UpdCanon t fuel)
    (key : Key) (node : Node) (s₁ s₂ : Storage) (lP rP : Bool)
    (hlo : linksOk s₁)
    (hna : ∀ j, key <+: j → findAssoc s₁.nodes j = findAssoc s₂.nodes j)
    (hfa : ∀ j, key <+: j → findFault s₁.faults j = findFault s₂.faults j)
    (hL : ¬ lP = true → ∃ ext, node.Left = key ++ false :: ext)
    (hR : ¬ rP = true → ∃ ext, node.Right = key ++ true :: ext) :
    ∃ (rc : Except TErr (Option Node × Option Node)) (w : List Ev),
      updateChildTriesConcurrently (updateValueIfDirty t fuel) s₁ node lP rP =
        (rc, applyEvs s₁ w) ∧
      updateChildTriesConcurrently (updateValueIfDirty t fuel) s₂ node lP rP =
        (rc, applyEvs s₂ w) ∧
      passWrites s₁ key w := by
  by_cases hlP : lP = true
  · by_cases hrP : rP = true
    · refine ⟨.ok (none, none), [], ?_, ?_, passWrites_nil _ _⟩ <;>
        simp [updateChildTriesConcurrently, hlP, hrP, applyEvs]
    · obtain ⟨extR, hextR⟩ := hR hrP
      have hpreR : key <+: node.Right := ⟨true :: extR, hextR.symm⟩
      obtain ⟨r_r, w_r, hr₁, hr₂, hpassR, -⟩ := ih node.Right s₁ s₂ hlo
        (fun j hj => hna j (hpreR.trans hj)) (fun j hj => hfa j (hpreR.trans hj))
      cases r_r with
      | error e =>
        refine ⟨.error e, w_r, ?_, ?_, passWrites_mono hpassR hpreR⟩
        · simp [updateChildTriesConcurrently, hlP, hrP, hr₁, applyEvs_trace,
            List.drop_left]
        · simp [updateChildTriesConcurrently, hlP, hrP, hr₂, applyEvs_trace,
            List.drop_left]
      | ok rn =>
        refine ⟨.ok (none, some rn), w_r, ?_, ?_, passWrites_mono hpassR hpreR⟩
        · simp [updateChildTriesConcurrently, hlP, hrP, hr₁, applyEvs_trace,
            List.drop_left]
        · simp [updateChildTriesConcurrently, hlP, hrP, hr₂, applyEvs_trace,
            List.drop_left]
  · obtain ⟨extL, hextL⟩ := hL hlP
    have hpreL : key <+: node.Left := ⟨false :: extL, hextL.symm⟩
    obtain ⟨r_l, w_l, hl₁, hl₂, hpassL, -⟩ := ih node.Left s₁ s₂ hlo
      (fun j hj => hna j (hpreL.trans hj)) (fun j hj => hfa j (hpreL.trans hj))
    by_cases hrP : rP = true
    · cases r_l with
      | error e =>
        refine ⟨.error e, w_l, ?_, ?_, passWrites_mono hpassL hpreL⟩
        · simp [updateChildTriesConcurrently, hlP, hrP, hl₁]
        · simp [updateChildTriesConcurrently, hlP, hrP, hl₂]
      | ok ln =>
        refine ⟨.ok (some ln, none), w_l, ?_, ?_, passWrites_mono hpassL hpreL⟩
        · simp [updateChildTriesConcurrently, hlP, hrP, hl₁]
        · simp [updateChildTriesConcurrently, hlP, hrP, hl₂]
    · obtain ⟨extR, hextR⟩ := hR hrP
      have hpreR : key <+: node.Right := ⟨true :: extR, hextR.symm⟩
      obtain ⟨r_r, w_r, hr₁, hr₂, hpassR, -⟩ := ih node.Right s₁ s₂ hlo
        (fun j hj => hna j (hpreR.trans hj)) (fun j hj => hfa j (hpreR.trans hj))
      have hw : passWrites s₁ key (w_l ++ w_r) :=
        passWrites_append (passWrites_mono hpassL hpreL)
          (passWrites_mono hpassR hpreR)
      cases r_l with
      | error e =>
        refine ⟨.error e, w_l ++ w_r, ?_, ?_, hw⟩ <;>
          cases r_r <;>
            simp [updateChildTriesConcurrently, hlP, hrP, hl₁, hl₂, hr₁, hr₂,
              applyEvs_trace, List.drop_left, applyEvs_append]
      | ok ln =>
        cases r_r with
        | error e =>
          refine ⟨.error e, w_l ++ w_r, ?_, ?_, hw⟩ <;>
            simp [updateChildTriesConcurrently, hlP, hrP, hl₁, hl₂, hr₁, hr₂,
              applyEvs_trace, List.drop_left, applyEvs_append]
        | ok rn =>
          refine ⟨.ok (some ln, some rn), w_l ++ w_r, ?_, ?_, hw⟩ <;>
            simp [updateChildTriesConcurrently, hlP, hrP, hl₁, hl₂, hr₁, hr₂,
              applyEvs_trace, List.drop_left, applyEvs_append]

/-- Canonical description of the recursive recomputation: on a link-sound
storage it returns a result and a list of value-refreshing put events below
the visited key, and any storage agreeing below the key runs to the same
result with the same events. -/
theorem updPair (t : Trie) : ∀ fuel, UpdCanon t fuel := by
  intro fuel
  induction fuel with
  | zero =>
    intro key s₁ s₂ hlo hna hfa
    exact ⟨.error .outOfFuel, [], rfl, rfl, passWrites_nil _ _,
      fun n h => by simp at h⟩
  | succ fuel ih =>
    intro key s₁ s₂ hlo hna hfa
    have hgeq : sget s₂ key = sget s₁ key := by
      unfold sget
      rw [hna key (List.prefix_refl key), hfa key (List.prefix_refl key)]
    cases hg : sget s₁ key with
    | error e =>
      refine ⟨.error e, [], ?_, ?_, passWrites_nil _ _, fun n h => by simp at h⟩
      · simp only [updateValueIfDirty]
        rw [hg]
        rfl
      · simp only [updateValueIfDirty]
        rw [hgeq, hg]
        rfl
    | ok node =>
      obtain ⟨hfaultn, hfindn⟩ := sget_ok_findAssoc hg
      by_cases hleaf : key.length = t.height
      · refine ⟨.ok node, [], ?_, ?_, passWrites_nil _ _, ?_⟩
        · simp only [updateValueIfDirty]
          rw [hg]
          simp [hleaf, applyEvs]
        · simp only [updateValueIfDirty]
          rw [hgeq, hg]
          simp [hleaf, applyEvs]
        · intro n h
          injection h with h
          rw [← h]
          exact hfindn
      · by_cases hsu : (if node.Left = [] ∧ node.Right = [] then false
            else if node.Left = [] ∨ node.Right = [] then true
            else t.dirtyNodes.any fun dirtyNode =>
              decide (key.length < dirtyNode.length) &&
                isSubset dirtyNode key) = true
        · -- the node is recomputed
          have hli := linksOk_find hlo hfindn
          have hLc : ¬ (decide (node.Left = []) = true) →
              ∃ ext, node.Left = key ++ false :: ext := by
            intro hd
            rcases hli.1 with h0 | h1
            · exact absurd (decide_eq_true_eq.mpr h0) hd
            · exact h1
          have hRc : ¬ (decide (node.Right = []) = true) →
              ∃ ext, node.Right = key ++ true :: ext := by
            intro hd
            rcases hli.2 with h0 | h1
            · exact absurd (decide_eq_true_eq.mpr h0) hd
            · exact h1
          by_cases hdepth : key.length ≤ concurrencyMaxDepth
          · obtain ⟨rc, wch, hc₁, hc₂, hcw⟩ := concurrent_pair t fuel ih key
              node s₁ s₂ (decide (node.Left = [])) (decide (node.Right = []))
              hlo hna hfa hLc hRc
            cases rc with
            | error e =>
              refine ⟨.error e, wch, ?_, ?_, hcw, fun n h => by simp at h⟩
              · simp only [updateValueIfDirty]
                rw [hg]
                simp only [if_neg hleaf, if_neg (not_not_intro hsu),
                  if_pos hdepth]
                rw [hc₁]
              · simp only [updateValueIfDirty]
                rw [hgeq, hg]
                simp only [if_neg hleaf, if_neg (not_not_intro hsu),
                  if_pos hdepth]
                rw [hc₂]
            | ok lrc =>
              obtain ⟨lc, rc2⟩ := lrc
              refine ⟨.ok { node with Value := (t.hash
                  (if node.Left = [] then node.LeftHash.getD 0
                   else nodeHash t.hash (lc.getD default)
                     (pathOf node.Left (some key)))
                  (if node.Right = [] then node.RightHash.getD 0
                   else nodeHash t.hash (rc2.getD default)
                     (pathOf node.Right (some key)))) },
                wch ++ [.put key { node with Value := (t.hash
                  (if node.Left = [] then node.LeftHash.getD 0
                   else nodeHash t.hash (lc.getD default)
                     (pathOf node.Left (some key)))
                  (if node.Right = [] then node.RightHash.getD 0
                   else nodeHash t.hash (rc2.getD default)
                     (pathOf node.Right (some key)))) }], ?_, ?_, ?_, ?_⟩
              · simp only [updateValueIfDirty]
                rw [hg]
                simp only [if_neg hleaf, if_neg (not_not_intro hsu),
                  if_pos hdepth]
                rw [hc₁]
                simp [sput, applyEvs_append, applyEvs]
              · simp only [updateValueIfDirty]
                rw [hgeq, hg]
                simp only [if_neg hleaf, if_neg (not_not_intro hsu),
                  if_pos hdepth]
                rw [hc₂]
                simp [sput, applyEvs_append, applyEvs]
              · refine passWrites_append hcw ?_
                intro ev hev
                rw [List.mem_singleton] at hev
                subst hev
                exact ⟨key, node, _, rfl, List.prefix_refl key, hfindn⟩
              · intro n h
                injection h with h
                rw [← h]
                simp [applyEvs_append, applyEvs, applyEv,
                  findAssoc_putAssoc_self]
          · obtain ⟨rc, wch, hc₁, hc₂, hcw⟩ := serial_pair t fuel ih key
              node s₁ s₂ (decide (node.Left = [])) (decide (node.Right = []))
              hlo hna hfa hLc hRc
            cases rc with
            | error e =>
              refine ⟨.error e, wch, ?_, ?_, hcw, fun n h => by simp at h⟩
              · simp only [updateValueIfDirty]
                rw [hg]
                simp only [if_neg hleaf, if_neg (not_not_intro hsu),
                  if_neg hdepth]
                rw [hc₁]
              · simp only [updateValueIfDirty]
                rw [hgeq, hg]
                simp only [if_neg hleaf, if_neg (not_not_intro hsu),
                  if_neg hdepth]
                rw [hc₂]
            | ok lrc =>
              obtain ⟨lc, rc2⟩ := lrc
              refine ⟨.ok { node with Value := (t.hash
                  (if node.Left = [] then node.LeftHash.getD 0
                   else nodeHash t.hash (lc.getD default)
                     (pathOf node.Left (some key)))
                  (if node.Right = [] then node.RightHash.getD 0
                   else nodeHash t.hash (rc2.getD default)
                     (pathOf node.Right (some key)))) },
                wch ++ [.put key { node with Value := (t.hash
                  (if node.Left = [] then node.LeftHash.getD 0
                   else nodeHash t.hash (lc.getD default)
                     (pathOf node.Left (some key)))
                  (if node.Right = [] then node.RightHash.getD 0
                   else nodeHash t.hash (rc2.getD default)
                     (pathOf node.Right (some key)))) }], ?_, ?_, ?_, ?_⟩
              · simp only [updateValueIfDirty]
                rw [hg]
                simp only [if_neg hleaf, if_neg (not_not_intro hsu),
                  if_neg hdepth]
                rw [hc₁]
                simp [sput, applyEvs_append, applyEvs]
              · simp only [updateValueIfDirty]
                rw [hgeq, hg]
                simp only [if_neg hleaf, if_neg (not_not_intro hsu),
                  if_neg hdepth]
                rw [hc₂]
                simp [sput, applyEvs_append, applyEvs]
              · refine passWrites_append hcw ?_
                intro ev hev
                rw [List.mem_singleton] at hev
                subst hev
                exact ⟨key, node, _, rfl, List.prefix_refl key, hfindn⟩
              · intro n h
                injection h with h
                rw [← h]
                simp [applyEvs_append, applyEvs, applyEv,
                  findAssoc_putAssoc_self]
        · -- no recomputation needed
          refine ⟨.ok node, [], ?_, ?_, passWrites_nil _ _, ?_⟩
          · simp only [updateValueIfDirty]
            rw [hg]
            simp only [if_neg hleaf, if_pos hsu]
            rfl
          · simp only [updateValueIfDirty]
            rw [hgeq, hg]
            simp only [if_neg hleaf, if_pos hsu]
            rfl
          · intro n h
            injection h with h
            rw [← h]
            exact hfindn

/-- A trie whose root is a proof node with exactly one NIL child (left
child absent, known only by its hash). -/
def proofRootNode : Node :=
  { Value := 0, Left := [], Right := [true, true], LeftHash := some 5 }

def proofLeafNode : Node := { Value := 9 }

def proofStorage : Storage :=
  { nodes := [([], proofRootNode), ([true, true], proofLeafNode)],
    rootKeySlot := some [], faults := [], trace := [] }

def proofTrie : Trie :=
  { height := 2, rootKey := some [], maxKey := 3, storage := proofStorage,
    hash := testHash, dirtyNodes := [], rootKeyIsDirty := false }

/-- Counterexample to C5 as stated: on a trie containing a proof node with
exactly one NIL child, the second Root call performs a storage write (the
trace grows), even though no mutation intervened and the dirty list is
empty; the returned value is nonetheless unchanged. -/
theorem root_second_call_writes_counterexample :
    ((proofTrie.Root).2).dirtyNodes = [] ∧
    ((((proofTrie.Root).2).Root).1 = (proofTrie.Root).1) ∧
    ((((proofTrie.Root).2).Root).2).storage.trace ≠
      ((proofTrie.Root).2).storage.trace := by
  refine ⟨rfl, rfl, by decide⟩

/-- C5 (amended): two consecutive Root calls with no intervening mutation
return equal values, and the second call leaves the trie state — storage,
trace, dirty list — completely unchanged (hence performs no storage
writes), provided the storage contains no proof node with exactly one NIL
child. -/
theorem root_idempotent_no_single_nil (t : Trie) (r : Felt) (t₁ : Trie)
    (hlo : linksOk t.storage) (hnn : noSingleNil t.storage)
    (hok : t.Root = (.ok r, t₁)) :
    t₁.Root = (.ok r, t₁) := by
  cases hrk : t.rootKey with
  | none =>
    have hr : t.Root =
        (.ok 0, if t.rootKeyIsDirty then
          { t with storage := sdelRootKey t.storage, rootKeyIsDirty := false }
          else t) := by
      cases hd : t.rootKeyIsDirty <;> simp [Trie.Root, hrk, hd]
    rw [hr] at hok
    simp only [Prod.mk.injEq] at hok
    obtain ⟨hr0, ht₁⟩ := hok
    have h₁rk : t₁.rootKey = none := by
      rw [← ht₁]
      cases hd : t.rootKeyIsDirty <;> simp [hd, hrk]
    have h₁dirty : t₁.rootKeyIsDirty = false := by
      rw [← ht₁]
      cases hd : t.rootKeyIsDirty <;> simp [hd]
    rw [← hr0]
    simp [Trie.Root, h₁rk, h₁dirty]
  | some rk =>
    -- the settled trie before recomputation
    set tS : Trie := if t.rootKeyIsDirty then
        { t with storage := sputRootKey t.storage rk, rootKeyIsDirty := false }
        else t with htS
    have hSnodes : tS.storage.nodes = t.storage.nodes := by
      rw [htS]
      cases hd : t.rootKeyIsDirty <;> simp [hd, sputRootKey, applyEv]
    have hSfaults : tS.storage.faults = t.storage.faults := by
      rw [htS]
      cases hd : t.rootKeyIsDirty <;> simp [hd, sputRootKey, applyEv]
    have hSrk : tS.rootKey = some rk := by
      rw [htS]
      cases hd : t.rootKeyIsDirty <;> simp [hd, hrk]
    have hSdirtyflag : tS.rootKeyIsDirty = false := by
      rw [htS]
      cases hd : t.rootKeyIsDirty <;> simp [hd]
    have hSlo : linksOk tS.storage := by
      intro p hp
      rw [hSnodes] at hp
      exact hlo p hp
    have hSnn : noSingleNil tS.storage := by
      intro p hp
      rw [hSnodes] at hp
      exact hnn p hp
    have hr : t.Root =
        (match updateValueIfDirty tS (tS.height + 1)
            (syncedStorage tS.storage) rk with
         | (.error e, s) => (.error e, { tS with storage := s })
         | (.ok root, s) =>
           (.ok (nodeHash tS.hash root (pathOf rk none)),
             { tS with storage := s, dirtyNodes := [] })) := by
      rw [htS]
      cases hd : t.rootKeyIsDirty <;> simp [Trie.Root, hrk, hd]
    obtain ⟨r_u, w, hu, -, hpass, h4⟩ := updPair tS (tS.height + 1) rk
      tS.storage tS.storage hSlo (fun j hj => rfl) (fun j hj => rfl)
    rw [hr] at hok
    rw [show syncedStorage tS.storage = tS.storage from rfl, hu] at hok
    cases r_u with
    | error e => simp at hok
    | ok n =>
      simp only [Prod.mk.injEq] at hok
      obtain ⟨hrval, ht₁⟩ := hok
      have h₁storage : t₁.storage = applyEvs tS.storage w := by rw [← ht₁]
      have h₁dirty : t₁.dirtyNodes = [] := by rw [← ht₁]
      have h₁flag : t₁.rootKeyIsDirty = false := by rw [← ht₁]; exact hSdirtyflag
      have h₁rk : t₁.rootKey = some rk := by rw [← ht₁]; exact hSrk
      have h₁height : t₁.height = tS.height := by rw [← ht₁]
      have h₁hash : t₁.hash = tS.hash := by rw [← ht₁]
      -- the root-slot read in the first pass cannot have faulted
      have hfault : findFault tS.storage.faults rk = none := by
        cases hf : findFault tS.storage.faults rk with
        | none => rfl
        | some c =>
          have : sget tS.storage rk = .error (.fault c) := by
            unfold sget; rw [hf]
          simp only [updateValueIfDirty] at hu
          rw [this] at hu
          simp at hu
      have hget2 : sget t₁.storage rk = .ok n := by
        apply sget_of_find
        · rw [h₁storage, applyEvs_faults]
          exact hfault
        · rw [h₁storage]
          exact h4 n rfl
      have h₁nn : noSingleNil t₁.storage := by
        rw [h₁storage]
        exact noSingleNil_applyEvs hSnn hpass tS.storage hSnn
      -- the second recomputation returns the stored node with no writes
      have hupd2 : updateValueIfDirty t₁ (t₁.height + 1) t₁.storage rk =
          (.ok n, t₁.storage) := by
        simp only [updateValueIfDirty]
        rw [hget2]
        by_cases hleaf : rk.length = t₁.height
        · simp [hleaf]
        · simp only [if_neg hleaf]
          have hiff := h₁nn (rk, n) (findAssoc_some_mem
            (by rw [h₁storage]; exact h4 n rfl))
          have hsu : (if n.Left = [] ∧ n.Right = [] then false
              else if n.Left = [] ∨ n.Right = [] then true
              else t₁.dirtyNodes.any fun dirtyNode =>
                decide (rk.length < dirtyNode.length) &&
                  isSubset dirtyNode rk) = false := by
            by_cases hbb : n.Left = [] ∧ n.Right = []
            · simp [hbb]
            · have hor : ¬ (n.Left = [] ∨ n.Right = []) := by
                intro hor
                apply hbb
                rcases hor with h0 | h0
                · exact ⟨h0, hiff.mp h0⟩
                · exact ⟨hiff.mpr h0, h0⟩
              rw [if_neg hbb, if_neg hor, h₁dirty]
              rfl
          have hcond : ¬ ((if n.Left = [] ∧ n.Right = [] then false
              else if n.Left = [] ∨ n.Right = [] then true
              else t₁.dirtyNodes.any fun dirtyNode =>
                decide (rk.length < dirtyNode.length) &&
                  isSubset dirtyNode rk) = true) := by
            rw [hsu]
            simp
          rw [if_pos hcond]
      have hr₁ : t₁.Root =
          (match updateValueIfDirty t₁ (t₁.height + 1)
              (syncedStorage t₁.storage) rk with
           | (.error e, s) => (.error e, { t₁ with storage := s })
           | (.ok root, s) =>
             (.ok (nodeHash t₁.hash root (pathOf rk none)),
               { t₁ with storage := s, dirtyNodes := [] })) := by
        simp [Trie.Root, h₁rk, h₁flag]
      have hr₂ : t₁.Root =
          (.ok (nodeHash t₁.hash n (pathOf rk none)),
            { t₁ with storage := t₁.storage, dirtyNodes := [] }) := by
        rw [hr₁]
        rw [show syncedStorage t₁.storage = t₁.storage from rfl]
        simp only [hupd2]
      have hrv : nodeHash tS.hash n (pathOf rk none) = r := by
        injection hrval
      rw [hr₂]
      have ht₁eta :
          ({ t₁ with storage := t₁.storage, dirtyNodes := [] } : Trie) = t₁ := by
        have hd : t₁.dirtyNodes = [] := h₁dirty
        rw [← hd]
      rw [ht₁eta, h₁hash, hrv]

theorem root_idempotent_no_single_nil_witness :
    faultFreeTrie.Root = (.ok 694, (faultFreeTrie.Root).2) ∧
    ((faultFreeTrie.Root).2).Root = (.ok 694, (faultFreeTrie.Root).2) :=
  ⟨rfl, root_idempotent_no_single_nil faultFreeTrie 694 _ (by decide)
    (by decide) rfl⟩

/-- Whenever either routine succeeds, the concurrent child update and the
serial child update agree completely (same child pair, same storage). -/
theorem conc_eq_serial_of_ok (t : Trie) (fuel : Nat) (s : Storage)
    (key : Key) (node : Node) (lP rP : Bool) (hlo : linksOk s)
    (hL : ¬ lP = true → ∃ ext, node.Left = key ++ false :: ext)
    (hR : ¬ rP = true → ∃ ext, node.Right = key ++ true :: ext) :
    (∀ p, (updateChildTriesSerially (updateValueIfDirty t fuel) s node
        lP rP).1 = .ok p →
      updateChildTriesConcurrently (updateValueIfDirty t fuel) s node lP rP =
        updateChildTriesSerially (updateValueIfDirty t fuel) s node lP rP) ∧
    (∀ p, (updateChildTriesConcurrently (updateValueIfDirty t fuel) s node
        lP rP).1 = .ok p →
      updateChildTriesConcurrently (updateValueIfDirty t fuel) s node lP rP =
        updateChildTriesSerially (updateValueIfDirty t fuel) s node lP rP) := by
  by_cases hlP : lP = true
  · by_cases hrP : rP = true
    · have h : updateChildTriesConcurrently (updateValueIfDirty t fuel) s node
          lP rP = updateChildTriesSerially (updateValueIfDirty t fuel) s node
          lP rP := by
        simp [updateChildTriesConcurrently, updateChildTriesSerially, hlP, hrP]
      exact ⟨fun _ _ => h, fun _ _ => h⟩
    · obtain ⟨extR, hextR⟩ := hR hrP
      have hpreR : key <+: node.Right := ⟨true :: extR, hextR.symm⟩
      obtain ⟨r_r, w_r, hrB, -, hpassR, -⟩ := updPair t fuel node.Right s s
        hlo (fun _ _ => rfl) (fun _ _ => rfl)
      have h : updateChildTriesConcurrently (updateValueIfDirty t fuel) s node
          lP rP = updateChildTriesSerially (updateValueIfDirty t fuel) s node
          lP rP := by
        cases r_r <;>
          simp [updateChildTriesConcurrently, updateChildTriesSerially,
            hlP, hrP, hrB, applyEvs_trace, List.drop_left]
      exact ⟨fun _ _ => h, fun _ _ => h⟩
  · obtain ⟨extL, hextL⟩ := hL hlP
    have hpreL : key <+: node.Left := ⟨false :: extL, hextL.symm⟩
    obtain ⟨r_l, w_l, hl, -, hpassL, -⟩ := updPair t fuel node.Left s s
      hlo (fun _ _ => rfl) (fun _ _ => rfl)
    by_cases hrP : rP = true
    · have h : updateChildTriesConcurrently (updateValueIfDirty t fuel) s node
          lP rP = updateChildTriesSerially (updateValueIfDirty t fuel) s node
          lP rP := by
        cases r_l <;>
          simp [updateChildTriesConcurrently, updateChildTriesSerially,
            hlP, hrP, hl]
      exact ⟨fun _ _ => h, fun _ _ => h⟩
    · obtain ⟨extR, hextR⟩ := hR hrP
      have hpreR : key <+: node.Right := ⟨true :: extR, hextR.symm⟩
      have hdisj : ∀ j, node.Right <+: j → ¬ node.Left <+: j := by
        intro j hj
        rw [hextR] at hj
        rw [hextL]
        exact bit_children_disjoint j hj
      have hlo' : linksOk (applyEvs s w_l) := linksOk_applyEvs hlo hpassL s hlo
      have hna' : ∀ j, node.Right <+: j →
          findAssoc (applyEvs s w_l).nodes j = findAssoc s.nodes j :=
        fun j hj => findAssoc_applyEvs_offExt (passWrites_putsExt hpassL)
          (hdisj j hj)
      have hfa' : ∀ j, node.Right <+: j →
          findFault (applyEvs s w_l).faults j = findFault s.faults j := by
        intro j hj
        rw [applyEvs_faults]
      obtain ⟨r_r, w_r, hrE, hrB, hpassR, -⟩ := updPair t fuel node.Right
        (applyEvs s w_l) s hlo' hna' hfa'
      cases r_l with
      | error e =>
        have hserEq : updateChildTriesSerially (updateValueIfDirty t fuel) s
            node lP rP = (.error e, applyEvs s w_l) := by
          simp [updateChildTriesSerially, hlP, hrP, hl]
        have hconEq : updateChildTriesConcurrently (updateValueIfDirty t fuel)
            s node lP rP = (.error e, applyEvs (applyEvs s w_l) w_r) := by
          cases r_r <;>
            simp [updateChildTriesConcurrently, hlP, hrP, hl, hrB,
              applyEvs_trace, List.drop_left]
        constructor
        · intro p hp
          rw [hserEq] at hp
          simp at hp
        · intro p hp
          rw [hconEq] at hp
          simp at hp
      | ok ln =>
        cases r_r with
        | error e =>
          have hserEq : updateChildTriesSerially (updateValueIfDirty t fuel) s
              node lP rP = (.error e, applyEvs (applyEvs s w_l) w_r) := by
            simp [updateChildTriesSerially, hlP, hrP, hl, hrE]
          have hconEq : updateChildTriesConcurrently
              (updateValueIfDirty t fuel) s node lP rP =
              (.error e, applyEvs (applyEvs s w_l) w_r) := by
            simp [updateChildTriesConcurrently, hlP, hrP, hl, hrB,
              applyEvs_trace, List.drop_left]
          constructor
          · intro p hp
            rw [hserEq] at hp
            simp at hp
          · intro p hp
            rw [hconEq] at hp
            simp at hp
        | ok rn =>
          have hserEq : updateChildTriesSerially (updateValueIfDirty t fuel) s
              node lP rP =
              (.ok (some ln, some rn), applyEvs (applyEvs s w_l) w_r) := by
            simp [updateChildTriesSerially, hlP, hrP, hl, hrE]
          have hconEq : updateChildTriesConcurrently
              (updateValueIfDirty t fuel) s node lP rP =
              (.ok (some ln, some rn), applyEvs (applyEvs s w_l) w_r) := by
            simp [updateChildTriesConcurrently, hlP, hrP, hl, hrB,
              applyEvs_trace, List.drop_left]
          exact ⟨fun p hp => hconEq.trans hserEq.symm,
            fun p hp => hconEq.trans hserEq.symm⟩

/-- Transfer a successful serial child update from the mixed recursion to
the fully serial one, assuming the transfer for each child run. -/
theorem serial_comb_serialize (t : Trie) (fuel : Nat)
    (ih : ∀ (s : Storage) (key : Key) (n : Node) (s' : Storage), linksOk s →
      updateValueIfDirty t fuel s key = (.ok n, s') →
      updateValueIfDirtySerial t fuel s key = (.ok n, s'))
    (s : Storage) (node : Node) (lP rP : Bool) (hlo : linksOk s)
    (p : Option Node × Option Node) (s' : Storage)
    (h : updateChildTriesSerially (updateValueIfDirty t fuel) s node lP rP =
      (.ok p, s')) :
    updateChildTriesSerially (updateValueIfDirtySerial t fuel) s node lP rP =
      (.ok p, s') := by
  by_cases hlP : lP = true
  · by_cases hrP : rP = true
    · have h1 : updateChildTriesSerially (updateValueIfDirty t fuel) s node
          lP rP = (.ok (none, none), s) := by
        simp [updateChildTriesSerially, hlP, hrP]
      have h2 : updateChildTriesSerially (updateValueIfDirtySerial t fuel) s
          node lP rP = (.ok (none, none), s) := by
        simp [updateChildTriesSerially, hlP, hrP]
      rw [h2]
      rw [h1] at h
      exact h
    · have h1 : updateChildTriesSerially (updateValueIfDirty t fuel) s node
          lP rP = match updateValueIfDirty t fuel s node.Right with
          | (.error e, s) => (.error e, s)
          | (.ok rn, s) => (.ok (none, some rn), s) := by
        simp [updateChildTriesSerially, hlP, hrP]
      have h2 : updateChildTriesSerially (updateValueIfDirtySerial t fuel) s
          node lP rP = match updateValueIfDirtySerial t fuel s node.Right with
          | (.error e, s) => (.error e, s)
          | (.ok rn, s) => (.ok (none, some rn), s) := by
        simp [updateChildTriesSerially, hlP, hrP]
      rw [h1] at h
      rcases hr : updateValueIfDirty t fuel s node.Right with ⟨rr, sr⟩
      rw [hr] at h
      cases rr with
      | error e => simp at h
      | ok rn =>
        have hser := ih s node.Right rn sr hlo hr
        rw [h2, hser]
        exact h
  · have h1 : updateChildTriesSerially (updateValueIfDirty t fuel) s node
        lP rP = match updateValueIfDirty t fuel s node.Left with
        | (.error e, s) => (.error e, s)
        | (.ok ln, s) =>
          if ¬ rP = true then
            match updateValueIfDirty t fuel s node.Right with
            | (.error e, s) => (.error e, s)
            | (.ok rn, s) => (.ok (some ln, some rn), s)
          else (.ok (some ln, none), s) := by
      simp [updateChildTriesSerially, hlP]
    have h2 : updateChildTriesSerially (updateValueIfDirtySerial t fuel) s
        node lP rP = match updateValueIfDirtySerial t fuel s node.Left with
        | (.error e, s) => (.error e, s)
        | (.ok ln, s) =>
          if ¬ rP = true then
            match updateValueIfDirtySerial t fuel s node.Right with
            | (.error e, s) => (.error e, s)
            | (.ok rn, s) => (.ok (some ln, some rn), s)
          else (.ok (some ln, none), s) := by
      simp [updateChildTriesSerially, hlP]
    rw [h1] at h
    rcases hl : updateValueIfDirty t fuel s node.Left with ⟨rl, sl⟩
    rw [hl] at h
    cases rl with
    | error e => simp at h
    | ok ln =>
      have hserL := ih s node.Left ln sl hlo hl
      obtain ⟨r, w, he, -, hpass, -⟩ := updPair t fuel node.Left s s hlo
        (fun _ _ => rfl) (fun _ _ => rfl)
      have hsl : sl = applyEvs s w := by
        have := hl.symm.trans he
        exact (Prod.mk.injEq _ _ _ _ ▸ this).2
      have hloL : linksOk sl := by
        rw [hsl]
        exact linksOk_applyEvs hlo hpass s hlo
      by_cases hrP : rP = true
      · rw [h2, hserL]
        simp only [if_neg (not_not_intro hrP)] at h ⊢
        exact h
      · simp only [if_pos hrP, not_false_eq_true, if_pos] at h
        rcases hr : updateValueIfDirty t fuel sl node.Right with ⟨rr, sr⟩
        rw [hr] at h
        cases rr with
        | error e => simp at h
        | ok rn =>
          have hserR := ih sl node.Right rn sr hloL hr
          rw [h2, hserL]
          simp only [hrP, not_false_eq_true, if_pos]
          rw [hserR]
          exact h

/-- A successful run of the mixed recursion is reproduced exactly — same
node, same final storage — by the fully serial recursion. -/
theorem updSerial_of_upd (t : Trie) : ∀ (fuel : Nat) (s : Storage)
    (key : Key) (n : Node) (s' : Storage), linksOk s →
    updateValueIfDirty t fuel s key = (.ok n, s') →
    updateValueIfDirtySerial t fuel s key = (.ok n, s') := by
  intro fuel
  induction fuel with
  | zero =>
    intro s key n s' hlo h
    simp [updateValueIfDirty] at h
  | succ fuel ih =>
    intro s key n s' hlo h
    cases hg : sget s key with
    | error e =>
      simp only [updateValueIfDirty] at h
      rw [hg] at h
      simp at h
    | ok node =>
      simp only [updateValueIfDirty] at h
      rw [hg] at h
      simp only [updateValueIfDirtySerial]
      rw [hg]
      by_cases hleaf : key.length = t.height
      · simp only [if_pos hleaf] at h ⊢
        exact h
      · simp only [if_neg hleaf] at h ⊢
        by_cases hsu : (if node.Left = [] ∧ node.Right = [] then false
            else if node.Left = [] ∨ node.Right = [] then true
            else t.dirtyNodes.any fun dirtyNode =>
              decide (key.length < dirtyNode.length) &&
                isSubset dirtyNode key) = true
        · simp only [if_neg (not_not_intro hsu)] at h ⊢
          by_cases hdepth : key.length ≤ concurrencyMaxDepth
          · simp only [if_pos hdepth] at h
            rcases hcc : updateChildTriesConcurrently
                (updateValueIfDirty t fuel) s node (decide (node.Left = []))
                (decide (node.Right = [])) with ⟨rc, sc⟩
            rw [hcc] at h
            cases rc with
            | error e => simp at h
            | ok lr =>
              obtain ⟨lc, rc2⟩ := lr
              have hli := linksOk_find hlo (sget_ok_findAssoc hg).2
              have hLc : ¬ (decide (node.Left = []) = true) →
                  ∃ ext, node.Left = key ++ false :: ext := by
                intro hd
                rcases hli.1 with h0 | h1
                · exact absurd (decide_eq_true_eq.mpr h0) hd
                · exact h1
              have hRc : ¬ (decide (node.Right = []) = true) →
                  ∃ ext, node.Right = key ++ true :: ext := by
                intro hd
                rcases hli.2 with h0 | h1
                · exact absurd (decide_eq_true_eq.mpr h0) hd
                · exact h1
              obtain ⟨-, himp⟩ := conc_eq_serial_of_ok t fuel s key node
                (decide (node.Left = [])) (decide (node.Right = [])) hlo
                hLc hRc
              have hserMixed : updateChildTriesSerially
                  (updateValueIfDirty t fuel) s node (decide (node.Left = []))
                  (decide (node.Right = [])) = (.ok (lc, rc2), sc) := by
                rw [← himp (lc, rc2) (by rw [hcc])]
                exact hcc
              have hserS := serial_comb_serialize t fuel ih s node
                (decide (node.Left = [])) (decide (node.Right = [])) hlo
                (lc, rc2) sc hserMixed
              rw [hserS]
              exact h
          · simp only [if_neg hdepth] at h
            rcases hcc : updateChildTriesSerially (updateValueIfDirty t fuel)
                s node (decide (node.Left = []))
                (decide (node.Right = [])) with ⟨rc, sc⟩
            rw [hcc] at h
            cases rc with
            | error e => simp at h
            | ok lr =>
              obtain ⟨lc, rc2⟩ := lr
              have hserS := serial_comb_serialize t fuel ih s node
                (decide (node.Left = [])) (decide (node.Right = [])) hlo
                (lc, rc2) sc hcc
              rw [hserS]
              exact h
        · simp only [if_pos hsu] at h ⊢
          exact h

/-- A successful Root run is reproduced exactly by the fully serial
reference pass. -/
theorem rootSerial_of_root (t : Trie) (hlo : linksOk t.storage) (r : Felt)
    (t₁ : Trie) (h : t.Root = (.ok r, t₁)) : t.RootSerial = (.ok r, t₁) := by
  cases hrk : t.rootKey with
  | none =>
    have hr : t.Root =
        (.ok 0, if t.rootKeyIsDirty then
          { t with storage := sdelRootKey t.storage, rootKeyIsDirty := false }
          else t) := by
      cases hd : t.rootKeyIsDirty <;> simp [Trie.Root, hrk, hd]
    have hrs : t.RootSerial =
        (.ok 0, if t.rootKeyIsDirty then
          { t with storage := sdelRootKey t.storage, rootKeyIsDirty := false }
          else t) := by
      cases hd : t.rootKeyIsDirty <;> simp [Trie.RootSerial, hrk, hd]
    rw [hrs, ← hr]
    exact h
  | some rk =>
    set tS : Trie := if t.rootKeyIsDirty then
        { t with storage := sputRootKey t.storage rk, rootKeyIsDirty := false }
        else t with htS
    have hSnodes : tS.storage.nodes = t.storage.nodes := by
      rw [htS]
      cases hd : t.rootKeyIsDirty <;> simp [hd, sputRootKey, applyEv]
    have hSlo : linksOk tS.storage := by
      intro p hp
      rw [hSnodes] at hp
      exact hlo p hp
    have hr : t.Root =
        (match updateValueIfDirty tS (tS.height + 1)
            (syncedStorage tS.storage) rk with
         | (.error e, s) => (.error e, { tS with storage := s })
         | (.ok root, s) =>
           (.ok (nodeHash tS.hash root (pathOf rk none)),
             { tS with storage := s, dirtyNodes := [] })) := by
      rw [htS]
      cases hd : t.rootKeyIsDirty <;> simp [Trie.Root, hrk, hd]
    have hrs : t.RootSerial =
        (match updateValueIfDirtySerial tS (tS.height + 1)
            (syncedStorage tS.storage) rk with
         | (.error e, s) => (.error e, { tS with storage := s })
         | (.ok root, s) =>
           (.ok (nodeHash tS.hash root (pathOf rk none)),
             { tS with storage := s, dirtyNodes := [] })) := by
      rw [htS]
      cases hd : t.rootKeyIsDirty <;> simp [Trie.RootSerial, hrk, hd]
    rw [hr] at h
    rcases hu : updateValueIfDirty tS (tS.height + 1)
        (syncedStorage tS.storage) rk with ⟨ru, su⟩
    rw [hu] at h
    cases ru with
    | error e => simp at h
    | ok root =>
      have hus := updSerial_of_upd tS (tS.height + 1)
        (syncedStorage tS.storage) rk root su hSlo hu
      rw [hrs, hus]
      exact h

/-- C9: on a link-sound storage the concurrent (snapshot and merge) child
update and the serial child update of a stored node agree completely —
same pair of child nodes and same resulting storage — whenever either of
them succeeds; consequently a successful Root computation returns the
same commitment, and the same final trie, as the fully serial reference
recursion, so the result is independent of whether the parallel or the
serial path was taken for any subtree. -/
theorem concurrent_matches_serial (t : Trie) (fuel : Nat) (s : Storage)
    (key : Key) (node : Node) (hlo : linksOk s)
    (hfind : findAssoc s.nodes key = some node)
    (hloT : linksOk t.storage) :
    (∀ p, ((updateChildTriesSerially (updateValueIfDirty t fuel) s node
          (decide (node.Left = [])) (decide (node.Right = []))).1 = .ok p ∨
        (updateChildTriesConcurrently (updateValueIfDirty t fuel) s node
          (decide (node.Left = [])) (decide (node.Right = []))).1 = .ok p) →
      updateChildTriesConcurrently (updateValueIfDirty t fuel) s node
          (decide (node.Left = [])) (decide (node.Right = [])) =
        updateChildTriesSerially (updateValueIfDirty t fuel) s node
          (decide (node.Left = [])) (decide (node.Right = []))) ∧
    (∀ r t₁, t.Root = (.ok r, t₁) → t.RootSerial = (.ok r, t₁)) := by
  constructor
  · have hli := linksOk_find hlo hfind
    have hLc : ¬ (decide (node.Left = []) = true) →
        ∃ ext, node.Left = key ++ false :: ext := by
      intro hd
      rcases hli.1 with h0 | h1
      · exact absurd (decide_eq_true_eq.mpr h0) hd
      · exact h1
    have hRc : ¬ (decide (node.Right = []) = true) →
        ∃ ext, node.Right = key ++ true :: ext := by
      intro hd
      rcases hli.2 with h0 | h1
      · exact absurd (decide_eq_true_eq.mpr h0) hd
      · exact h1
    obtain ⟨h₁, h₂⟩ := conc_eq_serial_of_ok t fuel s key node
      (decide (node.Left = [])) (decide (node.Right = [])) hlo hLc hRc
    intro p hp
    rcases hp with hp | hp
    · exact h₁ p hp
    · exact h₂ p hp
  · intro r t₁ h
    exact rootSerial_of_root t hloT r t₁ h

/-- The root node stored by faultFreeTrie. -/
def ffRootNode : Node :=
  { Value := 99, Left := [false, false, false, false],
    Right := [false, false, false, true] }

theorem concurrent_matches_serial_witness :
    linksOk faultFreeTrie.storage ∧
    findAssoc faultFreeTrie.storage.nodes [false, false, false] =
      some ffRootNode ∧
    ((∀ p, ((updateChildTriesSerially (updateValueIfDirty faultFreeTrie 5)
          faultFreeTrie.storage ffRootNode
          (decide (ffRootNode.Left = []))
          (decide (ffRootNode.Right = []))).1 = .ok p ∨
        (updateChildTriesConcurrently (updateValueIfDirty faultFreeTrie 5)
          faultFreeTrie.storage ffRootNode
          (decide (ffRootNode.Left = []))
          (decide (ffRootNode.Right = []))).1 = .ok p) →
      updateChildTriesConcurrently (updateValueIfDirty faultFreeTrie 5)
          faultFreeTrie.storage ffRootNode
          (decide (ffRootNode.Left = []))
          (decide (ffRootNode.Right = [])) =
        updateChildTriesSerially (updateValueIfDirty faultFreeTrie 5)
          faultFreeTrie.storage ffRootNode
          (decide (ffRootNode.Left = []))
          (decide (ffRootNode.Right = []))) ∧
    (∀ r t₁, faultFreeTrie.Root = (.ok r, t₁) →
      faultFreeTrie.RootSerial = (.ok r, t₁))) :=
  ⟨by decide, by decide,
   concurrent_matches_serial faultFreeTrie 5 faultFreeTrie.storage
     [false, false, false] ffRootNode (by decide) (by decide) (by decide)⟩

/-! Longest-common-prefix toolkit for the canonical view. -/

theorem lcpKey_comm : ∀ a b : Key, lcpKey a b = lcpKey b a := by
  intro a
  induction a with
  | nil => intro b; cases b <;> simp [lcpKey]
  | cons x xs ih =>
    intro b
    cases b with
    | nil => simp [lcpKey]
    | cons y ys =>
      by_cases hxy : x = y
      · subst hxy
        simp [lcpKey, ih]
      · simp [lcpKey, if_neg hxy, if_neg (Ne.symm hxy)]

theorem lcpKey_pre_left : ∀ a b : Key, lcpKey a b <+: a := by
  intro a
  induction a with
  | nil => intro b; cases b <;> simp [lcpKey]
  | cons x xs ih =>
    intro b
    cases b with
    | nil => simp [lcpKey]
    | cons y ys =>
      by_cases hxy : x = y
      · subst hxy
        simp only [lcpKey, if_pos rfl]
        exact List.cons_prefix_cons.mpr ⟨rfl, ih ys⟩
      · simp [lcpKey, if_neg hxy]

theorem lcpKey_pre_right (a b : Key) : lcpKey a b <+: b := by
  rw [lcpKey_comm]
  exact lcpKey_pre_left b a

theorem lcpKey_of_pre : ∀ {a b : Key}, a <+: b → lcpKey a b = a := by
  intro a
  induction a with
  | nil => intro b h; cases b <;> simp [lcpKey]
  | cons x xs ih =>
    intro b h
    cases b with
    | nil => simp at h
    | cons y ys =>
      obtain ⟨hxy, hpre⟩ := List.cons_prefix_cons.mp h
      subst hxy
      simp [lcpKey, ih hpre]

theorem pre_lcpKey : ∀ {p a b : Key}, p <+: a → p <+: b → p <+: lcpKey a b := by
  intro p
  induction p with
  | nil => intro a b _ _; exact List.nil_prefix
  | cons x xs ih =>
    intro a b ha hb
    cases a with
    | nil => simp at ha
    | cons y ys =>
      cases b with
      | nil => simp at hb
      | cons z zs =>
        obtain ⟨h1, ha'⟩ := List.cons_prefix_cons.mp ha
        obtain ⟨h2, hb'⟩ := List.cons_prefix_cons.mp hb
        subst h1
        subst h2
        simp only [lcpKey, if_pos rfl]
        exact List.cons_prefix_cons.mpr ⟨rfl, ih ha' hb'⟩

theorem lcpKey_diverge : ∀ a b : Key, lcpKey a b = a ∨ lcpKey a b = b ∨
    a.getD (lcpKey a b).length false ≠ b.getD (lcpKey a b).length false := by
  intro a
  induction a with
  | nil => intro b; exact Or.inl (by cases b <;> simp [lcpKey])
  | cons x xs ih =>
    intro b
    cases b with
    | nil => exact Or.inr (Or.inl (by simp [lcpKey]))
    | cons y ys =>
      by_cases hxy : x = y
      · subst hxy
        rcases ih ys with h | h | h
        · exact Or.inl (by simp [lcpKey, h])
        · exact Or.inr (Or.inl (by simp [lcpKey, h]))
        · refine Or.inr (Or.inr ?_)
          simpa [lcpKey, List.getD_cons_succ] using h
      · refine Or.inr (Or.inr ?_)
        simp only [lcpKey, if_neg hxy, List.length_nil, List.getD_cons_zero]
        exact hxy

theorem getD_of_pre : ∀ {p a : Key} {i : Nat}, p <+: a → i < p.length →
    a.getD i false = p.getD i false := by
  intro p
  induction p with
  | nil => intro a i _ hi; simp at hi
  | cons x xs ih =>
    intro a i hpre hi
    cases a with
    | nil => simp at hpre
    | cons y ys =>
      obtain ⟨h1, hpre'⟩ := List.cons_prefix_cons.mp hpre
      subst h1
      cases i with
      | zero => simp
      | succ i =>
        simp only [List.getD_cons_succ]
        exact ih hpre' (by simpa using hi)

theorem getD_append_len (p : Key) (b : Bool) (r : Key) :
    (p ++ b :: r).getD p.length false = b := by
  induction p with
  | nil => simp
  | cons x xs ih => simpa using ih

theorem bit_of_pre {p : Key} {b : Bool} {a : Key} (h : (p ++ [b]) <+: a) :
    a.getD p.length false = b := by
  obtain ⟨t, ht⟩ := h
  rw [← ht, List.append_assoc]
  simpa using getD_append_len p b t

theorem extend_pre : ∀ {p a : Key}, p <+: a → p ≠ a →
    (p ++ [a.getD p.length false]) <+: a := by
  intro p
  induction p with
  | nil =>
    intro a _ hne
    cases a with
    | nil => exact absurd rfl hne
    | cons y ys =>
      simp only [List.nil_append, List.length_nil, List.getD_cons_zero]
      exact List.cons_prefix_cons.mpr ⟨rfl, List.nil_prefix⟩
  | cons x xs ih =>
    intro a hpre hne
    cases a with
    | nil => simp at hpre
    | cons y ys =>
      obtain ⟨h1, hpre'⟩ := List.cons_prefix_cons.mp hpre
      subst h1
      have hne' : xs ≠ ys := fun h => hne (by rw [h])
      have hext := ih hpre' hne'
      simp only [List.cons_append, List.length_cons, List.getD_cons_succ]
      exact List.cons_prefix_cons.mpr ⟨rfl, hext⟩

theorem pre_length_lt {p a : Key} (h : p <+: a) (hne : p ≠ a) :
    p.length < a.length := by
  rcases Nat.lt_or_ge p.length a.length with h1 | h1
  · exact h1
  · exact absurd (h.eq_of_length (Nat.le_antisymm h.length_le h1)) hne

theorem pre_antisymm {a b : Key} (h₁ : a <+: b) (h₂ : b <+: a) : a = b :=
  h₁.eq_of_length (Nat.le_antisymm h₁.length_le h₂.length_le)

theorem foldl_lcp_pre_acc : ∀ (ks : List Key) (acc : Key),
    ks.foldl lcpKey acc <+: acc := by
  intro ks
  induction ks with
  | nil => intro acc; exact List.prefix_refl _
  | cons k ks ih =>
    intro acc
    exact (ih (lcpKey acc k)).trans (lcpKey_pre_left acc k)

theorem foldl_lcp_pre_mem : ∀ (ks : List Key) (acc k : Key), k ∈ ks →
    ks.foldl lcpKey acc <+: k := by
  intro ks
  induction ks with
  | nil => intro acc k h; simp at h
  | cons k' ks ih =>
    intro acc k h
    rcases List.mem_cons.mp h with h | h
    · subst h
      exact (foldl_lcp_pre_acc ks _).trans (lcpKey_pre_right acc k)
    · exact ih _ k h

theorem lcpList_pre {K : List Key} {k : Key} (hk : k ∈ K) : lcpList K <+: k := by
  cases K with
  | nil => simp at hk
  | cons k₀ ks =>
    rcases List.mem_cons.mp hk with h | h
    · subst h
      exact foldl_lcp_pre_acc ks k
    · exact foldl_lcp_pre_mem ks k₀ k h

theorem foldl_pre_lcp : ∀ (ks : List Key) (acc p : Key), p <+: acc →
    (∀ k ∈ ks, p <+: k) → p <+: ks.foldl lcpKey acc := by
  intro ks
  induction ks with
  | nil => intro acc p h _; exact h
  | cons k ks ih =>
    intro acc p hacc hall
    exact ih _ p (pre_lcpKey hacc (hall k (by simp)))
      (fun k' hk' => hall k' (by simp [hk']))

theorem pre_lcpList {K : List Key} {p : Key} (hK : K ≠ [])
    (h : ∀ k ∈ K, p <+: k) : p <+: lcpList K := by
  cases K with
  | nil => exact absurd rfl hK
  | cons k₀ ks =>
    exact foldl_pre_lcp ks k₀ p (h k₀ (by simp)) (fun k hk => h k (by simp [hk]))

theorem lcpList_perm {K K' : List Key} (h : K.Perm K') :
    lcpList K = lcpList K' := by
  cases K with
  | nil => rw [List.Perm.eq_nil h.symm]
  | cons k₀ ks =>
    have hK : (k₀ :: ks) ≠ ([] : List Key) := by simp
    have hK' : K' ≠ [] := by
      intro h0
      subst h0
      exact hK (List.Perm.eq_nil h)
    apply pre_antisymm
    · exact pre_lcpList hK' (fun k hk => lcpList_pre (h.mem_iff.mpr hk))
    · exact pre_lcpList hK (fun k hk => lcpList_pre (h.mem_iff.mp hk))

theorem lcpList_anti {K K' : List Key} (hsub : ∀ k ∈ K, k ∈ K')
    (hK : K ≠ []) : lcpList K' <+: lcpList K :=
  pre_lcpList hK (fun k hk => lcpList_pre (hsub k hk))

theorem lcpList_append_single {K : List Key} (hK : K ≠ []) (k : Key) :
    lcpList (K ++ [k]) = lcpKey (lcpList K) k := by
  cases K with
  | nil => exact absurd rfl hK
  | cons k₀ ks =>
    show (ks ++ [k]).foldl lcpKey k₀ = _
    rw [List.foldl_append]
    rfl

/-! Cone lemmas: the canonical node keys of a key-value view. -/

theorem mem_pairsBelow {E : List (Key × Felt)} {p : Key} {e : Key × Felt} :
    e ∈ pairsBelow E p ↔ e ∈ E ∧ p <+: e.1 := by
  simp [pairsBelow, List.mem_filter, isSubset]

theorem coneKey_ext {E : List (Key × Felt)} {p : Key}
    (h : pairsBelow E p ≠ []) : p <+: coneKey E p := by
  show p <+: lcpList ((pairsBelow E p).map Prod.fst)
  apply pre_lcpList
  · cases hpb : pairsBelow E p with
    | nil => exact absurd hpb h
    | cons e es => simp [hpb]
  · intro k hk
    obtain ⟨e, he, hek⟩ := List.mem_map.mp hk
    rw [← hek]
    exact (mem_pairsBelow.mp he).2

theorem coneKey_pre_mem {E : List (Key × Felt)} {p : Key} {e : Key × Felt}
    (he : e ∈ pairsBelow E p) : coneKey E p <+: e.1 :=
  lcpList_pre (List.mem_map.mpr ⟨e, he, rfl⟩)

theorem pairsBelow_congr {E : List (Key × Felt)} {p q : Key}
    (h : ∀ e ∈ E, (p <+: e.1) ↔ (q <+: e.1)) :
    pairsBelow E p = pairsBelow E q := by
  unfold pairsBelow
  apply List.filter_congr
  intro e he
  simp only [isSubset]
  exact decide_eq_decide.mpr (h e he)

theorem cone_of_coneKey {E : List (Key × Felt)} {p : Key}
    (h : pairsBelow E p ≠ []) :
    pairsBelow E (coneKey E p) = pairsBelow E p := by
  apply pairsBelow_congr
  intro e he
  constructor
  · intro h1
    exact (coneKey_ext h).trans h1
  · intro h1
    exact coneKey_pre_mem (mem_pairsBelow.mpr ⟨he, h1⟩)

theorem isNode_coneKey {E : List (Key × Felt)} {p : Key}
    (h : pairsBelow E p ≠ []) : isNode E (coneKey E p) := by
  constructor
  · rw [cone_of_coneKey h]
    exact h
  · show lcpList ((pairsBelow E (coneKey E p)).map Prod.fst) = coneKey E p
    rw [cone_of_coneKey h]
    rfl

theorem pairsBelow_nil_key (E : List (Key × Felt)) : pairsBelow E [] = E := by
  induction E with
  | nil => rfl
  | cons e es ih =>
    simp only [pairsBelow, List.filter_cons] at ih ⊢
    rw [if_pos (by simp [isSubset]), ih]

theorem pairsBelow_ne_nil {E : List (Key × Felt)} {p : Key} :
    pairsBelow E p ≠ [] ↔ ∃ e ∈ E, p <+: e.1 := by
  constructor
  · intro h
    obtain ⟨e, he⟩ := List.exists_mem_of_ne_nil _ h
    obtain ⟨h1, h2⟩ := mem_pairsBelow.mp he
    exact ⟨e, h1, h2⟩
  · rintro ⟨e, h1, h2⟩
    intro h0
    have hmem : e ∈ pairsBelow E p := mem_pairsBelow.mpr ⟨h1, h2⟩
    rw [h0] at hmem
    simp at hmem

theorem pairsBelow_append (E₁ E₂ : List (Key × Felt)) (p : Key) :
    pairsBelow (E₁ ++ E₂) p = pairsBelow E₁ p ++ pairsBelow E₂ p := by
  simp [pairsBelow, List.filter_append]

theorem pairsBelow_single (k : Key) (v : Felt) (p : Key) :
    pairsBelow [(k, v)] p = if p <+: k then [(k, v)] else [] := by
  by_cases h : p <+: k <;> simp [pairsBelow, isSubset, h]

theorem cone_keys_nodup {E : List (Key × Felt)} {p : Key}
    (hnd : (E.map Prod.fst).Nodup) :
    ((pairsBelow E p).map Prod.fst).Nodup := by
  apply List.Nodup.sublist _ hnd
  exact List.Sublist.map _ (List.filter_sublist _)

theorem leaf_struct {E : List (Key × Felt)} {j : Key} (hnode : isNode E j)
    {e : Key × Felt} (hcone : pairsBelow E j = [e]) : j = e.1 := by
  have hck : coneKey E j = e.1 := by
    show lcpList ((pairsBelow E j).map Prod.fst) = e.1
    rw [hcone]
    rfl
  exact hnode.2.symm.trans hck

theorem branch_struct {H : Nat} {E : List (Key × Felt)} {p : Key}
    (hwf : ∀ e ∈ E, e.1.length = H) (hnd : (E.map Prod.fst).Nodup)
    (hnode : isNode E p) {e₁ e₂ : Key × Felt} {rest : List (Key × Felt)}
    (hcone : pairsBelow E p = e₁ :: e₂ :: rest) :
    p.length < H ∧
    pairsBelow E (p ++ [false]) ≠ [] ∧ pairsBelow E (p ++ [true]) ≠ [] := by
  have hm₁ : e₁ ∈ pairsBelow E p := by rw [hcone]; simp
  have hm₂ : e₂ ∈ pairsBelow E p := by rw [hcone]; simp
  obtain ⟨hE₁, hp₁⟩ := mem_pairsBelow.mp hm₁
  obtain ⟨hE₂, hp₂⟩ := mem_pairsBelow.mp hm₂
  have hkeysnd := cone_keys_nodup (p := p) hnd
  have hne12 : e₁.1 ≠ e₂.1 := by
    rw [hcone] at hkeysnd
    simp only [List.map_cons, List.nodup_cons, List.mem_cons] at hkeysnd
    intro h
    exact hkeysnd.1 (Or.inl h)
  have hlt : p.length < H := by
    rcases Nat.lt_or_ge p.length H with h | h
    · exact h
    · have h₁ : p = e₁.1 := hp₁.eq_of_length
        (Nat.le_antisymm hp₁.length_le (by rw [hwf e₁ hE₁]; exact h))
      have h₂ : p = e₂.1 := hp₂.eq_of_length
        (Nat.le_antisymm hp₂.length_le (by rw [hwf e₂ hE₂]; exact h))
      exact absurd (h₁ ▸ h₂) hne12
  have hside : ∀ b : Bool, pairsBelow E (p ++ [b]) ≠ [] := by
    intro b
    rw [pairsBelow_ne_nil]
    by_contra hnone
    push_neg at hnone
    have hall : ∀ e ∈ pairsBelow E p, (p ++ [!b]) <+: e.1 := by
      intro e he
      obtain ⟨heE, hpe⟩ := mem_pairsBelow.mp he
      have hneq : p ≠ e.1 := by
        intro h0
        rw [h0, hwf e heE] at hlt
        exact lt_irrefl _ hlt
      have hext := extend_pre hpe hneq
      by_cases hb : e.1.getD p.length false = b
      · rw [hb] at hext
        exact absurd hext (hnone e heE)
      · have hnb : e.1.getD p.length false = !b := by
          cases b <;> cases hq : e.1.getD p.length false <;> simp_all
        rw [hnb] at hext
        exact hext
    have hpre2 : (p ++ [!b]) <+: p := by
      have h1 : (p ++ [!b]) <+: coneKey E p := by
        show (p ++ [!b]) <+: lcpList ((pairsBelow E p).map Prod.fst)
        apply pre_lcpList
        · rw [hcone]
          simp
        · intro kk hkk
          obtain ⟨e, he, hek⟩ := List.mem_map.mp hkk
          rw [← hek]
          exact hall e he
      rw [hnode.2] at h1
      exact h1
    have hlen := hpre2.length_le
    rw [List.length_append] at hlen
    simp at hlen
  exact ⟨hlt, hside false, hside true⟩

theorem not_isNode_of_new {H : Nat} {E : List (Key × Felt)} {k : Key}
    (hwf : ∀ e ∈ E, e.1.length = H) (hkH : k.length = H)
    (hnew : k ∉ E.map Prod.fst) : ¬ isNode E k := by
  intro h
  obtain ⟨e, he⟩ := List.exists_mem_of_ne_nil _ h.1
  obtain ⟨heE, hek⟩ := mem_pairsBelow.mp he
  have hkeq : k = e.1 := hek.eq_of_length (by rw [hkH, hwf e heE])
  exact hnew (by rw [hkeq]; exact List.mem_map.mpr ⟨e, heE, rfl⟩)

theorem map_fst_ne_nil {E : List (Key × Felt)} (h : E ≠ []) :
    E.map Prod.fst ≠ [] := by
  cases E with
  | nil => exact absurd rfl h
  | cons e es => simp

/-! Canonical node lemmas: fuel irrelevance, unfolding, invariance. -/

theorem cnode_fuel_congr {hash : HashFn} {H : Nat} {E : List (Key × Felt)}
    (hwf : ∀ e ∈ E, e.1.length = H) (hnd : (E.map Prod.fst).Nodup) :
    ∀ f₁ f₂ p, isNode E p → H - p.length < f₁ → H - p.length < f₂ →
      cnode hash E f₁ p = cnode hash E f₂ p := by
  intro f₁
  induction f₁ with
  | zero =>
    intro f₂ p _ h1 _
    omega
  | succ f₁ ih =>
    intro f₂ p hp h1 h2
    cases f₂ with
    | zero => omega
    | succ f₂ =>
      simp only [cnode]
      cases hcone : pairsBelow E p with
      | nil => exact absurd hcone hp.1
      | cons e tail =>
        cases tail with
        | nil => simp [hcone]
        | cons e₂ rest =>
          obtain ⟨hlt, hL, hR⟩ := branch_struct hwf hnd hp hcone
          have hLnode := isNode_coneKey hL
          have hRnode := isNode_coneKey hR
          have hLlen : p.length + 1 ≤ (coneKey E (p ++ [false])).length := by
            have h := (coneKey_ext hL).length_le
            rw [List.length_append] at h
            simpa using h
          have hRlen : p.length + 1 ≤ (coneKey E (p ++ [true])).length := by
            have h := (coneKey_ext hR).length_le
            rw [List.length_append] at h
            simpa using h
          simp only [hcone]
          rw [ih f₂ (coneKey E (p ++ [false])) hLnode (by omega) (by omega),
              ih f₂ (coneKey E (p ++ [true])) hRnode (by omega) (by omega)]

theorem canonNode_leaf {hash : HashFn} {H : Nat} {E : List (Key × Felt)}
    {j : Key} {e : Key × Felt} (hj : j.length ≤ H)
    (hcone : pairsBelow E j = [e]) :
    canonNode hash H E j = { Value := e.2 } := by
  unfold canonNode
  have hf : H + 1 - j.length = (H - j.length) + 1 := by omega
  rw [hf]
  simp only [cnode]
  simp [hcone]

theorem canonNode_branch {hash : HashFn} {H : Nat} {E : List (Key × Felt)}
    {j : Key}
    (hwf : ∀ e ∈ E, e.1.length = H) (hnd : (E.map Prod.fst).Nodup)
    (hj : isNode E j) {e₁ e₂ : Key × Felt} {rest : List (Key × Felt)}
    (hcone : pairsBelow E j = e₁ :: e₂ :: rest) :
    canonNode hash H E j =
      { Value := hash
          (nodeHash hash (canonNode hash H E (coneKey E (j ++ [false])))
            (pathOf (coneKey E (j ++ [false])) (some j)))
          (nodeHash hash (canonNode hash H E (coneKey E (j ++ [true])))
            (pathOf (coneKey E (j ++ [true])) (some j))),
        Left := coneKey E (j ++ [false]),
        Right := coneKey E (j ++ [true]) } := by
  obtain ⟨hlt, hL, hR⟩ := branch_struct hwf hnd hj hcone
  have hLnode := isNode_coneKey hL
  have hRnode := isNode_coneKey hR
  have hLlen : j.length + 1 ≤ (coneKey E (j ++ [false])).length := by
    have h := (coneKey_ext hL).length_le
    rw [List.length_append] at h
    simpa using h
  have hRlen : j.length + 1 ≤ (coneKey E (j ++ [true])).length := by
    have h := (coneKey_ext hR).length_le
    rw [List.length_append] at h
    simpa using h
  obtain ⟨eL, heL⟩ := List.exists_mem_of_ne_nil _ hL
  have hLH : (coneKey E (j ++ [false])).length ≤ H := by
    have h := (coneKey_pre_mem heL).length_le
    rw [hwf eL (mem_pairsBelow.mp heL).1] at h
    exact h
  obtain ⟨eR, heR⟩ := List.exists_mem_of_ne_nil _ hR
  have hRH : (coneKey E (j ++ [true])).length ≤ H := by
    have h := (coneKey_pre_mem heR).length_le
    rw [hwf eR (mem_pairsBelow.mp heR).1] at h
    exact h
  unfold canonNode
  have hf : H + 1 - j.length = (H - j.length) + 1 := by omega
  rw [hf]
  simp only [cnode]
  simp only [hcone]
  rw [cnode_fuel_congr hwf hnd (H - j.length)
        (H + 1 - (coneKey E (j ++ [false])).length)
        (coneKey E (j ++ [false])) hLnode (by omega) (by omega),
      cnode_fuel_congr hwf hnd (H - j.length)
        (H + 1 - (coneKey E (j ++ [true])).length)
        (coneKey E (j ++ [true])) hRnode (by omega) (by omega)]

theorem cnode_perm {hash : HashFn} {E E' : List (Key × Felt)}
    (h : E.Perm E') :
    ∀ fuel p, cnode hash E fuel p = cnode hash E' fuel p := by
  intro fuel
  induction fuel with
  | zero => intro p; rfl
  | succ fuel ih =>
    intro p
    have hperm : (pairsBelow E p).Perm (pairsBelow E' p) := h.filter _
    have hckL : coneKey E (p ++ [false]) = coneKey E' (p ++ [false]) :=
      lcpList_perm ((h.filter _).map _)
    have hckR : coneKey E (p ++ [true]) = coneKey E' (p ++ [true]) :=
      lcpList_perm ((h.filter _).map _)
    simp only [cnode]
    cases hc : pairsBelow E p with
    | nil =>
      have hc' : pairsBelow E' p = [] := by
        rw [hc] at hperm
        exact List.Perm.eq_nil hperm.symm
      simp [hc, hc']
    | cons e tail =>
      cases tail with
      | nil =>
        have hc' : pairsBelow E' p = [e] := by
          rw [hc] at hperm
          exact (List.singleton_perm.mp hperm).symm
        simp [hc, hc']
      | cons e₂ rest =>
        have hc' : ∃ f₁ f₂ frest, pairsBelow E' p = f₁ :: f₂ :: frest := by
          rw [hc] at hperm
          have hlen := hperm.length_eq
          cases h0 : pairsBelow E' p with
          | nil =>
            rw [h0] at hlen
            simp at hlen
          | cons f₁ ftail =>
            cases ftail with
            | nil =>
              rw [h0] at hlen
              simp at hlen
            | cons f₂ frest => exact ⟨f₁, f₂, frest, rfl⟩
        obtain ⟨f₁, f₂, frest, h0⟩ := hc'
        simp only [hc, h0]
        rw [hckL, hckR, ih, ih]

theorem pairsBelow_append_off {E : List (Key × Felt)} {k : Key} {v : Felt}
    {p : Key} (hp : ¬ p <+: k) :
    pairsBelow (E ++ [(k, v)]) p = pairsBelow E p := by
  rw [pairsBelow_append, pairsBelow_single, if_neg hp, List.append_nil]

theorem coneKey_append_off {E : List (Key × Felt)} {k : Key} {v : Felt}
    {p : Key} (hp : ¬ p <+: k) :
    coneKey (E ++ [(k, v)]) p = coneKey E p := by
  show lcpList _ = lcpList _
  rw [pairsBelow_append_off hp]

theorem isNode_append_off {E : List (Key × Felt)} {k : Key} {v : Felt}
    {j : Key} (hjk : ¬ j <+: k) :
    isNode (E ++ [(k, v)]) j ↔ isNode E j := by
  unfold isNode
  rw [pairsBelow_append_off hjk, coneKey_append_off hjk]

theorem pairsBelow_append_anc {E : List (Key × Felt)} {k : Key} {v : Felt}
    {j : Key} (hjk : j <+: k) :
    pairsBelow (E ++ [(k, v)]) j = pairsBelow E j ++ [(k, v)] := by
  rw [pairsBelow_append, pairsBelow_single, if_pos hjk]

theorem coneKey_append_anc {E : List (Key × Felt)} {k : Key} {v : Felt}
    {j : Key} (hjk : j <+: k) (hne : pairsBelow E j ≠ []) :
    coneKey (E ++ [(k, v)]) j = lcpKey (coneKey E j) k := by
  show lcpList _ = _
  rw [pairsBelow_append_anc hjk, List.map_append]
  exact lcpList_append_single (map_fst_ne_nil hne) k

theorem coneKey_append_anc_nil {E : List (Key × Felt)} {k : Key} {v : Felt}
    {j : Key} (hjk : j <+: k) (hnil : pairsBelow E j = []) :
    coneKey (E ++ [(k, v)]) j = k := by
  show lcpList _ = _
  rw [pairsBelow_append_anc hjk, hnil]
  rfl

theorem cnode_append_off {hash : HashFn} {H : Nat} {E : List (Key × Felt)}
    (hwf : ∀ e ∈ E, e.1.length = H) (hnd : (E.map Prod.fst).Nodup)
    {k : Key} {v : Felt} :
    ∀ fuel p, isNode E p → ¬ p <+: k →
      cnode hash (E ++ [(k, v)]) fuel p = cnode hash E fuel p := by
  intro fuel
  induction fuel with
  | zero => intro p _ _; rfl
  | succ fuel ih =>
    intro p hp hpk
    have hLk : ¬ (p ++ [false]) <+: k :=
      fun h => hpk ((List.prefix_append p [false]).trans h)
    have hRk : ¬ (p ++ [true]) <+: k :=
      fun h => hpk ((List.prefix_append p [true]).trans h)
    simp only [cnode, pairsBelow_append_off hpk, coneKey_append_off hLk,
      coneKey_append_off hRk]
    cases hc : pairsBelow E p with
    | nil => exact absurd hc hp.1
    | cons e tail =>
      cases tail with
      | nil => simp [hc]
      | cons e₂ rest =>
        obtain ⟨hlt, hL, hR⟩ := branch_struct hwf hnd hp hc
        have hLnode := isNode_coneKey hL
        have hRnode := isNode_coneKey hR
        have hLoff : ¬ (coneKey E (p ++ [false])) <+: k :=
          fun h => hLk ((coneKey_ext hL).trans h)
        have hRoff : ¬ (coneKey E (p ++ [true])) <+: k :=
          fun h => hRk ((coneKey_ext hR).trans h)
        simp only [hc]
        rw [ih _ hLnode hLoff, ih _ hRnode hRoff]

theorem canonNode_append_off {hash : HashFn} {H : Nat}
    {E : List (Key × Felt)}
    (hwf : ∀ e ∈ E, e.1.length = H) (hnd : (E.map Prod.fst).Nodup)
    {k : Key} {v : Felt} {j : Key} (hj : isNode E j) (hjk : ¬ j <+: k) :
    canonNode hash H (E ++ [(k, v)]) j = canonNode hash H E j :=
  cnode_append_off hwf hnd _ j hj hjk

theorem canonNode_perm {hash : HashFn} {H : Nat} {E E' : List (Key × Felt)}
    (h : E.Perm E') (j : Key) :
    canonNode hash H E j = canonNode hash H E' j :=
  cnode_perm h _ j

theorem rootVal_perm {hash : HashFn} {H : Nat} {E E' : List (Key × Felt)}
    (h : E.Perm E') : rootVal hash H E = rootVal hash H E' := by
  unfold rootVal
  have hck : coneKey E [] = coneKey E' [] := lcpList_perm ((h.filter _).map _)
  rw [hck, canonNode_perm h]

/-! Storage-relation toolkit. -/

theorem findAssoc_of_mem_nodup : ∀ {l : List (Key × Node)},
    (l.map Prod.fst).Nodup → ∀ {q : Key × Node}, q ∈ l →
    findAssoc l q.1 = some q.2 := by
  intro l
  induction l with
  | nil =>
    intro _ q h
    simp at h
  | cons p rest ih =>
    intro hnd q hq
    simp only [List.map_cons, List.nodup_cons] at hnd
    rcases List.mem_cons.mp hq with h | h
    · subst h
      simp [findAssoc]
    · have hne : p.1 ≠ q.1 := by
        intro h0
        exact hnd.1 (h0 ▸ List.mem_map.mpr ⟨q, h, rfl⟩)
      simp only [findAssoc, if_neg hne]
      exact ih hnd.2 h

theorem putAssoc_keys_nodup : ∀ {l : List (Key × Node)} {k : Key} {n : Node},
    (l.map Prod.fst).Nodup → ((putAssoc l k n).map Prod.fst).Nodup := by
  intro l
  induction l with
  | nil =>
    intro k n _
    simp [putAssoc]
  | cons p rest ih =>
    intro k n hnd
    simp only [List.map_cons, List.nodup_cons] at hnd
    by_cases hp : p.1 = k
    · simp only [putAssoc, if_pos hp, List.map_cons, List.nodup_cons]
      exact ⟨hp ▸ hnd.1, hnd.2⟩
    · simp only [putAssoc, if_neg hp, List.map_cons, List.nodup_cons]
      constructor
      · intro hmem
        obtain ⟨q, hq, hq1⟩ := List.mem_map.mp hmem
        rcases mem_putAssoc hq with h | h
        · rw [h] at hq1
          exact hp hq1.symm
        · exact hnd.1 (List.mem_map.mpr ⟨q, h, hq1⟩)
      · exact ih hnd.2

theorem findAssoc_putAssoc_dom (l : List (Key × Node)) (k : Key) (n : Node)
    (j : Key) : (∃ m, findAssoc (putAssoc l k n) j = some m) ↔
      (j = k ∨ ∃ m, findAssoc l j = some m) := by
  by_cases hj : j = k
  · subst hj
    simp [findAssoc_putAssoc_self]
  · rw [findAssoc_putAssoc_ne l k j n (fun h => hj h.symm)]
    simp [hj]

theorem srel_sget_node {hash : HashFn} {H : Nat} {E : List (Key × Felt)}
    {D : List Key} {s : Storage} (hs : SRel hash H E D s) {j : Key}
    (hj : isNode E j) :
    ∃ n, sget s j = .ok n ∧ (j, n) ∈ s.nodes := by
  obtain ⟨n, hn⟩ := (hs.2.2.1 j).mpr hj
  refine ⟨n, ?_, findAssoc_some_mem hn⟩
  exact sget_of_find (by rw [hs.1]; rfl) hn

theorem srel_sget_miss {hash : HashFn} {H : Nat} {E : List (Key × Felt)}
    {D : List Key} {s : Storage} (hs : SRel hash H E D s) {j : Key}
    (hj : ¬ isNode E j) :
    sget s j = .error .keyNotFound := by
  have hnone : findAssoc s.nodes j = none := by
    cases h : findAssoc s.nodes j with
    | none => rfl
    | some n => exact absurd ((hs.2.2.1 j).mp ⟨n, h⟩) hj
  simp [sget, hs.1, findFault, hnone]

/-- Shape of the canonical node at a node key: full-depth leaf with NIL
children, or inner branching node with both sub-cones inhabited. -/
theorem canon_links {hash : HashFn} {H : Nat} {E : List (Key × Felt)}
    (hwf : ∀ e ∈ E, e.1.length = H) (hnd : (E.map Prod.fst).Nodup)
    {j : Key} (hj : isNode E j) :
    ((canonNode hash H E j).Left = [] ∧ (canonNode hash H E j).Right = [] ∧
      j.length = H) ∨
    ((canonNode hash H E j).Left = coneKey E (j ++ [false]) ∧
     (canonNode hash H E j).Right = coneKey E (j ++ [true]) ∧
     pairsBelow E (j ++ [false]) ≠ [] ∧ pairsBelow E (j ++ [true]) ≠ [] ∧
     j.length < H) := by
  cases hcone : pairsBelow E j with
  | nil => exact absurd hcone hj.1
  | cons e tail =>
    cases tail with
    | nil =>
      left
      have hje : j = e.1 := leaf_struct hj hcone
      have hjH : j.length = H := by
        rw [hje]
        exact hwf e (mem_pairsBelow.mp (by rw [hcone]; simp)).1
      rw [canonNode_leaf (le_of_eq hjH) hcone]
      exact ⟨rfl, rfl, hjH⟩
    | cons e₂ rest =>
      right
      obtain ⟨hlt, hL, hR⟩ := branch_struct hwf hnd hj hcone
      rw [canonNode_branch hwf hnd hj hcone]
      exact ⟨rfl, rfl, hL, hR, hlt⟩

theorem srel_linksOk {hash : HashFn} {H : Nat} {E : List (Key × Felt)}
    {D : List Key} {s : Storage}
    (hwf : ∀ e ∈ E, e.1.length = H) (hnd : (E.map Prod.fst).Nodup)
    (hs : SRel hash H E D s) : linksOk s := by
  intro q hq
  obtain ⟨hL, hR, -⟩ := hs.2.2.2 q hq
  have hjnode : isNode E q.1 :=
    (hs.2.2.1 q.1).mp ⟨q.2, findAssoc_of_mem_nodup hs.2.1 hq⟩
  rcases @canon_links hash H E hwf hnd _ hjnode with
    ⟨h1, h2, -⟩ | ⟨h1, h2, hcL, hcR, -⟩
  · constructor
    · rw [hL, h1]
      exact Or.inl rfl
    · rw [hR, h2]
      exact Or.inl rfl
  · constructor
    · rw [hL, h1]
      exact Or.inr (coneKey_ext hcL)
    · rw [hR, h2]
      exact Or.inr (coneKey_ext hcR)

theorem nodeHash_val_congr {h : HashFn} {n₁ n₂ : Node} (hv : n₁.Value = n₂.Value)
    (p : Key) : nodeHash h n₁ p = nodeHash h n₂ p := by
  unfold nodeHash
  rw [hv]

theorem srel_put_canon {hash : HashFn} {H : Nat} {E : List (Key × Felt)}
    {D : List Key} {s : Storage} (hs : SRel hash H E D s) {j : Key}
    (hj : isNode E j) {n' : Node}
    (hL : n'.Left = (canonNode hash H E j).Left)
    (hR : n'.Right = (canonNode hash H E j).Right)
    (hV : n'.Value = (canonNode hash H E j).Value ∨
      ∃ d ∈ D, j <+: d ∧ j ≠ d) :
    SRel hash H E D (sput s j n') := by
  refine ⟨?_, ?_, ?_, ?_⟩
  · show (applyEv s _).faults = []
    rw [applyEv_faults]
    exact hs.1
  · show ((putAssoc s.nodes j n').map Prod.fst).Nodup
    exact putAssoc_keys_nodup hs.2.1
  · intro i
    show (∃ m, findAssoc (putAssoc s.nodes j n') i = some m) ↔ _
    rw [findAssoc_putAssoc_dom]
    constructor
    · rintro (h | h)
      · subst h
        exact hj
      · exact (hs.2.2.1 i).mp h
    · intro h
      exact Or.inr ((hs.2.2.1 i).mpr h)
  · intro q hq
    rcases mem_putAssoc hq with h | h
    · rw [h]
      exact ⟨hL, hR, hV⟩
    · exact hs.2.2.2 q h

/-- On a storage realising the canonical view, the recomputation pass
returns the canonical value at every node key, and the resulting storage
still realises the view. -/
theorem upd_eval {hash : HashFn} {H : Nat} {E : List (Key × Felt)}
    (t : Trie) (hth : t.height = H) (hthash : t.hash = hash)
    (hwf : ∀ e ∈ E, e.1.length = H) (hnd : (E.map Prod.fst).Nodup)
    (hdlen : ∀ d ∈ t.dirtyNodes, d.length ≤ H) :
    ∀ fuel s j, SRel hash H E t.dirtyNodes s → isNode E j →
      H - j.length < fuel →
      ∃ n s', updateValueIfDirty t fuel s j = (.ok n, s') ∧
        n.Value = (canonNode hash H E j).Value ∧
        SRel hash H E t.dirtyNodes s' := by
  intro fuel
  induction fuel with
  | zero =>
    intro s j _ _ h
    omega
  | succ fuel ih =>
    intro s j hs hj hfuel
    obtain ⟨n, hget, hmem⟩ := srel_sget_node hs hj
    obtain ⟨hnL, hnR, hnV⟩ := hs.2.2.2 (j, n) hmem
    by_cases hleaf : j.length = t.height
    · have hval : n.Value = (canonNode hash H E j).Value := by
        rcases hnV with h | ⟨d, hd, hpre, hne⟩
        · exact h
        · exfalso
          have h1 := hdlen d hd
          have h2 := pre_length_lt hpre hne
          rw [hleaf, hth] at h2
          omega
      refine ⟨n, s, ?_, hval, hs⟩
      simp only [updateValueIfDirty]
      rw [hget]
      simp [hleaf]
    · cases hcone : pairsBelow E j with
      | nil => exact absurd hcone hj.1
      | cons e tail =>
        cases tail with
        | nil =>
          exfalso
          have hje := leaf_struct hj hcone
          apply hleaf
          rw [hje, hwf e (mem_pairsBelow.mp (by rw [hcone]; simp)).1, ← hth]
        | cons e₂ rest =>
          obtain ⟨hjlt, hconeL, hconeR⟩ := branch_struct hwf hnd hj hcone
          have hcanon := @canonNode_branch hash H E _ hwf hnd hj _ _ _ hcone
          have hnL' : n.Left = coneKey E (j ++ [false]) := by
            rw [hnL, hcanon]
          have hnR' : n.Right = coneKey E (j ++ [true]) := by
            rw [hnR, hcanon]
          have hLnode := isNode_coneKey hconeL
          have hRnode := isNode_coneKey hconeR
          have hLlen : j.length + 1 ≤ (coneKey E (j ++ [false])).length := by
            have h := (coneKey_ext hconeL).length_le
            rw [List.length_append] at h
            simpa using h
          have hRlen : j.length + 1 ≤ (coneKey E (j ++ [true])).length := by
            have h := (coneKey_ext hconeR).length_le
            rw [List.length_append] at h
            simpa using h
          have hLne : n.Left ≠ [] := by
            rw [hnL']
            intro h0
            rw [h0] at hLlen
            simp at hLlen
          have hRne : n.Right ≠ [] := by
            rw [hnR']
            intro h0
            rw [h0] at hRlen
            simp at hRlen
          have hLfalse : (decide (n.Left = []) : Bool) = false :=
            decide_eq_false hLne
          have hRfalse : (decide (n.Right = []) : Bool) = false :=
            decide_eq_false hRne
          have hsueq : (if n.Left = [] ∧ n.Right = [] then false
              else if n.Left = [] ∨ n.Right = [] then true
              else t.dirtyNodes.any fun dirtyNode =>
                decide (j.length < dirtyNode.length) && isSubset dirtyNode j) =
              t.dirtyNodes.any fun dirtyNode =>
                decide (j.length < dirtyNode.length) && isSubset dirtyNode j := by
            rw [if_neg (fun h => hLne h.1),
              if_neg (fun h => h.elim hLne hRne)]
          by_cases hsu : (if n.Left = [] ∧ n.Right = [] then false
              else if n.Left = [] ∨ n.Right = [] then true
              else t.dirtyNodes.any fun dirtyNode =>
                decide (j.length < dirtyNode.length) && isSubset dirtyNode j) = true
          · -- recomputation: run both children, then write the refreshed node
            have hfL : H - (coneKey E (j ++ [false])).length < fuel := by
              omega
            have hfR : H - (coneKey E (j ++ [true])).length < fuel := by
              omega
            obtain ⟨nl, s₁, hrunL, hvL, hs₁⟩ :=
              ih s (coneKey E (j ++ [false])) hs hLnode hfL
            obtain ⟨nr, s₂, hrunR, hvR, hs₂⟩ :=
              ih s₁ (coneKey E (j ++ [true])) hs₁ hRnode hfR
            have hrunL' : updateValueIfDirty t fuel s n.Left = (.ok nl, s₁) := by
              rw [hnL']
              exact hrunL
            have hrunR' : updateValueIfDirty t fuel s₁ n.Right = (.ok nr, s₂) := by
              rw [hnR']
              exact hrunR
            have hser : updateChildTriesSerially (updateValueIfDirty t fuel) s n
                (decide (n.Left = [])) (decide (n.Right = [])) =
                (.ok (some nl, some nr), s₂) := by
              simp [updateChildTriesSerially, hLfalse, hRfalse, hrunL', hrunR']
            have hlo := srel_linksOk hwf hnd hs
            have hLshape : ¬ ((decide (n.Left = []) : Bool) = true) →
                ∃ ext, n.Left = j ++ false :: ext := by
              intro _
              obtain ⟨ext, hext⟩ := coneKey_ext hconeL
              refine ⟨ext, ?_⟩
              rw [hnL', ← hext, List.append_assoc]
              rfl
            have hRshape : ¬ ((decide (n.Right = []) : Bool) = true) →
                ∃ ext, n.Right = j ++ true :: ext := by
              intro _
              obtain ⟨ext, hext⟩ := coneKey_ext hconeR
              refine ⟨ext, ?_⟩
              rw [hnR', ← hext, List.append_assoc]
              rfl
            have hrun : updateValueIfDirty t (fuel + 1) s j =
                (.ok ({ n with Value := (t.hash
                    (nodeHash t.hash nl (pathOf n.Left (some j)))
                    (nodeHash t.hash nr (pathOf n.Right (some j)))) }),
                  sput s₂ j { n with Value := (t.hash
                    (nodeHash t.hash nl (pathOf n.Left (some j)))
                    (nodeHash t.hash nr (pathOf n.Right (some j)))) }) := by
              simp only [updateValueIfDirty]
              rw [hget]
              simp only [if_neg hleaf, if_neg (not_not_intro hsu)]
              by_cases hdepth : j.length ≤ concurrencyMaxDepth
              · have hcc := (conc_eq_serial_of_ok t fuel s j n
                  (decide (n.Left = [])) (decide (n.Right = [])) hlo
                  hLshape hRshape).1 (some nl, some nr) (by rw [hser])
                rw [hser] at hcc
                simp only [if_pos hdepth]
                rw [hcc]
                simp [hLfalse, hRfalse, if_neg hLne, if_neg hRne]
              · simp only [if_neg hdepth]
                rw [hser]
                simp [hLfalse, hRfalse, if_neg hLne, if_neg hRne]
            have hvalEq : t.hash
                (nodeHash t.hash nl (pathOf n.Left (some j)))
                (nodeHash t.hash nr (pathOf n.Right (some j))) =
                (canonNode hash H E j).Value := by
              rw [hcanon]
              simp only [hthash, hnL', hnR', nodeHash_val_congr hvL,
                nodeHash_val_congr hvR]
            refine ⟨_, _, hrun, hvalEq, ?_⟩
            refine srel_put_canon hs₂ hj ?_ ?_ (Or.inl hvalEq)
            · exact hnL
            · exact hnR
          · -- no dirty key below: the stored value is already canonical
            have hval : n.Value = (canonNode hash H E j).Value := by
              rcases hnV with h | ⟨d, hd, hpre, hne⟩
              · exact h
              · exfalso
                apply hsu
                rw [hsueq, List.any_eq_true]
                refine ⟨d, hd, ?_⟩
                simp [isSubset, hpre, pre_length_lt hpre hne]
            refine ⟨n, s, ?_, hval, hs⟩
            simp only [updateValueIfDirty]
            rw [hget]
            simp only [if_neg hleaf, if_pos hsu]

theorem rootVal_nil (hash : HashFn) (H : Nat) : rootVal hash H [] = 0 :=
  rfl

/-- Root returns the canonical commitment of the realised view. -/
theorem root_eval {hash : HashFn} {H : Nat} {E : List (Key × Felt)}
    {t : Trie} (hrel : Rel hash H E t) :
    (t.Root).1 = .ok (rootVal hash H E) := by
  obtain ⟨hth, hthash, hmax, hwf, hnd, hroot, hdlen, hsrel⟩ := hrel
  by_cases hE : E = []
  · subst hE
    have hrk : t.rootKey = none := by simpa using hroot
    rw [rootVal_nil]
    cases hd : t.rootKeyIsDirty <;>
      simp [Trie.Root, hrk, hd, sdelRootKey, applyEv]
  · have hrk : t.rootKey = some (coneKey E []) := by
      rw [hroot, if_neg hE]
    set tS : Trie := if t.rootKeyIsDirty then
        { t with storage := sputRootKey t.storage (coneKey E []), rootKeyIsDirty := false }
        else t with htS
    have hSnodes : tS.storage.nodes = t.storage.nodes := by
      rw [htS]
      cases hd : t.rootKeyIsDirty <;> simp [hd, sputRootKey, applyEv]
    have hSfaults : tS.storage.faults = t.storage.faults := by
      rw [htS]
      cases hd : t.rootKeyIsDirty <;> simp [hd, sputRootKey, applyEv]
    have hSdirty : tS.dirtyNodes = t.dirtyNodes := by
      rw [htS]
      cases hd : t.rootKeyIsDirty <;> simp [hd]
    have hSheight : tS.height = t.height := by
      rw [htS]
      cases hd : t.rootKeyIsDirty <;> simp [hd]
    have hShash : tS.hash = t.hash := by
      rw [htS]
      cases hd : t.rootKeyIsDirty <;> simp [hd]
    have hSrel : SRel hash H E tS.dirtyNodes tS.storage := by
      rw [hSdirty]
      refine ⟨by rw [hSfaults]; exact hsrel.1,
        by rw [hSnodes]; exact hsrel.2.1, ?_, ?_⟩
      · intro i
        rw [hSnodes]
        exact hsrel.2.2.1 i
      · intro q hq
        rw [hSnodes] at hq
        exact hsrel.2.2.2 q hq
    have hr : t.Root =
        (match updateValueIfDirty tS (tS.height + 1)
            (syncedStorage tS.storage) (coneKey E []) with
         | (.error e, s) => (.error e, { tS with storage := s })
         | (.ok root, s) =>
           (.ok (nodeHash tS.hash root (pathOf (coneKey E []) none)),
             { tS with storage := s, dirtyNodes := [] })) := by
      rw [htS]
      cases hd : t.rootKeyIsDirty <;> simp [Trie.Root, hrk, hd]
    have hrknode : isNode E (coneKey E []) := by
      apply isNode_coneKey
      rw [pairsBelow_nil_key]
      exact hE
    obtain ⟨nn, s', hrun, hval, -⟩ := upd_eval tS (by rw [hSheight, hth])
      (by rw [hShash, hthash]) hwf hnd
      (by rw [hSdirty]; exact hdlen) (tS.height + 1) (syncedStorage tS.storage)
      (coneKey E []) hSrel hrknode (by rw [hSheight, hth]; omega)
    rw [hr, hrun]
    show Except.ok (nodeHash tS.hash nn (pathOf (coneKey E []) none)) =
      Except.ok (rootVal hash H E)
    have hvv : nodeHash tS.hash nn (pathOf (coneKey E []) none) =
        rootVal hash H E := by
      show nodeHash tS.hash nn (coneKey E []) = rootVal hash H E
      unfold rootVal
      rw [hShash, hthash]
      exact nodeHash_val_congr hval _
    rw [hvv]

theorem isBitSet_getD {k q : Key} (h : q.length < k.length) :
    isBitSet k (k.length - q.length - 1) = k.getD q.length false := by
  unfold isBitSet
  have he : k.length - 1 - (k.length - q.length - 1) = q.length := by omega
  rw [he]

/-- Canonical descent: starting at a node key that is a proper ancestor of
the absent target key, the descent loop succeeds and ends with the
divergence node, preceded by its parent on the descent path. -/
theorem descent_spec {hash : HashFn} {H : Nat} {E : List (Key × Felt)}
    {D : List Key} {s : Storage}
    (hwf : ∀ e ∈ E, e.1.length = H) (hnd : (E.map Prod.fst).Nodup)
    (hs : SRel hash H E D s) {k : Key} (hkH : k.length = H)
    (hknew : k ∉ E.map Prod.fst) :
    ∀ fuel q acc, isNode E q → q <+: k → q ≠ k →
      k.length - q.length < fuel → (0 < q.length ∨ acc = []) →
      ∃ (QR : List SNode) (q' : Key) (nq' : Node) (sib : Key) (nsib : Node),
        nodesFromRootAux s k fuel (some q) acc =
          .ok (acc ++ QR ++ [⟨q', nq'⟩, ⟨sib, nsib⟩]) ∧
        isNode E q' ∧ q' <+: k ∧ q' ≠ k ∧
        findAssoc s.nodes q' = some nq' ∧
        sib = coneKey E (q' ++ [k.getD q'.length false]) ∧
        findAssoc s.nodes sib = some nsib ∧
        ¬ sib <+: k := by
  intro fuel
  induction fuel with
  | zero =>
    intro q acc _ _ _ h _
    omega
  | succ fuel ih =>
    intro q acc hq hqk hqne hfuel hacc
    obtain ⟨nq, hgetq, hmemq⟩ := srel_sget_node hs hq
    have hfindq : findAssoc s.nodes q = some nq := (sget_ok_findAssoc hgetq).2
    have hqlt : q.length < k.length := pre_length_lt hqk hqne
    have hguard : ¬ (acc.length > 0 ∧ q.length = 0) := by
      rcases hacc with h | h
      · intro hg
        omega
      · intro hg
        rw [h] at hg
        simp at hg
    have hstop : ¬ (q.length ≥ k.length ∨ ¬ isSubset k q = true) := by
      intro h0
      rcases h0 with h0 | h0
      · omega
      · exact h0 (by simp [isSubset, hqk])
    cases hcone : pairsBelow E q with
    | nil => exact absurd hcone hq.1
    | cons e tail =>
      cases tail with
      | nil =>
        exfalso
        have hje := leaf_struct hq hcone
        have hH : q.length = H := by
          rw [hje]
          exact hwf e (mem_pairsBelow.mp (by rw [hcone]; simp)).1
        omega
      | cons e₂ rest =>
        obtain ⟨hjlt, hconeL, hconeR⟩ := branch_struct hwf hnd hq hcone
        have hcanon := @canonNode_branch hash H E _ hwf hnd hq _ _ _ hcone
        obtain ⟨hnqL, hnqR, -⟩ := hs.2.2.2 (q, nq) hmemq
        have hnL2 : nq.Left = (canonNode hash H E q).Left := hnqL
        have hnR2 : nq.Right = (canonNode hash H E q).Right := hnqR
        have hnext : (if isBitSet k (k.length - q.length - 1)
            then nq.Right else nq.Left) =
            coneKey E (q ++ [k.getD q.length false]) := by
          rw [isBitSet_getD hqlt]
          cases hbv : k.getD q.length false with
          | false => simp [hnL2, hcanon]
          | true => simp [hnR2, hcanon]
        have hconeB : pairsBelow E (q ++ [k.getD q.length false]) ≠ [] := by
          cases hbv : k.getD q.length false with
          | false => exact hconeL
          | true => exact hconeR
        have hsibnode : isNode E (coneKey E (q ++ [k.getD q.length false])) :=
          isNode_coneKey hconeB
        have hsiblen : q.length + 1 ≤
            (coneKey E (q ++ [k.getD q.length false])).length := by
          have h := (coneKey_ext hconeB).length_le
          rw [List.length_append] at h
          simpa using h
        obtain ⟨nsib, hgetsib, hmemsib⟩ := srel_sget_node hs hsibnode
        have hfindsib : findAssoc s.nodes
            (coneKey E (q ++ [k.getD q.length false])) = some nsib :=
          (sget_ok_findAssoc hgetsib).2
        have hstep : nodesFromRootAux s k (fuel + 1) (some q) acc =
            nodesFromRootAux s k fuel
              (some (coneKey E (q ++ [k.getD q.length false])))
              (acc ++ [⟨q, nq⟩]) := by
          rw [nodesFromRootAux_step, if_neg hguard]
          simp only [hgetq]
          rw [if_neg hstop, hnext]
        by_cases hdiv : coneKey E (q ++ [k.getD q.length false]) <+: k
        · -- the child is still an ancestor: recurse
          have hsibne : coneKey E (q ++ [k.getD q.length false]) ≠ k := by
            intro h0
            exact (not_isNode_of_new hwf hkH hknew) (h0 ▸ hsibnode)
          have hfuel' : k.length -
              (coneKey E (q ++ [k.getD q.length false])).length < fuel := by
            omega
          obtain ⟨QR', q', nq', sib, nsib', hres, hp1, hp2, hp3, hp4, hp5,
            hp6, hp7⟩ := ih (coneKey E (q ++ [k.getD q.length false]))
              (acc ++ [⟨q, nq⟩]) hsibnode hdiv hsibne hfuel'
              (Or.inl (by omega))
          refine ⟨⟨q, nq⟩ :: QR', q', nq', sib, nsib', ?_, hp1, hp2, hp3,
            hp4, hp5, hp6, hp7⟩
          rw [hstep, hres]
          congr 1
          simp
        · -- the child diverges: it is the sibling and the loop stops there
          cases fuel with
          | zero => omega
          | succ fuel' =>
            have haux2 : nodesFromRootAux s k (fuel' + 1)
                (some (coneKey E (q ++ [k.getD q.length false])))
                (acc ++ [⟨q, nq⟩]) =
                .ok ((acc ++ [⟨q, nq⟩]) ++
                  [⟨coneKey E (q ++ [k.getD q.length false]), nsib⟩]) := by
              rw [nodesFromRootAux_step]
              rw [if_neg (by
                intro hg
                omega)]
              simp only [hgetsib]
              rw [if_pos (Or.inr (by
                simp only [isSubset, decide_eq_true_eq]
                exact hdiv))]
            refine ⟨[], q, nq, coneKey E (q ++ [k.getD q.length false]),
              nsib, ?_, hq, hqk, hqne, hfindq, rfl, hfindsib, hdiv⟩
            rw [hstep, haux2]
            congr 1
            simp

/-! Geometry of inserting a fresh key below the canonical view. -/

theorem cone_pre_congr {E : List (Key × Felt)} {p q : Key}
    (hpq : p <+: q) (hq : ∀ e ∈ pairsBelow E p, q <+: e.1) :
    pairsBelow E q = pairsBelow E p := by
  apply pairsBelow_congr
  intro e he
  constructor
  · intro h1
    exact hpq.trans h1
  · intro h1
    exact hq e (mem_pairsBelow.mpr ⟨he, h1⟩)

theorem div_unique_le {E : List (Key × Felt)} {k j₁ j₂ : Key}
    (h₁k : j₁ <+: k) (h₂k : j₂ <+: k)
    (hc₁ : pairsBelow E j₁ ≠ []) (hc₂ : pairsBelow E j₂ ≠ [])
    (hd₁ : ¬ coneKey E j₁ <+: k)
    (he₁ : lcpKey (coneKey E j₁) k = j₁)
    (hpre : j₁ <+: j₂) : j₁ = j₂ := by
  by_contra hne
  have hs₁ext : j₁ <+: coneKey E j₁ := coneKey_ext hc₁
  have hs₁ne : j₁ ≠ coneKey E j₁ := by
    intro h0
    exact hd₁ (h0 ▸ h₁k)
  have hlt₁ : j₁.length < (coneKey E j₁).length := pre_length_lt hs₁ext hs₁ne
  have hlt₂ : j₁.length < j₂.length := pre_length_lt hpre hne
  obtain ⟨e, he⟩ := List.exists_mem_of_ne_nil _ hc₂
  obtain ⟨heE, hje⟩ := mem_pairsBelow.mp he
  have hs₁e : coneKey E j₁ <+: e.1 :=
    coneKey_pre_mem (mem_pairsBelow.mpr ⟨heE, hpre.trans hje⟩)
  have hb1 : e.1.getD j₁.length false = (coneKey E j₁).getD j₁.length false :=
    getD_of_pre hs₁e hlt₁
  have hb2 : e.1.getD j₁.length false = j₂.getD j₁.length false :=
    getD_of_pre hje hlt₂
  have hb3 : k.getD j₁.length false = j₂.getD j₁.length false :=
    getD_of_pre h₂k hlt₂
  rcases lcpKey_diverge (coneKey E j₁) k with h0 | h0 | h0
  · exact hs₁ne (he₁.symm.trans h0)
  · have hj₁k : j₁ = k := he₁.symm.trans h0
    exact hne (pre_antisymm hpre (hj₁k ▸ h₂k))
  · rw [he₁] at h0
    apply h0
    rw [← hb1, hb2, ← hb3]

theorem div_unique {E : List (Key × Felt)} {k j₁ j₂ : Key}
    (h₁k : j₁ <+: k) (h₂k : j₂ <+: k)
    (hc₁ : pairsBelow E j₁ ≠ []) (hc₂ : pairsBelow E j₂ ≠ [])
    (hd₁ : ¬ coneKey E j₁ <+: k) (hd₂ : ¬ coneKey E j₂ <+: k)
    (he₁ : lcpKey (coneKey E j₁) k = j₁)
    (he₂ : lcpKey (coneKey E j₂) k = j₂) : j₁ = j₂ := by
  rcases List.prefix_or_prefix_of_prefix h₁k h₂k with h | h
  · exact div_unique_le h₁k h₂k hc₁ hc₂ hd₁ he₁ h
  · exact (div_unique_le h₂k h₁k hc₂ hc₁ hd₂ he₂ h).symm

/-- Classification of the canonical node keys after inserting a fresh key:
old node keys, the new branch point, or the new leaf. -/
theorem isNode_append_class {E : List (Key × Felt)} {k : Key} {v : Felt}
    {c sib : Key} (hdiv : ¬ sib <+: k)
    (hcC : coneKey E c = sib) (hcne : pairsBelow E c ≠ [])
    (hck : c = lcpKey k sib)
    {j : Key} (hj : isNode (E ++ [(k, v)]) j) :
    isNode E j ∨ j = c ∨ j = k := by
  by_cases hjk : j <+: k
  · by_cases hcEnil : pairsBelow E j = []
    · right
      right
      have h0 := hj.2
      rw [coneKey_append_anc_nil hjk hcEnil] at h0
      exact h0.symm
    · have hkey := hj.2
      rw [coneKey_append_anc hjk hcEnil] at hkey
      by_cases hsk : coneKey E j <+: k
      · left
        have h1 : lcpKey (coneKey E j) k = coneKey E j := lcpKey_of_pre hsk
        rw [h1] at hkey
        rw [← hkey]
        exact isNode_coneKey hcEnil
      · right
        left
        have hck2 : c <+: k := by
          rw [hck]
          exact lcpKey_pre_left k sib
        have hce : lcpKey (coneKey E c) k = c := by
          rw [hcC, lcpKey_comm, ← hck]
        exact div_unique hjk hck2 hcEnil hcne hsk (hcC ▸ hdiv) hkey hce
  · left
    exact (isNode_append_off hjk).mp hj

/-- Every canonical node key that is an ancestor of the target lies on or
above the divergence parent. -/
theorem anc_above_parent {E : List (Key × Felt)} {k q' j : Key}
    (hq'k : q' <+: k)
    (hsibdiv : ¬ coneKey E (q' ++ [k.getD q'.length false]) <+: k)
    (hjnode : isNode E j) (hjk : j <+: k) : j <+: q' := by
  rcases List.prefix_or_prefix_of_prefix hjk hq'k with h | h
  · exact h
  · by_cases hje : j = q'
    · rw [hje]
    · exfalso
      have hlt : q'.length < j.length := pre_length_lt h (fun h0 => hje h0.symm)
      have hjext : (q' ++ [k.getD q'.length false]) <+: j := by
        have h1 := extend_pre h (fun h0 => hje h0.symm)
        rw [← getD_of_pre hjk hlt] at h1
        exact h1
      have hsibj : coneKey E (q' ++ [k.getD q'.length false]) <+: j := by
        have h1 : coneKey E (q' ++ [k.getD q'.length false]) <+:
            coneKey E j := by
          show _ <+: lcpList ((pairsBelow E j).map Prod.fst)
          apply pre_lcpList (map_fst_ne_nil hjnode.1)
          intro kk hkk
          obtain ⟨e, hee, hek⟩ := List.mem_map.mp hkk
          rw [← hek]
          obtain ⟨heE, hje2⟩ := mem_pairsBelow.mp hee
          exact coneKey_pre_mem (mem_pairsBelow.mpr ⟨heE, hjext.trans hje2⟩)
        rw [hjnode.2] at h1
        exact h1
      exact hsibdiv (hsibj.trans hjk)

/-- The toward-target child of a strict ancestor of the divergence parent
stays an ancestor of the parent (hence of the target). -/
theorem anc_child_pre {E : List (Key × Felt)} {k q' j : Key}
    (hq'node : isNode E q') (hq'k : q' <+: k)
    (hjk : j <+: k) (hjq : j <+: q') (hjne : j ≠ q') :
    coneKey E (j ++ [k.getD j.length false]) <+: q' := by
  have hlt : j.length < q'.length := pre_length_lt hjq hjne
  have hqext : (j ++ [k.getD j.length false]) <+: q' := by
    have h1 := extend_pre hjq hjne
    rw [← getD_of_pre hq'k hlt] at h1
    exact h1
  have h1 : coneKey E (j ++ [k.getD j.length false]) <+: coneKey E q' := by
    show _ <+: lcpList ((pairsBelow E q').map Prod.fst)
    apply pre_lcpList (map_fst_ne_nil hq'node.1)
    intro kk hkk
    obtain ⟨e, hee, hek⟩ := List.mem_map.mp hkk
    rw [← hek]
    obtain ⟨heE, hq'e⟩ := mem_pairsBelow.mp hee
    exact coneKey_pre_mem (mem_pairsBelow.mpr ⟨heE, hqext.trans hq'e⟩)
  rw [hq'node.2] at h1
  exact h1

theorem feltToKey_len (H : Nat) (f : Felt) : (feltToKey H f).length = H := by
  simp [feltToKey]

theorem isNode_single {k : Key} {v : Felt} {j : Key} :
    isNode [(k, v)] j ↔ j = k := by
  constructor
  · intro h
    have hc := h.1
    rw [pairsBelow_single] at hc
    by_cases hjk : j <+: k
    · have hck : coneKey [(k, v)] j = k := by
        show lcpList ((pairsBelow [(k, v)] j).map Prod.fst) = k
        rw [pairsBelow_single, if_pos hjk]
        rfl
      exact (hck.symm.trans h.2).symm
    · rw [if_neg hjk] at hc
      exact absurd rfl hc
  · intro h
    subst h
    constructor
    · rw [pairsBelow_single, if_pos (List.prefix_refl j)]
      simp
    · show lcpList ((pairsBelow [(j, v)] j).map Prod.fst) = j
      rw [pairsBelow_single, if_pos (List.prefix_refl j)]
      rfl

theorem lcp_new_basic {H : Nat} {E : List (Key × Felt)} {k sib : Key}
    (hwf : ∀ e ∈ E, e.1.length = H) (hkH : k.length = H)
    (hsibnode : isNode E sib) (hdiv : ¬ sib <+: k) :
    lcpKey k sib <+: k ∧ lcpKey k sib ≠ k ∧
    lcpKey k sib <+: sib ∧ lcpKey k sib ≠ sib := by
  have hsibH : sib.length ≤ H := by
    obtain ⟨e, he⟩ := List.exists_mem_of_ne_nil _ hsibnode.1
    obtain ⟨heE, hse⟩ := mem_pairsBelow.mp he
    have h1 := hse.length_le
    rw [hwf e heE] at h1
    exact h1
  refine ⟨lcpKey_pre_left k sib, ?_, lcpKey_pre_right k sib, ?_⟩
  · intro h0
    have hks : k <+: sib := by
      rw [← h0]
      exact lcpKey_pre_right k sib
    have hlen : k.length = sib.length :=
      Nat.le_antisymm hks.length_le (by rw [hkH]; exact hsibH)
    have hk2 : k = sib := hks.eq_of_length hlen
    apply hdiv
    rw [← hk2]
  · intro h0
    apply hdiv
    rw [← h0]
    exact lcpKey_pre_left k sib

theorem lcp_new_bits {k sib : Key} (hck : lcpKey k sib ≠ k)
    (hcs : lcpKey k sib ≠ sib) :
    k.getD (lcpKey k sib).length false ≠
      sib.getD (lcpKey k sib).length false := by
  rcases lcpKey_diverge k sib with h | h | h
  · exact absurd h hck
  · exact absurd h hcs
  · exact h

theorem cone_c_kside_nil {E : List (Key × Felt)} {k sib : Key}
    (hcC : coneKey E (lcpKey k sib) = sib)
    (hbits : k.getD (lcpKey k sib).length false ≠
      sib.getD (lcpKey k sib).length false)
    (hcs : lcpKey k sib ≠ sib) :
    pairsBelow E (lcpKey k sib ++ [k.getD (lcpKey k sib).length false]) = [] := by
  by_contra h0
  obtain ⟨e, heE, hpe⟩ := pairsBelow_ne_nil.mp h0
  have hec : lcpKey k sib <+: e.1 := (List.prefix_append _ _).trans hpe
  have hes : sib <+: e.1 := by
    have h1 := coneKey_pre_mem (mem_pairsBelow.mpr ⟨heE, hec⟩)
    rw [hcC] at h1
    exact h1
  have hb1 : e.1.getD (lcpKey k sib).length false =
      k.getD (lcpKey k sib).length false := bit_of_pre hpe
  have hlt : (lcpKey k sib).length < sib.length :=
    pre_length_lt (lcpKey_pre_right k sib) hcs
  have hb2 : e.1.getD (lcpKey k sib).length false =
      sib.getD (lcpKey k sib).length false := getD_of_pre hes hlt
  exact hbits (hb1.symm.trans hb2)

theorem cone_c_sside {E : List (Key × Felt)} {k sib : Key}
    (hcC : coneKey E (lcpKey k sib) = sib)
    (hcne : pairsBelow E (lcpKey k sib) ≠ [])
    (hcs : lcpKey k sib ≠ sib) :
    pairsBelow E (lcpKey k sib ++ [sib.getD (lcpKey k sib).length false]) =
      pairsBelow E (lcpKey k sib) ∧
    coneKey E (lcpKey k sib ++ [sib.getD (lcpKey k sib).length false]) =
      sib := by
  have hsext : (lcpKey k sib ++ [sib.getD (lcpKey k sib).length false]) <+:
      sib := extend_pre (lcpKey_pre_right k sib) hcs
  have hcone : pairsBelow E
      (lcpKey k sib ++ [sib.getD (lcpKey k sib).length false]) =
      pairsBelow E (lcpKey k sib) := by
    apply cone_pre_congr (List.prefix_append _ _)
    intro e he
    have h1 := coneKey_pre_mem he
    rw [hcC] at h1
    exact hsext.trans h1
  refine ⟨hcone, ?_⟩
  show lcpList _ = sib
  rw [hcone]
  exact hcC

theorem getLast_of_append_pair {L : List SNode} {a b : SNode}
    (h : L ++ [a, b] ≠ []) : (L ++ [a, b]).getLast h = b := by
  have h1 : (L ++ [a, b]).getLast? = some b := by
    rw [show L ++ [a, b] = (L ++ [a]) ++ [b] by simp]
    exact List.getLast?_concat _
  have h2 := List.getLast?_eq_getLast (L ++ [a, b]) h
  rw [h1] at h2
  injection h2 with h3
  exact h3.symm

theorem getBang_append_pair (L : List SNode) (a b : SNode) :
    (L ++ [a, b])[(L ++ [a, b]).length - 2]! = a := by
  induction L with
  | nil => rfl
  | cons x xs ih =>
    have h2 : ((x :: xs) ++ [a, b]).length - 2 =
        ((xs ++ [a, b]).length - 2) + 1 := by
      simp only [List.cons_append, List.length_cons, List.length_append]
      omega
    show (x :: (xs ++ [a, b]))[((x :: xs) ++ [a, b]).length - 2]! = a
    rw [h2, List.getElem!_cons_succ]
    exact ih

theorem insertOrUpdateValue_deep {t : Trie} {k : Key} {node : Node}
    {L : List SNode} {p s : SNode} :
    t.insertOrUpdateValue k node (L ++ [p, s]) s false = (.ok (), { t with storage := sput (sput (sput t.storage (lcpKey k s.key) { Value := t.hash (nodeHash t.hash (if isBitSet k (k.length - (lcpKey k s.key).length - 1) then s.node else node) (pathOf (if isBitSet k (k.length - (lcpKey k s.key).length - 1) then s.key else k) (some (lcpKey k s.key)))) (nodeHash t.hash (if isBitSet k (k.length - (lcpKey k s.key).length - 1) then node else s.node) (pathOf (if isBitSet k (k.length - (lcpKey k s.key).length - 1) then k else s.key) (some (lcpKey k s.key)))), Left := (if isBitSet k (k.length - (lcpKey k s.key).length - 1) then s.key else k), Right := (if isBitSet k (k.length - (lcpKey k s.key).length - 1) then k else s.key) }) p.key (replaceLinkWithNewParent s.key (lcpKey k s.key) p)) k node, dirtyNodes := t.dirtyNodes ++ [lcpKey k s.key] }) := by
  have hlen : (L ++ [p, s]).length > 1 := by simp
  simp only [Trie.insertOrUpdateValue, Bool.false_eq_true, if_false,
    if_pos hlen, getBang_append_pair]
  rfl

theorem mem_putAssoc_ne : ∀ {l : List (Key × Node)} {k : Key} {n : Node}
    {p : Key × Node}, (l.map Prod.fst).Nodup → p ∈ putAssoc l k n →
    p = (k, n) ∨ (p ∈ l ∧ p.1 ≠ k) := by
  intro l
  induction l with
  | nil =>
    intro k n p _ h
    simp only [putAssoc, List.mem_singleton] at h
    exact Or.inl h
  | cons q rest ih =>
    intro k n p hnd h
    simp only [List.map_cons, List.nodup_cons] at hnd
    simp only [putAssoc] at h
    by_cases hq : q.1 = k
    · rw [if_pos hq] at h
      rcases List.mem_cons.mp h with h1 | h1
      · exact Or.inl h1
      · refine Or.inr ⟨List.mem_cons_of_mem _ h1, ?_⟩
        intro h0
        apply hnd.1
        rw [hq, ← h0]
        exact List.mem_map.mpr ⟨p, h1, rfl⟩
    · rw [if_neg hq] at h
      rcases List.mem_cons.mp h with h1 | h1
      · refine Or.inr ⟨?_, ?_⟩
        · rw [h1, Prod.mk.eta]
          exact List.mem_cons_self _ _
        · rw [h1]
          exact hq
      · rcases ih hnd.2 h1 with h2 | h2
        · exact Or.inl h2
        · exact Or.inr ⟨List.mem_cons_of_mem _ h2.1, h2.2⟩

theorem anc_side_unchanged {E : List (Key × Felt)} {k : Key} {v : Felt}
    {q' j : Key} (hq'node : isNode E q') (hq'k : q' <+: k)
    (hjk : j <+: k) (hjq : j <+: q') (hjne : j ≠ q')
    (β : Bool) (hcone : pairsBelow E (j ++ [β]) ≠ []) :
    coneKey (E ++ [(k, v)]) (j ++ [β]) = coneKey E (j ++ [β]) := by
  by_cases hβ : (j ++ [β]) <+: k
  · rw [coneKey_append_anc hβ hcone]
    have hb : β = k.getD j.length false := (bit_of_pre hβ).symm
    have hs := anc_child_pre hq'node hq'k hjk hjq hjne
    rw [← hb] at hs
    exact lcpKey_of_pre (hs.trans hq'k)
  · rw [coneKey_append_off hβ]

set_option maxHeartbeats 1000000

/-- Inserting a fresh in-range key with a nonzero value preserves the
canonical realisation, extending the view by the new entry. -/
theorem put_step {hash : HashFn} {H : Nat} {E : List (Key × Felt)}
    {t : Trie} (hrel : Rel hash H E t) (kf v : Felt)
    (hv : v ≠ 0) (hkr : kf ≤ 2 ^ H - 1)
    (hknew : feltToKey H kf ∉ E.map Prod.fst) :
    Rel hash H (E ++ [(feltToKey H kf, v)]) (t.Put kf v).2 := by
  obtain ⟨hth, hthash, hmax, hwf, hnd, hroot, hdlen, hsrel⟩ := hrel
  have hkH : (feltToKey H kf).length = H := feltToKey_len H kf
  have hkmax : ¬ t.maxKey < kf := by
    rw [hmax]
    exact not_lt.mpr hkr
  have hfk : t.FeltToKey kf = feltToKey H kf := by
    show feltToKey t.height kf = feltToKey H kf
    rw [hth]
  have hknode : ¬ isNode E (feltToKey H kf) :=
    not_isNode_of_new hwf hkH hknew
  have hmiss : sget t.storage (feltToKey H kf) = .error .keyNotFound :=
    srel_sget_miss hsrel hknode
  have hupdL : t.updateLeaf (feltToKey H kf) { Value := v } v =
      (.ok none, t) := by
    unfold Trie.updateLeaf
    rw [if_pos hv]
    simp only [hmiss]
  have hwf2 : ∀ e ∈ E ++ [(feltToKey H kf, v)], e.1.length = H := by
    intro e he
    rcases List.mem_append.mp he with h | h
    · exact hwf e h
    · rw [List.mem_singleton] at h
      rw [h]
      exact hkH
  have hnd2 : ((E ++ [(feltToKey H kf, v)]).map Prod.fst).Nodup := by
    rw [List.map_append, List.nodup_append]
    refine ⟨hnd, by simp, ?_⟩
    intro a ha hb
    simp only [List.map_cons, List.map_nil, List.mem_singleton] at hb
    rw [hb] at ha
    exact hknew ha
  by_cases hE : E = []
  · subst hE
    have hrk : t.rootKey = none := by simpa using hroot
    have hnodes : t.nodesFromRoot (feltToKey H kf) = .ok [] := by
      unfold Trie.nodesFromRoot
      rw [hrk]
      rfl
    have hput : t.Put kf v = (.ok (some 0),
        ({ t with storage := sput t.storage (feltToKey H kf) { Value := v }
         }).setRootKey (some (feltToKey H kf))) := by
      unfold Trie.Put
      rw [if_neg hkmax]
      simp only [hfk, hupdL, hnodes]
      rw [dif_pos List.length_nil]
      unfold Trie.handleEmptyTrie
      rw [if_neg hv]
    rw [hput]
    have hck1 : coneKey ([] ++ [(feltToKey H kf, v)]) [] = feltToKey H kf := by
      show lcpList ((pairsBelow ([] ++ [(feltToKey H kf, v)]) []).map
        Prod.fst) = _
      rw [pairsBelow_nil_key]
      rfl
    have hcanonk : canonNode hash H ([] ++ [(feltToKey H kf, v)])
        (feltToKey H kf) = { Value := v } :=
      @canonNode_leaf hash H ([] ++ [(feltToKey H kf, v)])
        (feltToKey H kf) (feltToKey H kf, v) (le_of_eq hkH) (by
          show pairsBelow [(feltToKey H kf, v)] (feltToKey H kf) = _
          rw [pairsBelow_single, if_pos (List.prefix_refl _)])
    refine ⟨hth, hthash, hmax, hwf2, hnd2, ?_, hdlen, ?_, ?_, ?_, ?_⟩
    · show some (feltToKey H kf) = _
      rw [if_neg (by simp), hck1]
    · show (applyEv t.storage _).faults = []
      rw [applyEv_faults]
      exact hsrel.1
    · exact putAssoc_keys_nodup hsrel.2.1
    · intro i
      show (∃ m, findAssoc (putAssoc t.storage.nodes _ _) i = some m) ↔ _
      rw [findAssoc_putAssoc_dom]
      constructor
      · rintro (h | h)
        · rw [h]
          exact isNode_single.mpr rfl
        · exfalso
          have h2 := (hsrel.2.2.1 i).mp h
          exact h2.1 rfl
      · intro h
        left
        exact isNode_single.mp h
    · intro q hq
      rcases mem_putAssoc hq with h | h
      · rw [h]
        refine ⟨?_, ?_, Or.inl ?_⟩ <;> rw [hcanonk]
      · exfalso
        have h2 := (hsrel.2.2.1 q.1).mp
          ⟨q.2, findAssoc_of_mem_nodup hsrel.2.1 h⟩
        exact h2.1 rfl
  · -- the view is nonempty: the trie has a root node
    have hrk : t.rootKey = some (coneKey E []) := by rw [hroot, if_neg hE]
    have hconeE : pairsBelow E [] ≠ [] := by
      rw [pairsBelow_nil_key]
      exact hE
    have hrknode : isNode E (coneKey E []) := isNode_coneKey hconeE
    have hrkne : coneKey E [] ≠ feltToKey H kf := by
      intro h0
      exact hknode (h0 ▸ hrknode)
    have hconeKE : pairsBelow E (feltToKey H kf) = [] := by
      by_contra h0
      obtain ⟨e, heE, hpe⟩ := pairsBelow_ne_nil.mp h0
      have h1 : feltToKey H kf = e.1 := hpe.eq_of_length (by
        rw [hkH, hwf e heE])
      exact hknew (by rw [h1]; exact List.mem_map.mpr ⟨e, heE, rfl⟩)
    set k : Key := feltToKey H kf with hkdef
    by_cases hanc : coneKey E [] <+: k
    · -- CASE B: the root is an ancestor of the new key: descend to the
      -- divergence point and branch below an existing parent
      set rk : Key := coneKey E [] with hrkdef
      obtain ⟨QR, q', nq', sib, nsib, hdesc, hq'node, hq'k, hq'ne, hfindq',
          hsibdef, hfindsib, hsibdiv⟩ :=
        descent_spec hwf hnd hsrel hkH hknew (k.length + 2) rk []
          hrknode hanc hrkne (by omega) (Or.inr rfl)
      have hnodesB : t.nodesFromRoot k =
          .ok (QR ++ [⟨q', nq'⟩, ⟨sib, nsib⟩]) := by
        unfold Trie.nodesFromRoot
        rw [hrk]
        exact hdesc
      have hsibnode : isNode E sib := (hsrel.2.2.1 sib).mp ⟨nsib, hfindsib⟩
      have hmemsib : (sib, nsib) ∈ t.storage.nodes := by
        obtain ⟨n, hg, hm⟩ := srel_sget_node hsrel hsibnode
        have h1 := findAssoc_of_mem_nodup hsrel.2.1 hm
        rw [hfindsib] at h1
        injection h1 with h2
        rw [h2]
        exact hm
      have hmemq' : (q', nq') ∈ t.storage.nodes := by
        obtain ⟨n, hg, hm⟩ := srel_sget_node hsrel hq'node
        have h1 := findAssoc_of_mem_nodup hsrel.2.1 hm
        rw [hfindq'] at h1
        injection h1 with h2
        rw [h2]
        exact hm
      have hsibne : sib ≠ k := by
        intro h0
        rw [h0] at hsibdiv
        exact hsibdiv (List.prefix_refl k)
      obtain ⟨hck, hckne, hcs, hcsne⟩ := lcp_new_basic hwf hkH hsibnode hsibdiv
      set c : Key := lcpKey k sib with hcdef
      have hclt : c.length < k.length := pre_length_lt hck hckne
      have hbval : isBitSet k (k.length - c.length - 1) =
          k.getD c.length false := isBitSet_getD hclt
      set b : Bool := isBitSet k (k.length - c.length - 1) with hbdef
      have hconeB : pairsBelow E (q' ++ [k.getD q'.length false]) ≠ [] := by
        intro h0
        apply hsibdiv
        rw [hsibdef]
        show lcpList ((pairsBelow E (q' ++ [k.getD q'.length false])).map
          Prod.fst) <+: k
        rw [h0]
        exact List.nil_prefix
      have hBsib : (q' ++ [k.getD q'.length false]) <+: sib := by
        rw [hsibdef]
        exact coneKey_ext hconeB
      have hkB : (q' ++ [k.getD q'.length false]) <+: k :=
        extend_pre hq'k hq'ne
      have hBc : (q' ++ [k.getD q'.length false]) <+: c := pre_lcpKey hkB hBsib
      have hconeCB : pairsBelow E c =
          pairsBelow E (q' ++ [k.getD q'.length false]) := by
        apply cone_pre_congr hBc
        intro e he
        have h1 : sib <+: e.1 := by
          rw [hsibdef]
          exact coneKey_pre_mem he
        exact hcs.trans h1
      have hcne2 : pairsBelow E c ≠ [] := by
        rw [hconeCB]
        exact hconeB
      have hcC : coneKey E c = sib := by
        show lcpList ((pairsBelow E c).map Prod.fst) = sib
        rw [hconeCB]
        exact hsibdef.symm
      have hbits : k.getD c.length false ≠ sib.getD c.length false :=
        lcp_new_bits hckne hcsne
      have hkside : coneKey (E ++ [(k, v)])
          (c ++ [k.getD c.length false]) = k :=
        coneKey_append_anc_nil (extend_pre hck hckne)
          (cone_c_kside_nil hcC hbits hcsne)
      have hsside := cone_c_sside hcC hcne2 hcsne
      have hssideE : coneKey (E ++ [(k, v)])
          (c ++ [sib.getD c.length false]) = sib := by
        rw [coneKey_append_off (fun h0 => hbits (bit_of_pre h0))]
        exact hsside.2
      have hcC2 : coneKey (E ++ [(k, v)]) c = c := by
        rw [coneKey_append_anc hck hcne2, hcC, lcpKey_comm]
      have hcnode2 : isNode (E ++ [(k, v)]) c := by
        refine ⟨?_, hcC2⟩
        rw [pairsBelow_append_anc hck]
        simp
      have hkNode2 : isNode (E ++ [(k, v)]) k := by
        constructor
        · rw [pairsBelow_append_anc (List.prefix_refl k), hconeKE]
          simp
        · rw [coneKey_append_anc_nil (List.prefix_refl k) hconeKE]
      have hcanonk : canonNode hash H (E ++ [(k, v)]) k = { Value := v } :=
        @canonNode_leaf hash H (E ++ [(k, v)]) k (k, v) (le_of_eq hkH) (by
          rw [pairsBelow_append_anc (List.prefix_refl k), hconeKE]
          rfl)
      have hq'node2 : isNode (E ++ [(k, v)]) q' := by
        refine ⟨?_, ?_⟩
        · rw [pairsBelow_append_anc hq'k]
          simp
        · rw [coneKey_append_anc hq'k hq'node.1, hq'node.2,
            lcpKey_of_pre hq'k]
      have hancNode2 : ∀ j, isNode E j → j <+: k →
          isNode (E ++ [(k, v)]) j := by
        intro j hj hjk
        refine ⟨?_, ?_⟩
        · rw [pairsBelow_append_anc hjk]
          simp
        · rw [coneKey_append_anc hjk hj.1, hj.2, lcpKey_of_pre hjk]
      have hq'c : q' <+: c := (List.prefix_append _ _).trans hBc
      have hq'cne : q' ≠ c := by
        intro h0
        have h1 := hBc.length_le
        rw [List.length_append, List.length_singleton] at h1
        rw [← h0] at h1
        omega
      set spN : Node := replaceLinkWithNewParent sib c ⟨q', nq'⟩ with hspN
      set np : Node := { Value := (t.hash (nodeHash t.hash (if b then nsib else { Value := v }) (pathOf (if b then sib else k) (some c))) (nodeHash t.hash (if b then { Value := v } else nsib) (pathOf (if b then k else sib) (some c)))), Left := (if b then sib else k), Right := (if b then k else sib) } with hnp
      set s3 : Storage := sput (sput (sput t.storage c np) q' spN) k { Value := v } with hs3
      have hdel : t.deleteExistingKey ⟨sib, nsib⟩ k
          (QR ++ [⟨q', nq'⟩, ⟨sib, nsib⟩]) = (.ok none, t) := by
        unfold Trie.deleteExistingKey
        rw [if_neg (fun h0 => hsibne h0.symm)]
      have hput : t.Put kf v = (.ok (some 0), { t with storage := s3, dirtyNodes := t.dirtyNodes ++ [c] }) := by
        unfold Trie.Put
        rw [if_neg hkmax]
        simp only [hfk, hupdL, hnodesB]
        rw [dif_neg (by simp)]
        simp only [getLast_of_append_pair, hdel]
        rw [if_neg hv]
        simp only [insertOrUpdateValue_deep]
      rw [hput]
      refine ⟨hth, hthash, hmax, hwf2, hnd2, ?_, ?_, ?_, ?_, ?_, ?_⟩
      · show t.rootKey = _
        rw [if_neg (by simp), hrk]
        have h1 : coneKey (E ++ [(k, v)]) [] = rk := by
          rw [coneKey_append_anc List.nil_prefix hconeE, lcpKey_of_pre hanc]
        rw [h1]
      · intro d hd
        rcases List.mem_append.mp hd with h | h
        · exact hdlen d h
        · rw [List.mem_singleton] at h
          have h2 := hclt
          rw [hkH] at h2
          rw [h]
          omega
      · show s3.faults = []
        rw [hs3]
        show (applyEv (applyEv (applyEv t.storage _) _) _).faults = []
        rw [applyEv_faults, applyEv_faults, applyEv_faults]
        exact hsrel.1
      · show ((putAssoc (putAssoc (putAssoc t.storage.nodes c np) q' spN) k
          { Value := v }).map Prod.fst).Nodup
        exact putAssoc_keys_nodup (putAssoc_keys_nodup
          (putAssoc_keys_nodup hsrel.2.1))
      · intro i
        show (∃ m, findAssoc (putAssoc (putAssoc (putAssoc t.storage.nodes
          c np) q' spN) k { Value := v }) i = some m) ↔ _
        rw [findAssoc_putAssoc_dom, findAssoc_putAssoc_dom,
          findAssoc_putAssoc_dom]
        constructor
        · rintro (h | h | h | h)
          · rw [h]
            exact hkNode2
          · rw [h]
            exact hq'node2
          · rw [h]
            exact hcnode2
          · have hi := (hsrel.2.2.1 i).mp h
            by_cases hik : i <+: k
            · exact hancNode2 i hi hik
            · exact (isNode_append_off hik).mpr hi
        · intro h
          rcases isNode_append_class hsibdiv hcC hcne2 hcdef h
            with h1 | h1 | h1
          · right
            right
            right
            exact (hsrel.2.2.1 i).mpr h1
          · right
            right
            left
            exact h1
          · left
            exact h1
      · intro q hq
        rcases mem_putAssoc_ne (putAssoc_keys_nodup
            (putAssoc_keys_nodup hsrel.2.1)) hq with h | ⟨h, hqk⟩
        · rw [h]
          refine ⟨?_, ?_, Or.inl ?_⟩ <;> rw [hcanonk]
        · rcases mem_putAssoc_ne (putAssoc_keys_nodup hsrel.2.1) h
            with h2 | ⟨h2, hqq'⟩
          · -- the relinked parent q'
            rw [h2]
            have hq'lt : q'.length < k.length := pre_length_lt hq'k hq'ne
            obtain ⟨f₁, f₂, frest, hq'shape⟩ : ∃ f₁ f₂ frest,
                pairsBelow E q' = f₁ :: f₂ :: frest := by
              cases h0 : pairsBelow E q' with
              | nil => exact absurd h0 hq'node.1
              | cons x xs =>
                cases xs with
                | nil =>
                  exfalso
                  have h1 := leaf_struct hq'node h0
                  have h3 : x ∈ pairsBelow E q' := by
                    rw [h0]
                    simp
                  have h4 := hwf x (mem_pairsBelow.mp h3).1
                  have h5 : q'.length = H := by
                    rw [h1]
                    exact h4
                  omega
                | cons y ys => exact ⟨x, y, ys, rfl⟩
            have hcanonq'E := @canonNode_branch hash H E q' hwf hnd hq'node
              _ _ _ hq'shape
            obtain ⟨hq'ltH, hq'L, hq'R⟩ :=
              branch_struct hwf hnd hq'node hq'shape
            obtain ⟨g₁, g₂, grest, hq'shape2⟩ : ∃ g₁ g₂ grest,
                pairsBelow (E ++ [(k, v)]) q' = g₁ :: g₂ :: grest := by
              rw [pairsBelow_append_anc hq'k, hq'shape]
              exact ⟨f₁, f₂, frest ++ [(k, v)], rfl⟩
            have hcanonq'E2 := @canonNode_branch hash H (E ++ [(k, v)]) q'
              hwf2 hnd2 hq'node2 _ _ _ hq'shape2
            have hnq'Lval : nq'.Left = coneKey E (q' ++ [false]) := by
              rw [(hsrel.2.2.2 (q', nq') hmemq').1, hcanonq'E]
            have hnq'Rval : nq'.Right = coneKey E (q' ++ [true]) := by
              rw [(hsrel.2.2.2 (q', nq') hmemq').2.1, hcanonq'E]
            have hq'L2 : (canonNode hash H (E ++ [(k, v)]) q').Left =
                coneKey (E ++ [(k, v)]) (q' ++ [false]) := by
              rw [hcanonq'E2]
            have hq'R2 : (canonNode hash H (E ++ [(k, v)]) q').Right =
                coneKey (E ++ [(k, v)]) (q' ++ [true]) := by
              rw [hcanonq'E2]
            have hq'kside : coneKey (E ++ [(k, v)])
                (q' ++ [k.getD q'.length false]) = c := by
              rw [coneKey_append_anc hkB hconeB, ← hsibdef, lcpKey_comm]
            have hq'off : ∀ β, β ≠ k.getD q'.length false →
                coneKey (E ++ [(k, v)]) (q' ++ [β]) =
                  coneKey E (q' ++ [β]) := by
              intro β hβ
              apply coneKey_append_off
              intro h0
              exact hβ (bit_of_pre h0).symm
            have hmemc : c ∈ t.dirtyNodes ++ [c] :=
              List.mem_append_right _ (List.mem_singleton_self c)
            cases hkb : k.getD q'.length false with
            | false =>
              have hLeq : nq'.Left = sib := by
                rw [hnq'Lval, hsibdef, hkb]
              have hspL : spN.Left = c := by
                rw [hspN]
                show (if nq'.Left = sib then ({ nq' with Left := c } : Node)
                  else { nq' with Right := c }).Left = c
                rw [if_pos hLeq]
              have hspR : spN.Right = nq'.Right := by
                rw [hspN]
                show (if nq'.Left = sib then ({ nq' with Left := c } : Node)
                  else { nq' with Right := c }).Right = nq'.Right
                rw [if_pos hLeq]
              refine ⟨?_, ?_, Or.inr ⟨c, hmemc, hq'c, hq'cne⟩⟩
              · show spN.Left = _
                rw [hspL, hq'L2]
                rw [hkb] at hq'kside
                exact hq'kside.symm
              · show spN.Right = _
                rw [hspR, hq'R2, hq'off true (by rw [hkb]; simp), hnq'Rval]
            | true =>
              have hLne : ¬ nq'.Left = sib := by
                intro h0
                have h1 : (q' ++ [false]) <+: sib := by
                  rw [← h0, hnq'Lval]
                  exact coneKey_ext hq'L
                have h3 : (q' ++ [true]) <+: sib := by
                  rw [hsibdef, hkb]
                  exact coneKey_ext hq'R
                have h4 := bit_of_pre h1
                have h5 := bit_of_pre h3
                rw [h4] at h5
                exact Bool.false_ne_true h5
              have hspL : spN.Left = nq'.Left := by
                rw [hspN]
                show (if nq'.Left = sib then ({ nq' with Left := c } : Node)
                  else { nq' with Right := c }).Left = nq'.Left
                rw [if_neg hLne]
              have hspR : spN.Right = c := by
                rw [hspN]
                show (if nq'.Left = sib then ({ nq' with Left := c } : Node)
                  else { nq' with Right := c }).Right = c
                rw [if_neg hLne]
              refine ⟨?_, ?_, Or.inr ⟨c, hmemc, hq'c, hq'cne⟩⟩
              · show spN.Left = _
                rw [hspL, hq'L2, hq'off false (by rw [hkb]; simp), hnq'Lval]
              · show spN.Right = _
                rw [hspR, hq'R2]
                rw [hkb] at hq'kside
                exact hq'kside.symm
          · rcases mem_putAssoc_ne hsrel.2.1 h2 with h3 | ⟨h3, hqc⟩
            · -- the new branching node c
              rw [h3]
              obtain ⟨e₁, e₂, erest, hshape⟩ : ∃ e₁ e₂ erest,
                  pairsBelow (E ++ [(k, v)]) c = e₁ :: e₂ :: erest := by
                rw [pairsBelow_append_anc hck]
                cases h0 : pairsBelow E c with
                | nil => exact absurd h0 hcne2
                | cons x xs =>
                  cases xs with
                  | nil => exact ⟨x, (k, v), [], rfl⟩
                  | cons y ys => exact ⟨x, y, ys ++ [(k, v)], rfl⟩
              have hcanonc := @canonNode_branch hash H (E ++ [(k, v)]) c
                hwf2 hnd2 hcnode2 _ _ _ hshape
              obtain ⟨hnsibL, hnsibR, hnsibV⟩ :=
                hsrel.2.2.2 (sib, nsib) hmemsib
              have hcanonsib : canonNode hash H (E ++ [(k, v)]) sib =
                  canonNode hash H E sib :=
                canonNode_append_off hwf hnd hsibnode hsibdiv
              have hclen : c.length < sib.length := pre_length_lt hcs hcsne
              cases hbv : k.getD c.length false with
              | false =>
                have hbb : b = false := hbval.trans hbv
                rw [hbv] at hkside
                have hsb : sib.getD c.length false = true := by
                  cases h1 : sib.getD c.length false
                  · exact absurd (hbv.trans h1.symm) hbits
                  · rfl
                rw [hsb] at hssideE
                refine ⟨?_, ?_, ?_⟩
                · show np.Left = _
                  rw [hnp, hcanonc]
                  simp only [hbb]
                  rw [hkside]
                  rfl
                · show np.Right = _
                  rw [hnp, hcanonc]
                  simp only [hbb]
                  rw [hssideE]
                  rfl
                · rcases hnsibV with hcan | ⟨d, hd, hpre, hne⟩
                  · left
                    show np.Value = _
                    rw [hnp, hcanonc]
                    simp only [hbb, if_false, Bool.false_eq_true]
                    rw [hkside, hssideE, hthash]
                    have hL2 : nodeHash hash ({ Value := v } : Node)
                        (pathOf k (some c)) = nodeHash hash
                        (canonNode hash H (E ++ [(k, v)]) k)
                        (pathOf k (some c)) :=
                      nodeHash_val_congr (by rw [hcanonk]) _
                    have hR2 : nodeHash hash nsib (pathOf sib (some c)) =
                        nodeHash hash (canonNode hash H (E ++ [(k, v)]) sib)
                        (pathOf sib (some c)) :=
                      nodeHash_val_congr (by rw [hcanonsib]; exact hcan) _
                    rw [hL2, hR2]
                  · right
                    have hpre2 : sib <+: d := hpre
                    have hne2 : sib ≠ d := hne
                    refine ⟨d, List.mem_append_left _ hd,
                      hcs.trans hpre2, ?_⟩
                    intro h0
                    have h1 := pre_length_lt hpre2 hne2
                    have h0b : c = d := h0
                    rw [h0b] at hclen
                    omega
              | true =>
                have hbb : b = true := hbval.trans hbv
                rw [hbv] at hkside
                have hsb : sib.getD c.length false = false := by
                  cases h1 : sib.getD c.length false
                  · rfl
                  · exact absurd (hbv.trans h1.symm) hbits
                rw [hsb] at hssideE
                refine ⟨?_, ?_, ?_⟩
                · show np.Left = _
                  rw [hnp, hcanonc]
                  simp only [hbb]
                  rw [hssideE]
                  rfl
                · show np.Right = _
                  rw [hnp, hcanonc]
                  simp only [hbb]
                  rw [hkside]
                  rfl
                · rcases hnsibV with hcan | ⟨d, hd, hpre, hne⟩
                  · left
                    show np.Value = _
                    rw [hnp, hcanonc]
                    simp only [hbb, if_true]
                    rw [hkside, hssideE, hthash]
                    have hL2 : nodeHash hash ({ Value := v } : Node)
                        (pathOf k (some c)) = nodeHash hash
                        (canonNode hash H (E ++ [(k, v)]) k)
                        (pathOf k (some c)) :=
                      nodeHash_val_congr (by rw [hcanonk]) _
                    have hR2 : nodeHash hash nsib (pathOf sib (some c)) =
                        nodeHash hash (canonNode hash H (E ++ [(k, v)]) sib)
                        (pathOf sib (some c)) :=
                      nodeHash_val_congr (by rw [hcanonsib]; exact hcan) _
                    rw [hL2, hR2]
                  · right
                    have hpre2 : sib <+: d := hpre
                    have hne2 : sib ≠ d := hne
                    refine ⟨d, List.mem_append_left _ hd,
                      hcs.trans hpre2, ?_⟩
                    intro h0
                    have h1 := pre_length_lt hpre2 hne2
                    have h0b : c = d := h0
                    rw [h0b] at hclen
                    omega
            · -- a pre-existing node other than the parent
              have hqa := hsrel.2.2.2 q h3
              have hqnode : isNode E q.1 :=
                (hsrel.2.2.1 q.1).mp
                  ⟨q.2, findAssoc_of_mem_nodup hsrel.2.1 h3⟩
              by_cases hqank : q.1 <+: k
              · have hjq' : q.1 <+: q' :=
                  anc_above_parent hq'k (hsibdef ▸ hsibdiv) hqnode hqank
                have hjlt : q.1.length < q'.length := pre_length_lt hjq' hqq'
                have hq'lt : q'.length < k.length := pre_length_lt hq'k hq'ne
                obtain ⟨u₁, u₂, urest, hqshape⟩ : ∃ u₁ u₂ urest,
                    pairsBelow E q.1 = u₁ :: u₂ :: urest := by
                  cases h0 : pairsBelow E q.1 with
                  | nil => exact absurd h0 hqnode.1
                  | cons x xs =>
                    cases xs with
                    | nil =>
                      exfalso
                      have h1 := leaf_struct hqnode h0
                      have h4 : x ∈ pairsBelow E q.1 := by
                        rw [h0]
                        simp
                      have h5 := hwf x (mem_pairsBelow.mp h4).1
                      have h6 : q.1.length = H := by
                        rw [h1]
                        exact h5
                      omega
                    | cons y ys => exact ⟨x, y, ys, rfl⟩
                have hcanonqE := @canonNode_branch hash H E q.1 hwf hnd
                  hqnode _ _ _ hqshape
                obtain ⟨hqltH, hqL, hqR⟩ :=
                  branch_struct hwf hnd hqnode hqshape
                have hqnode2 := hancNode2 q.1 hqnode hqank
                obtain ⟨w₁, w₂, wrest, hqshape2⟩ : ∃ w₁ w₂ wrest,
                    pairsBelow (E ++ [(k, v)]) q.1 = w₁ :: w₂ :: wrest := by
                  rw [pairsBelow_append_anc hqank, hqshape]
                  exact ⟨u₁, u₂, urest ++ [(k, v)], rfl⟩
                have hcanonqE2 := @canonNode_branch hash H (E ++ [(k, v)])
                  q.1 hwf2 hnd2 hqnode2 _ _ _ hqshape2
                have hsideF : coneKey (E ++ [(k, v)]) (q.1 ++ [false]) =
                    coneKey E (q.1 ++ [false]) :=
                  anc_side_unchanged hq'node hq'k hqank hjq' hqq' false hqL
                have hsideT : coneKey (E ++ [(k, v)]) (q.1 ++ [true]) =
                    coneKey E (q.1 ++ [true]) :=
                  anc_side_unchanged hq'node hq'k hqank hjq' hqq' true hqR
                have hqc2 : q.1 <+: c := hjq'.trans hq'c
                have hqcne2 : q.1 ≠ c := by
                  intro h0
                  have h1 := hq'c.length_le
                  rw [← h0] at h1
                  omega
                refine ⟨?_, ?_, Or.inr ⟨c, List.mem_append_right _
                  (List.mem_singleton_self c), hqc2, hqcne2⟩⟩
                · rw [hqa.1, hcanonqE, hcanonqE2]
                  show coneKey E (q.1 ++ [false]) =
                    coneKey (E ++ [(k, v)]) (q.1 ++ [false])
                  rw [hsideF]
                · rw [hqa.2.1, hcanonqE, hcanonqE2]
                  show coneKey E (q.1 ++ [true]) =
                    coneKey (E ++ [(k, v)]) (q.1 ++ [true])
                  rw [hsideT]
              · have hcanonq : canonNode hash H (E ++ [(k, v)]) q.1 =
                    canonNode hash H E q.1 :=
                  canonNode_append_off hwf hnd hqnode hqank
                rw [hcanonq]
                refine ⟨hqa.1, hqa.2.1, ?_⟩
                rcases hqa.2.2 with hcan | ⟨d, hd, h1, h2⟩
                · exact Or.inl hcan
                · exact Or.inr ⟨d, List.mem_append_left _ hd, h1, h2⟩
    · -- the root already diverges from the new key: branch above the root
      set rk : Key := coneKey E [] with hrkdef
      obtain ⟨nrk, hgetrk, hmemrk⟩ := srel_sget_node hsrel hrknode
      have hfindrk : findAssoc t.storage.nodes rk = some nrk :=
        (sget_ok_findAssoc hgetrk).2
      have hnodesA : t.nodesFromRoot k = .ok [⟨rk, nrk⟩] := by
        unfold Trie.nodesFromRoot
        rw [hrk, nodesFromRootAux_step, if_neg (by simp)]
        simp only [hgetrk]
        rw [if_pos (Or.inr (by
          simp only [isSubset, decide_eq_true_eq]
          exact hanc))]
        rfl
      obtain ⟨hck, hckne, hcs, hcsne⟩ := lcp_new_basic hwf hkH hrknode hanc
      set c : Key := lcpKey k rk with hcdef
      have hclt : c.length < k.length := pre_length_lt hck hckne
      have hbval : isBitSet k (k.length - c.length - 1) =
          k.getD c.length false := isBitSet_getD hclt
      set b : Bool := isBitSet k (k.length - c.length - 1) with hbdef
      set np : Node := { Value := (t.hash (nodeHash t.hash (if b then nrk else { Value := v }) (pathOf (if b then rk else k) (some c))) (nodeHash t.hash (if b then { Value := v } else nrk) (pathOf (if b then k else rk) (some c)))), Left := (if b then rk else k), Right := (if b then k else rk) } with hnp
      have hdel : t.deleteExistingKey ⟨rk, nrk⟩ k [⟨rk, nrk⟩] =
          (.ok none, t) := by
        unfold Trie.deleteExistingKey
        rw [if_neg (fun h0 => hrkne h0.symm)]
      set s2 : Storage := sput (sput t.storage c np) k { Value := v } with hs2
      have hins : t.insertOrUpdateValue k { Value := v } [⟨rk, nrk⟩]
          ⟨rk, nrk⟩ false = (.ok (),
          { t with storage := s2, rootKey := some c, rootKeyIsDirty := true }) := rfl
      have hput : t.Put kf v = (.ok (some 0),
          { t with storage := s2, rootKey := some c, rootKeyIsDirty := true }) := by
        unfold Trie.Put
        rw [if_neg hkmax]
        simp only [hfk, hupdL, hnodesA]
        rw [dif_neg (by simp)]
        simp only [List.getLast_singleton, hdel]
        rw [if_neg hv]
        simp only [hins]
      -- geometry at the new branch point
      have hconeC : pairsBelow E c = E := by
        have h1 : pairsBelow E c = pairsBelow E [] := by
          apply pairsBelow_congr
          intro e he
          constructor
          · intro _
            exact List.nil_prefix
          · intro _
            have h2 : rk <+: e.1 :=
              coneKey_pre_mem (mem_pairsBelow.mpr ⟨he, List.nil_prefix⟩)
            exact hcs.trans h2
        rw [h1, pairsBelow_nil_key]
      have hcne2 : pairsBelow E c ≠ [] := by
        rw [hconeC]
        exact hE
      have hcC : coneKey E c = rk := by
        show lcpList ((pairsBelow E c).map Prod.fst) = rk
        rw [hconeC, hrkdef]
        show _ = lcpList ((pairsBelow E []).map Prod.fst)
        rw [pairsBelow_nil_key]
      have hbits : k.getD c.length false ≠ rk.getD c.length false :=
        lcp_new_bits hckne hcsne
      have hsb : rk.getD c.length false = !(k.getD c.length false) := by
        cases h1 : k.getD c.length false <;>
          cases h2 : rk.getD c.length false <;> simp_all
      have hkside : coneKey (E ++ [(k, v)])
          (c ++ [k.getD c.length false]) = k :=
        coneKey_append_anc_nil (extend_pre hck hckne)
          (cone_c_kside_nil hcC hbits hcsne)
      have hsside := cone_c_sside hcC hcne2 hcsne
      have hssideE : coneKey (E ++ [(k, v)])
          (c ++ [rk.getD c.length false]) = rk := by
        rw [coneKey_append_off (fun h0 => hbits (bit_of_pre h0))]
        exact hsside.2
      have hcC2 : coneKey (E ++ [(k, v)]) c = c := by
        rw [coneKey_append_anc hck hcne2, hcC, lcpKey_comm]
      have hconeC2 : pairsBelow (E ++ [(k, v)]) c = E ++ [(k, v)] := by
        rw [pairsBelow_append_anc hck, hconeC]
      have hcnode2 : isNode (E ++ [(k, v)]) c := by
        refine ⟨?_, hcC2⟩
        rw [hconeC2]
        simp
      have hkNode2 : isNode (E ++ [(k, v)]) k := by
        constructor
        · rw [pairsBelow_append_anc (List.prefix_refl k), hconeKE]
          simp
        · rw [coneKey_append_anc_nil (List.prefix_refl k) hconeKE]
      have hcanonk : canonNode hash H (E ++ [(k, v)]) k = { Value := v } :=
        @canonNode_leaf hash H (E ++ [(k, v)]) k (k, v) (le_of_eq hkH) (by
          rw [pairsBelow_append_anc (List.prefix_refl k), hconeKE]
          rfl)
      have hnoanc : ∀ j, isNode E j → ¬ j <+: k := by
        intro j hj hjk
        obtain ⟨e, he⟩ := List.exists_mem_of_ne_nil _ hj.1
        obtain ⟨heE, hje⟩ := mem_pairsBelow.mp he
        have hrke : rk <+: e.1 :=
          coneKey_pre_mem (mem_pairsBelow.mpr ⟨heE, List.nil_prefix⟩)
        rcases List.prefix_or_prefix_of_prefix hje hrke with h | h
        · have hcj : pairsBelow E j = E := by
            have h1 : pairsBelow E j = pairsBelow E [] := by
              apply pairsBelow_congr
              intro e2 he2
              constructor
              · intro _
                exact List.nil_prefix
              · intro _
                have h2 : rk <+: e2.1 :=
                  coneKey_pre_mem (mem_pairsBelow.mpr ⟨he2, List.nil_prefix⟩)
                exact h.trans h2
            rw [h1, pairsBelow_nil_key]
          have hj2 : coneKey E j = rk := by
            show lcpList ((pairsBelow E j).map Prod.fst) = rk
            rw [hcj, hrkdef]
            show _ = lcpList ((pairsBelow E []).map Prod.fst)
            rw [pairsBelow_nil_key]
          have hjrk : j = rk := hj.2.symm.trans hj2
          exact hanc (hjrk ▸ hjk)
        · exact hanc (h.trans hjk)
      rw [hput]
      refine ⟨hth, hthash, hmax, hwf2, hnd2, ?_, hdlen, ?_, ?_, ?_, ?_⟩
      · show some c = _
        rw [if_neg (by simp)]
        have h1 : coneKey (E ++ [(k, v)]) [] = c := by
          rw [coneKey_append_anc List.nil_prefix hconeE, hrkdef.symm,
            lcpKey_comm]
        rw [h1]
      · show s2.faults = []
        rw [hs2]
        show (applyEv (applyEv t.storage _) _).faults = []
        rw [applyEv_faults, applyEv_faults]
        exact hsrel.1
      · show ((putAssoc (putAssoc t.storage.nodes c np) k
          { Value := v }).map Prod.fst).Nodup
        exact putAssoc_keys_nodup (putAssoc_keys_nodup hsrel.2.1)
      · intro i
        show (∃ m, findAssoc (putAssoc (putAssoc t.storage.nodes c np) k
          { Value := v }) i = some m) ↔ _
        rw [findAssoc_putAssoc_dom, findAssoc_putAssoc_dom]
        constructor
        · rintro (h | h | h)
          · rw [h]
            exact hkNode2
          · rw [h]
            exact hcnode2
          · have hi := (hsrel.2.2.1 i).mp h
            exact (isNode_append_off (hnoanc i hi)).mpr hi
        · intro h
          rcases isNode_append_class hanc hcC hcne2 hcdef h with h1 | h1 | h1
          · right
            right
            exact (hsrel.2.2.1 i).mpr h1
          · right
            left
            exact h1
          · left
            exact h1
      · intro q hq
        rcases mem_putAssoc hq with h | h
        · rw [h]
          refine ⟨?_, ?_, Or.inl ?_⟩ <;> rw [hcanonk]
        · rcases mem_putAssoc h with h2 | h2
          · rw [h2]
            obtain ⟨e₁, e₂, rest, hshape⟩ : ∃ e₁ e₂ rest,
                pairsBelow (E ++ [(k, v)]) c = e₁ :: e₂ :: rest := by
              rw [hconeC2]
              cases E with
              | nil => exact absurd rfl hE
              | cons x xs =>
                cases xs with
                | nil => exact ⟨x, (k, v), [], rfl⟩
                | cons y ys => exact ⟨x, y, ys ++ [(k, v)], rfl⟩
            have hcanonc := @canonNode_branch hash H (E ++ [(k, v)]) _ hwf2
              hnd2 hcnode2 _ _ _ hshape
            obtain ⟨hnrkL, hnrkR, hnrkV⟩ := hsrel.2.2.2 (rk, nrk) hmemrk
            have hcanonrk : canonNode hash H (E ++ [(k, v)]) rk =
                canonNode hash H E rk :=
              canonNode_append_off hwf hnd hrknode hanc
            have hclen : c.length < rk.length := pre_length_lt hcs hcsne
            cases hbv : k.getD c.length false with
            | false =>
              have hbb : b = false := hbval.trans hbv
              rw [hbv] at hkside
              rw [hbv] at hsb
              simp only [Bool.not_false] at hsb
              rw [hsb] at hssideE
              refine ⟨?_, ?_, ?_⟩
              · show np.Left = _
                rw [hnp, hcanonc]
                simp only [hbb]
                rw [hkside]
                rfl
              · show np.Right = _
                rw [hnp, hcanonc]
                simp only [hbb]
                rw [hssideE]
                rfl
              · rcases hnrkV with hcan | ⟨d, hd, hpre, hne⟩
                · left
                  show np.Value = _
                  rw [hnp, hcanonc]
                  simp only [hbb, if_false, Bool.false_eq_true]
                  rw [hkside, hssideE, hthash]
                  have hL2 : nodeHash hash ({ Value := v } : Node)
                      (pathOf k (some c)) = nodeHash hash
                      (canonNode hash H (E ++ [(k, v)]) k)
                      (pathOf k (some c)) :=
                    nodeHash_val_congr (by rw [hcanonk]) _
                  have hR2 : nodeHash hash nrk (pathOf rk (some c)) =
                      nodeHash hash (canonNode hash H (E ++ [(k, v)]) rk)
                      (pathOf rk (some c)) :=
                    nodeHash_val_congr (by rw [hcanonrk]; exact hcan) _
                  rw [hL2, hR2]
                · right
                  have hpre2 : rk <+: d := hpre
                  have hne2 : rk ≠ d := hne
                  refine ⟨d, hd, hcs.trans hpre2, ?_⟩
                  intro h0
                  have h1 := pre_length_lt hpre2 hne2
                  have h0b : c = d := h0
                  rw [h0b] at hclen
                  omega
            | true =>
              have hbb : b = true := hbval.trans hbv
              rw [hbv] at hkside
              rw [hbv] at hsb
              simp only [Bool.not_true] at hsb
              rw [hsb] at hssideE
              refine ⟨?_, ?_, ?_⟩
              · show np.Left = _
                rw [hnp, hcanonc]
                simp only [hbb]
                rw [hssideE]
                rfl
              · show np.Right = _
                rw [hnp, hcanonc]
                simp only [hbb]
                rw [hkside]
                rfl
              · rcases hnrkV with hcan | ⟨d, hd, hpre, hne⟩
                · left
                  show np.Value = _
                  rw [hnp, hcanonc]
                  simp only [hbb, if_true]
                  rw [hkside, hssideE, hthash]
                  have hL2 : nodeHash hash ({ Value := v } : Node)
                      (pathOf k (some c)) = nodeHash hash
                      (canonNode hash H (E ++ [(k, v)]) k)
                      (pathOf k (some c)) :=
                    nodeHash_val_congr (by rw [hcanonk]) _
                  have hR2 : nodeHash hash nrk (pathOf rk (some c)) =
                      nodeHash hash (canonNode hash H (E ++ [(k, v)]) rk)
                      (pathOf rk (some c)) :=
                    nodeHash_val_congr (by rw [hcanonrk]; exact hcan) _
                  rw [hL2, hR2]
                · right
                  have hpre2 : rk <+: d := hpre
                  have hne2 : rk ≠ d := hne
                  refine ⟨d, hd, hcs.trans hpre2, ?_⟩
                  intro h0
                  have h1 := pre_length_lt hpre2 hne2
                  have h0b : c = d := h0
                  rw [h0b] at hclen
                  omega
          · have hqa := hsrel.2.2.2 q h2
            have hqnode : isNode E q.1 :=
              (hsrel.2.2.1 q.1).mp ⟨q.2, findAssoc_of_mem_nodup hsrel.2.1 h2⟩
            have hcanonq : canonNode hash H (E ++ [(k, v)]) q.1 =
                canonNode hash H E q.1 :=
              canonNode_append_off hwf hnd hqnode (hnoanc q.1 hqnode)
            rw [hcanonq]
            exact hqa

theorem feltToKey_inj {H : Nat} {a b : Felt} (ha : a < 2 ^ H)
    (hb : b < 2 ^ H) (h : feltToKey H a = feltToKey H b) : a = b := by
  apply Nat.eq_of_testBit_eq
  intro i
  by_cases hi : i < H
  · have hj : H - 1 - i < H := by omega
    have h2 := List.getElem_of_eq h (i := H - 1 - i)
      (by rw [feltToKey_len]; exact hj)
    simp only [feltToKey, List.getElem_map, List.getElem_range] at h2
    have he : H - 1 - (H - 1 - i) = i := by omega
    rw [he] at h2
    exact h2
  · have ha2 : a < 2 ^ i := lt_of_lt_of_le ha
      (Nat.pow_le_pow_right (by norm_num) (Nat.le_of_not_lt hi))
    have hb2 : b < 2 ^ i := lt_of_lt_of_le hb
      (Nat.pow_le_pow_right (by norm_num) (Nat.le_of_not_lt hi))
    rw [Nat.testBit_lt_two_pow ha2, Nat.testBit_lt_two_pow hb2]

theorem entriesOf_keys_nodup {H : Nat} {l : List (Felt × Felt)}
    (hnd : (l.map Prod.fst).Nodup) (hrange : ∀ p ∈ l, p.1 ≤ 2 ^ H - 1) :
    ((entriesOf H l).map Prod.fst).Nodup := by
  have h1 : (entriesOf H l).map Prod.fst =
      (l.map Prod.fst).map (feltToKey H) := by
    simp [entriesOf, List.map_map]
  rw [h1]
  refine List.Nodup.map_on ?_ hnd
  intro a ha b hb hab
  have hpow : 0 < 2 ^ H := pow_pos (by norm_num) H
  obtain ⟨p, hp, hpa⟩ := List.mem_map.mp ha
  obtain ⟨q, hq, hqb⟩ := List.mem_map.mp hb
  have ha2 : a < 2 ^ H := by
    have h3 := hrange p hp
    rw [hpa] at h3
    exact Nat.lt_of_le_pred hpow h3
  have hb2 : b < 2 ^ H := by
    have h3 := hrange q hq
    rw [hqb] at h3
    exact Nat.lt_of_le_pred hpow h3
  exact feltToKey_inj ha2 hb2 hab

theorem rel_empty (hash : HashFn) (H : Nat) :
    Rel hash H [] (emptyTrie H hash) := by
  refine ⟨rfl, rfl, rfl, ?_, ?_, ?_, ?_, rfl, ?_, ?_, ?_⟩
  · intro e he
    exact absurd he (List.not_mem_nil e)
  · exact List.nodup_nil
  · rw [if_pos rfl]
    rfl
  · intro d hd
    exact absurd hd (List.not_mem_nil d)
  · exact List.nodup_nil
  · intro j
    constructor
    · rintro ⟨n, hn⟩
      simp [findAssoc] at hn
    · intro hj
      exact absurd rfl hj.1
  · intro q hq
    exact absurd hq (List.not_mem_nil q)

theorem rel_putList : ∀ (l : List (Felt × Felt)) {hash : HashFn} {H : Nat}
    {t : Trie} {E : List (Key × Felt)}, Rel hash H E t →
    (∀ p ∈ l, p.1 ≤ 2 ^ H - 1) → (∀ p ∈ l, p.2 ≠ 0) →
    ((E ++ entriesOf H l).map Prod.fst).Nodup →
    Rel hash H (E ++ entriesOf H l) (putList t l) := by
  intro l
  induction l with
  | nil =>
    intro hash H t E hrel _ _ _
    simpa [putList, entriesOf] using hrel
  | cons p rest ih =>
    intro hash H t E hrel hrange hnz hnd
    have hknew : feltToKey H p.1 ∉ E.map Prod.fst := by
      intro h0
      rw [List.map_append, List.nodup_append] at hnd
      exact hnd.2.2 h0 (by simp [entriesOf])
    have hstep : Rel hash H (E ++ [(feltToKey H p.1, p.2)])
        (t.Put p.1 p.2).2 :=
      put_step hrel p.1 p.2 (hnz p (List.mem_cons_self p rest))
        (hrange p (List.mem_cons_self p rest)) hknew
    have he : (E ++ [(feltToKey H p.1, p.2)]) ++ entriesOf H rest =
        E ++ entriesOf H (p :: rest) := by
      simp [entriesOf]
    have hnd2 : (((E ++ [(feltToKey H p.1, p.2)]) ++
        entriesOf H rest).map Prod.fst).Nodup := by
      rw [he]
      exact hnd
    have h2 := ih hstep (fun q hq => hrange q (List.mem_cons_of_mem _ hq))
      (fun q hq => hnz q (List.mem_cons_of_mem _ hq)) hnd2
    rw [← he]
    exact h2

/-- C2: inserting any list of key/nonzero-value pairs with pairwise
distinct keys, all at most maxKey, into the empty trie via Put and then
calling Root yields a commitment that does not depend on the insertion
order of the pairs. -/
theorem root_insertion_order_independent {hash : HashFn} {H : Nat}
    (l₁ l₂ : List (Felt × Felt)) (hperm : l₁.Perm l₂)
    (hnd : (l₁.map Prod.fst).Nodup)
    (hrange : ∀ p ∈ l₁, p.1 ≤ 2 ^ H - 1) (hnz : ∀ p ∈ l₁, p.2 ≠ 0) :
    ((putList (emptyTrie H hash) l₁).Root).1 =
      ((putList (emptyTrie H hash) l₂).Root).1 := by
  have hnd₂ : (l₂.map Prod.fst).Nodup := ((hperm.map _).nodup_iff).mp hnd
  have hrange₂ : ∀ p ∈ l₂, p.1 ≤ 2 ^ H - 1 :=
    fun p hp => hrange p (hperm.mem_iff.mpr hp)
  have hnz₂ : ∀ p ∈ l₂, p.2 ≠ 0 :=
    fun p hp => hnz p (hperm.mem_iff.mpr hp)
  have hrel₁ := rel_putList l₁ (rel_empty hash H) hrange hnz
    (entriesOf_keys_nodup hnd hrange)
  have hrel₂ := rel_putList l₂ (rel_empty hash H) hrange₂ hnz₂
    (entriesOf_keys_nodup hnd₂ hrange₂)
  have h₁ := root_eval hrel₁
  have h₂ := root_eval hrel₂
  rw [h₁, h₂]
  have hpe : (([] : List (Key × Felt)) ++ entriesOf H l₁).Perm
      (([] : List (Key × Felt)) ++ entriesOf H l₂) := by
    show (entriesOf H l₁).Perm (entriesOf H l₂)
    exact hperm.map (fun p => (feltToKey H p.1, p.2))
  rw [rootVal_perm hpe]

theorem root_insertion_order_independent_witness :
    [((1 : Felt), (5 : Felt)), (2, 7)].Perm [(2, 7), (1, 5)] ∧
    ((putList (emptyTrie 2 testHash) [(1, 5), (2, 7)]).Root).1 =
      ((putList (emptyTrie 2 testHash) [(2, 7), (1, 5)]).Root).1 :=
  ⟨by decide, root_insertion_order_independent [(1, 5), (2, 7)]
    [(2, 7), (1, 5)] (by decide) (by decide) (by decide) (by decide)⟩

end JunoTrie

